import Mathlib

/-!
# Verification of `trash`: import closure, pruning, manifest, remote names

A shallow embedding of `trash.go` and `conf/conf.go`, and the properties proved of it.

Conventions of the embedding:

* A Go string is a list of characters (`GoString`); `len`, indexing and slicing act on list
  positions.
* A map used as a set (`util.Packages`, `map[string]bool`) is a list read through membership;
  the order of its elements carries no meaning.
* A channel is the list of what it delivers.
* A run-time panic or fatal exit is an explicit outcome (`none`, `Ret.panic`, `Outcome.panic`).
* The file system is a tree of entries (`Node`), each directory holding its entries in the
  order in which `filepath.Walk` reads them; calls on the file system succeed.
* `Walk`, and the functions of the code built on it, take `targetDir` in clean form
  (`cleanTarget`: left as it is by `filepath.Clean`, and neither `.` nor `/`), where
  `filepath.Join(path, name)` inside a walk is `path + "/" + name` (`Join_of_clean`).
  `filepath.Walk` is the walk for a root in any form; the two agree on a root in clean form
  (`Walk_filepath_eq`).
-/

namespace Trash

/-- A Go string. -/
abbrev GoString := List Char

/-- The slice expression `s[lo:hi]`; `none` is the run-time panic for bounds out of range. -/
def goSlice (s : GoString) (lo hi : Int) : Option GoString :=
  if 0 ≤ lo ∧ lo ≤ hi ∧ hi ≤ (s.length : Int) then some ((s.take hi.toNat).drop lo.toNat) else none

/-- The slice expression `s[lo:]`; `none` is the run-time panic for bounds out of range. -/
def goSliceFrom (s : GoString) (lo : Int) : Option GoString :=
  goSlice s lo s.length

namespace strings

/-- Go `strings.HasPrefix`. -/
def HasPrefix (s pre : GoString) : Bool := pre.isPrefixOf s

/-- Go `strings.HasSuffix`. -/
def HasSuffix (s suf : GoString) : Bool := suf.isSuffixOf s

/-- Scan for `strings.LastIndex`: `i` is the index of the first element of the remaining text,
`acc` the last index found so far. -/
def lastIndexFrom (sep : GoString) : GoString → Nat → Int → Int
  | [], i, acc => if sep = [] then (i : Int) else acc
  | c :: cs, i, acc =>
    lastIndexFrom sep cs (i + 1) (if sep.isPrefixOf (c :: cs) then (i : Int) else acc)

/-- Go `strings.LastIndex`: index of the last occurrence of `sep` in `s`, or `-1`. -/
def LastIndex (s sep : GoString) : Int := lastIndexFrom sep s 0 (-1)

end strings

namespace path

/-- Go `path.Split`: `i := strings.LastIndex(path, "/"); return path[:i+1], path[i+1:]`. -/
def Split (p : GoString) : GoString × GoString :=
  let i := (strings.LastIndex p ['/'] + 1).toNat
  (p.take i, p.drop i)

end path

namespace util

/-- Modelled from the spec: `util.Packages` (package `util` is not among the sources) is the
"set of import-path strings" of the data model, a `map[string]bool` whose keys are the members. -/
abbrev Packages := List GoString

/-- The map read `r[p]`. -/
def Packages.has (r : Packages) (p : GoString) : Bool := r.contains p

/-- The map write `r[p] = true`. -/
def Packages.set (r : Packages) (p : GoString) : Packages := if r.contains p then r else r ++ [p]

/-- Modelled from the spec: `Packages.Merge` is the "defined merge (union) operation" of the
closure sets; it adds every key of `other` to the receiver. -/
def Packages.Merge (r other : Packages) : Packages := other.foldl Packages.set r

/-- Modelled from the spec: `util.OneStr` (package `util` is not among the sources) is a
channel that delivers its one string; a channel is modelled by the list of what it
delivers. -/
def OneStr (s : GoString) : List GoString := [s]

/-- Modelled from the spec: `util.MergeStrChans` (package `util` is not among the sources)
delivers what its argument channels deliver ("results are merged ... via a single aggregation
point"). -/
def MergeStrChans (a b : List GoString) : List GoString := a ++ b

/-- Modelled from the spec: `util.MergePackagesChans` (package `util` is not among the
sources) delivers the sets that its argument channels deliver, one per scan ("the engine never
starts scanning the next frontier until the current one has fully reported"). -/
abbrev MergePackagesChans (cs : List Packages) : List Packages := cs

end util

open util

/-- Loop of `parentPackages`, run at most `fuel` times. -/
def parentPackagesLoop (lenRoot : Nat) : Nat → GoString → Packages → Packages
  | 0, _, r => r
  | fuel + 1, p, r =>
    if p.length > lenRoot then
      let r := Packages.set r p
      let p := (path.Split p).1
      let p := if p.length > 0 ∧ p.getLast? = some '/' then p.take (p.length - 1) else p
      parentPackagesLoop lenRoot fuel p r
    else r

/-- Source `parentPackages`: `p` and every prefix of `p` ending before a `'/'`, while longer
than `root`.  Each iteration shortens `p`, so `len(p)` iterations are enough. -/
def parentPackages (root p : GoString) : Packages :=
  parentPackagesLoop root.length p.length p []

/-- The path that one iteration of the loop of `parentPackages` moves to: the directory part of
`path.Split` without its trailing separator. -/
def parentStep (p : GoString) : GoString :=
  let q := (path.Split p).1
  if q.length > 0 ∧ q.getLast? = some '/' then q.take (q.length - 1) else q

/-- One import spec of a file (`ast.ImportSpec`): the quoted path literal and, when the spec has
its own doc comment, the text of that comment (`Doc.Text()`). -/
structure ImportSpec where
  pathValue : GoString
  doc : Option GoString
  deriving Repr, DecidableEq

/-- A spec of a general declaration: an import spec or another kind. -/
inductive Spec where
  | importSpec (s : ImportSpec) : Spec
  | other : Spec
  deriving Repr, DecidableEq

/-- A top-level declaration (`ast.Decl`): a `GenDecl` with its doc text and specs, or another
declaration. -/
inductive Decl where
  | genDecl (doc : Option GoString) (specs : List Spec) : Decl
  | other : Decl
  deriving Repr, DecidableEq

/-- A comment group (`ast.CommentGroup`): its position and the text of each comment in it,
comment marker included. -/
structure CommentGroup where
  pos : Nat
  list : List GoString
  deriving Repr, DecidableEq

/-- What the code reads of a parsed file (`ast.File`): the package name, the position of the
`package` keyword, the comment groups, the index in `comments` of the package doc comment
(`f.Doc`), and the declarations. -/
structure AstFile where
  name : GoString
  package : Nat
  comments : List CommentGroup
  doc : Option Nat
  decls : List Decl
  deriving Repr, DecidableEq

/-- A file-system entry: a non-directory file (with the result of parsing it as Go source,
`none` when it does not parse) or a directory with its entries, in the order `filepath.Walk`
reads them. -/
inductive Node where
  | file (name : GoString) (src : Option AstFile) : Node
  | dir (name : GoString) (entries : List Node) : Node
  deriving Repr

/-- Name of an entry (`info.Name()`). -/
def Node.name : Node → GoString
  | .file n _ => n
  | .dir n _ => n

/-- Whether an entry is a directory (`info.IsDir()`). -/
def Node.IsDir : Node → Bool
  | .file _ _ => false
  | .dir _ _ => true

/-- Value a walk function returns: `nil`, `filepath.SkipDir`, or (third outcome) a run-time panic
raised inside the call.  File-system calls are taken to succeed, so no other error arises. -/
inductive Ret where
  | nil
  | skipDir
  | panic
  deriving Repr, DecidableEq

/-- Effect of one call of a walk function on the visited path: whether it removed the path
(`os.Remove`, `os.RemoveAll`) and what it returned. -/
structure Visit where
  removed : Bool
  ret : Ret
  deriving Repr, DecidableEq

/-- Join of a walked directory path and an entry name: `filepath.Join(path, name)` for a
`path` in clean form and a plain name (theorem `Join_of_clean`). -/
def joinPath (dir name : GoString) : GoString := dir ++ '/' :: name

mutual
/-- Go `filepath.Walk` below the root (`walk`), at a path in clean form: the function is called
on the entry; a directory that is kept and not skipped has its entries walked in order.  Result:
the entry as left on disk (`none` when removed) and the value returned. -/
def walk (fn : GoString → Node → Visit) (p : GoString) : Node → Option Node × Ret
  | .file name src =>
    let v := fn p (.file name src)
    (if v.removed then none else some (.file name src), v.ret)
  | .dir name entries =>
    let v := fn p (.dir name entries)
    if v.removed then (none, v.ret)
    else match v.ret with
      | .nil =>
        let r := walkEntries fn p entries
        (some (.dir name r.1), r.2)
      | e => (some (.dir name entries), e)
/-- Loop of `walk` over the names of a directory: `SkipDir` from a directory entry is dropped,
`SkipDir` from a non-directory entry ends the loop (the remaining entries are skipped), a panic
ends everything. -/
def walkEntries (fn : GoString → Node → Visit) (parent : GoString) :
    List Node → List Node × Ret
  | [] => ([], .nil)
  | n :: rest =>
    let r := walk fn (joinPath parent n.name) n
    match r.2 with
    | .panic => (r.1.toList ++ rest, .panic)
    | .skipDir =>
      if n.IsDir then
        let rs := walkEntries fn parent rest
        (r.1.toList ++ rs.1, rs.2)
      else (r.1.toList ++ rest, .skipDir)
    | .nil =>
      let rs := walkEntries fn parent rest
      (r.1.toList ++ rs.1, rs.2)
end

/-- Go `filepath.Walk(root, fn)` on an existing directory `root` in clean form with the given
entries: the function is first called on `root` itself; `SkipDir` at top level is turned into
`nil`.  For a root in any form see `filepath.Walk`, which agrees with this walk on a root in
clean form (theorem `Walk_filepath_eq`). -/
def Walk (root : GoString) (entries : List Node) (fn : GoString → Node → Visit) :
    List Node × Ret :=
  let v := fn root (.dir root entries)
  if v.removed then ([], if v.ret = .skipDir then .nil else v.ret)
  else match v.ret with
    | .nil =>
      let r := walkEntries fn root entries
      (r.1, if r.2 = .skipDir then .nil else r.2)
    | .skipDir => (entries, .nil)
    | .panic => (entries, .panic)

/-- Walk function of `removeUnusedImports`. -/
def removeUnusedImportsFn (imports importsParents : Packages) (targetDir : GoString)
    (p : GoString) (info : Node) : Visit :=
  if p = targetDir then ⟨false, .nil⟩
  else if !info.IsDir then
    match goSlice p ((targetDir ++ ['/']).length) (strings.LastIndex p ['/']) with
    | none => ⟨false, .panic⟩
    | some pkg =>
      if strings.HasSuffix p "_test.go".toList
          || strings.HasSuffix p ".go".toList && !imports.has pkg then
        ⟨true, .nil⟩
      else ⟨false, .nil⟩
  else
    match goSliceFrom p ((targetDir ++ ['/']).length) with
    | none => ⟨false, .panic⟩
    | some pkg =>
      if !imports.has pkg && !importsParents.has pkg then ⟨true, .skipDir⟩
      else ⟨false, .nil⟩

/-- Source `removeUnusedImports`: the parents of every import are merged, then the vendor tree
is walked. Result: the entries of `targetDir` afterwards and the outcome of the walk. -/
def removeUnusedImports (imports : Packages) (targetDir : GoString) (vendor : List Node) :
    List Node × Ret :=
  let importsParents := imports.foldl (fun acc i => Packages.Merge acc (parentPackages [] i)) []
  Walk targetDir vendor (removeUnusedImportsFn imports importsParents targetDir)

/-- Walk function of `removeExcludes`. -/
def removeExcludesFn (exclude : List GoString) (targetDir : GoString)
    (p : GoString) (_info : Node) : Visit :=
  if p = targetDir then ⟨false, .nil⟩
  else
    match goSliceFrom p ((targetDir ++ ['/']).length) with
    | none => ⟨false, .panic⟩
    | some pkg => if exclude.contains pkg then ⟨true, .skipDir⟩ else ⟨false, .nil⟩

/-- Source `removeExcludes`. -/
def removeExcludes (excludes : List GoString) (targetDir : GoString) (vendor : List Node) :
    List Node × Ret :=
  Walk targetDir vendor (removeExcludesFn excludes targetDir)

mutual
/-- Every path at or below an entry whose own path is `p`, each with its directory flag. -/
def Node.listing (p : GoString) : Node → List (GoString × Bool)
  | .file _ _ => [(p, false)]
  | .dir _ entries => (p, true) :: listingEntries p entries
/-- Every path below the directory `parent` holding `entries`. -/
def listingEntries (parent : GoString) : List Node → List (GoString × Bool)
  | [] => []
  | n :: rest => n.listing (joinPath parent n.name) ++ listingEntries parent rest
end

/-- A file name as a file system holds it: nonempty and without separator. -/
def validName (name : GoString) : Bool := decide (name ≠ []) && !name.contains '/'

mutual
/-- Every entry at or below this one has a valid name. -/
def Node.wellNamed : Node → Bool
  | .file name _ => validName name
  | .dir name entries => validName name && wellNamedEntries entries
/-- Every entry of the list, at any depth, has a valid name. -/
def wellNamedEntries : List Node → Bool
  | [] => true
  | n :: rest => n.wellNamed && wellNamedEntries rest
end

/-- A relative path `d` is kept by the closure: it is a member, or a member lies beneath it
(`d` followed by `'/'` is a prefix of the member). -/
def protectedBy (imports : Packages) (d : GoString) : Prop :=
  d ∈ imports ∨ ∃ m ∈ imports, (d ++ ['/']) <+: m

namespace strings

/-- Go `strings.Contains`. -/
def Contains : GoString → GoString → Bool
  | [], sub => sub.isPrefixOf []
  | c :: cs, sub => sub.isPrefixOf (c :: cs) || Contains cs sub

/-- Scan for `strings.Split` with a nonempty separator: `cur` is the current piece (reversed),
`skip` counts the elements of a matched separator still to pass. -/
def splitFrom (sep : GoString) : GoString → GoString → Nat → List GoString
  | [], cur, _ => [cur.reverse]
  | _ :: cs, cur, skip + 1 => splitFrom sep cs cur skip
  | c :: cs, cur, 0 =>
    if sep.isPrefixOf (c :: cs) then cur.reverse :: splitFrom sep cs [] (sep.length - 1)
    else splitFrom sep cs (c :: cur) 0

/-- Go `strings.Split`: the pieces of `s` between the occurrences of `sep`; with an empty
separator, the elements of `s` one by one. -/
def Split (s sep : GoString) : List GoString :=
  if sep = [] then s.map (fun c => [c]) else splitFrom sep s [] 0

/-- Lower case of one character (`unicode.ToLower`) as far as the result is an ASCII letter:
the ASCII capitals, and the two other characters whose lower case is ASCII (U+0130 and the
Kelvin sign U+212A).  Other characters are left as they are. -/
def toLowerChar (c : Char) : Char :=
  if c.toNat = 0x130 then 'i' else if c.toNat = 0x212A then 'k' else c.toLower

/-- Go `strings.ToLower`, see `toLowerChar`. -/
def ToLower (s : GoString) : GoString := s.map toLowerChar

end strings

/-- Source `goSuffixes`. -/
def goSuffixes : List GoString :=
  ["go".toList, "h".toList, "c".toList, "s".toList, "cpp".toList, "hpp".toList]

/-- Source `isLicenseFile`. -/
def isLicenseFile (f : GoString) : Bool :=
  let f := strings.ToLower f
  if strings.Contains f "license".toList || strings.Contains f "notice".toList then true
  else false

/-- Source `isGoFile`. -/
def isGoFile (f : GoString) : Bool :=
  let parts := strings.Split f ['.']
  if parts.length = 1 then false
  else goSuffixes.contains (parts.getLast?.getD [])

/-- Walk function of `removeUnusedFiles`. -/
def removeUnusedFilesFn (targetDir : GoString) (p : GoString) (info : Node) : Visit :=
  if p = targetDir then ⟨false, .nil⟩
  else if info.IsDir then ⟨false, .nil⟩
  else if !isGoFile info.name && !isLicenseFile info.name then ⟨true, .nil⟩
  else ⟨false, .nil⟩

/-- Source `removeUnusedFiles`. -/
def removeUnusedFiles (targetDir : GoString) (vendor : List Node) : List Node × Ret :=
  Walk targetDir vendor (removeUnusedFilesFn targetDir)

/-- Walk function of `removeEmptyDirs`: `os.Remove` on a directory succeeds when it is empty. -/
def removeEmptyDirsFn (targetDir : GoString) (p : GoString) (info : Node) : Visit :=
  if p = targetDir then ⟨false, .nil⟩
  else match info with
    | .dir _ [] => ⟨true, .skipDir⟩
    | _ => ⟨false, .nil⟩

mutual
/-- Number of directories at or below an entry. -/
def Node.countDirs : Node → Nat
  | .file _ _ => 0
  | .dir _ entries => 1 + countDirsEntries entries
/-- Number of directories below a directory with these entries. -/
def countDirsEntries : List Node → Nat
  | [] => 0
  | n :: rest => n.countDirs + countDirsEntries rest
end

/-- Loop of `removeEmptyDirs`, run at most `fuel` times: walk until a pass removes nothing
(`count == 0`), which shows as an unchanged number of directories. -/
def removeEmptyDirsLoop (targetDir : GoString) : Nat → List Node → List Node × Ret
  | 0, vendor => (vendor, .nil)
  | fuel + 1, vendor =>
    let r := Walk targetDir vendor (removeEmptyDirsFn targetDir)
    if r.2 ≠ .nil then r
    else if countDirsEntries r.1 = countDirsEntries vendor then (r.1, .nil)
    else removeEmptyDirsLoop targetDir fuel r.1

/-- Source `removeEmptyDirs`.  Every pass but the last removes a directory, so one pass more
than there are directories is enough. -/
def removeEmptyDirs (targetDir : GoString) (vendor : List Node) : List Node × Ret :=
  removeEmptyDirsLoop targetDir (countDirsEntries vendor + 1) vendor

/-- Vendor tree of the examples: package `A` with a test file, a C file, a nested used
subpackage and an unused subpackage, and package `B`. -/
def exampleVendor : List Node :=
  [.dir "A".toList
      [.file "a.go".toList none, .file "a_test.go".toList none,
        .dir "sub".toList [.dir "deep".toList [.file "d.go".toList none]],
        .dir "unused".toList [.file "u.go".toList none],
        .file "x.c".toList none],
    .dir "B".toList [.file "b.go".toList none]]

/-! ## Package `conf`: the manifest -/

namespace sort

/-- Go `sort.Strings`: the strings in increasing order (element-wise lexicographic order). -/
def Strings (ps : List GoString) : List GoString := ps.insertionSort (· ≤ ·)

end sort

namespace conf

/-- Source `Options`. -/
structure Options where
  Transitive : Bool
  Staging : Bool
  deriving Repr, DecidableEq, Inhabited

/-- Source `Import`. -/
structure Import where
  Package : GoString
  Version : GoString
  Repo : GoString
  Options : Options
  deriving Repr, DecidableEq, Inhabited

/-- The zero value of `Import`, which a map read yields for a missing key. -/
def Import.zero : Import := ⟨[], [], [], ⟨false, false⟩⟩

/-- Source `Conf`; the map `importMap` is an association list with distinct keys. -/
structure Conf where
  Package : GoString
  Imports : List Import
  Excludes : List GoString
  IgnoredTags : List GoString
  IgnoredPkgs : List GoString
  NativeOnly : Bool
  importMap : List (GoString × Import)
  confFile : GoString
  yamlType : Bool
  deriving Repr, DecidableEq

/-- First loop of `Dedupe`: an import is stored unless its package is already a key. -/
def dedupeMap (imports : List Import) : List (GoString × Import) :=
  imports.foldl
    (fun m i => if (m.lookup i.Package).isSome then m else m ++ [(i.Package, i)]) []

/-- Source `Conf.Dedupe`.  `range` is the order in which `for p := range t.importMap` yields
the keys, which Go leaves unspecified. -/
def Conf.Dedupe (range : List GoString → List GoString) (t : Conf) : Conf :=
  let importMap := dedupeMap t.Imports
  let ps := range (importMap.map (·.1))
  let ps := sort.Strings ps
  let imports := ps.map (fun p => (importMap.lookup p).getD Import.zero)
  { t with importMap := importMap, Imports := imports }

/-- Source `Conf.Get`. -/
def Conf.Get (t : Conf) (pkg : GoString) : Import × Bool :=
  match t.importMap.lookup pkg with
  | some i => (i, true)
  | none => (Import.zero, false)

end conf

/-! ## Remote names -/

namespace sha1

/-- Rotate a 32-bit word left by `n` bits. -/
def rotl (x n : Nat) : Nat := ((x <<< n) ||| (x >>> (32 - n))) % 2 ^ 32

/-- Padding of a message: the byte `0x80`, zero bytes up to 56 modulo 64, and the bit length
on 8 bytes, big endian. -/
def pad (msg : List Nat) : List Nat :=
  let bits := 8 * msg.length
  msg ++ [0x80] ++ List.replicate ((119 - msg.length % 64) % 64) 0
    ++ (List.range 8).map (fun i => (bits >>> (8 * (7 - i))) % 256)

/-- The 16 big-endian words of a 64-byte block. -/
def blockWords (block : List Nat) : List Nat :=
  (List.range 16).map (fun i =>
    (block.getD (4 * i) 0 <<< 24) ||| (block.getD (4 * i + 1) 0 <<< 16)
      ||| (block.getD (4 * i + 2) 0 <<< 8) ||| block.getD (4 * i + 3) 0)

/-- The 80-word message schedule of a block. -/
def schedule (block : List Nat) : List Nat :=
  (List.range 64).foldl
    (fun w j =>
      let t := j + 16
      w ++ [rotl (w.getD (t - 3) 0 ^^^ w.getD (t - 8) 0 ^^^ w.getD (t - 14) 0
        ^^^ w.getD (t - 16) 0) 1])
    (blockWords block)

/-- Hash state: the five chaining words. -/
structure State where
  h0 : Nat
  h1 : Nat
  h2 : Nat
  h3 : Nat
  h4 : Nat
  deriving Repr, DecidableEq

/-- One of the 80 rounds. -/
def round (w : List Nat) (s : State) (t : Nat) : State :=
  let f :=
    if t < 20 then (s.h1 &&& s.h2) ||| ((s.h1 ^^^ 0xFFFFFFFF) &&& s.h3)
    else if t < 40 then s.h1 ^^^ s.h2 ^^^ s.h3
    else if t < 60 then (s.h1 &&& s.h2) ||| (s.h1 &&& s.h3) ||| (s.h2 &&& s.h3)
    else s.h1 ^^^ s.h2 ^^^ s.h3
  let k :=
    if t < 20 then 0x5A827999 else if t < 40 then 0x6ED9EBA1
    else if t < 60 then 0x8F1BBCDC else 0xCA62C1D6
  ⟨(rotl s.h0 5 + f + s.h4 + k + w.getD t 0) % 2 ^ 32, s.h0, rotl s.h1 30, s.h2, s.h3⟩

/-- Compression of one block into the state. -/
def compress (s : State) (block : List Nat) : State :=
  let r := (List.range 80).foldl (round (schedule block)) s
  ⟨(s.h0 + r.h0) % 2 ^ 32, (s.h1 + r.h1) % 2 ^ 32, (s.h2 + r.h2) % 2 ^ 32,
    (s.h3 + r.h3) % 2 ^ 32, (s.h4 + r.h4) % 2 ^ 32⟩

/-- Compression of `n` consecutive 64-byte blocks. -/
def compressBlocks : Nat → State → List Nat → State
  | 0, s, _ => s
  | n + 1, s, bytes => compressBlocks n (compress s (bytes.take 64)) (bytes.drop 64)

/-- The four bytes of a word, big endian. -/
def wordBytes (w : Nat) : List Nat :=
  [(w >>> 24) % 256, (w >>> 16) % 256, (w >>> 8) % 256, w % 256]

/-- Go `sha1.Sum`: the 20-byte SHA-1 digest of a byte sequence. -/
def Sum (data : List Nat) : List Nat :=
  let p := pad data
  let s := compressBlocks (p.length / 64) ⟨0x67452301, 0xEFCDAB89, 0x98BADCFE, 0x10325476,
    0xC3D2E1F0⟩ p
  wordBytes s.h0 ++ wordBytes s.h1 ++ wordBytes s.h2 ++ wordBytes s.h3 ++ wordBytes s.h4

end sha1

namespace hex

/-- Go `hextable`. -/
def hextable : GoString := "0123456789abcdef".toList

/-- Go `hex.EncodeToString`: two digits per byte, `hextable[v>>4]` and `hextable[v&0x0f]`. -/
def EncodeToString (src : List Nat) : GoString :=
  src.flatMap (fun v => [hextable.getD (v >>> 4) '0', hextable.getD (v &&& 0x0f) '0'])

end hex

/-- The bytes of one character in UTF-8. -/
def utf8Bytes (c : Char) : List Nat :=
  let n := c.toNat
  if n < 0x80 then [n]
  else if n < 0x800 then [0xC0 + n / 64, 0x80 + n % 64]
  else if n < 0x10000 then [0xE0 + n / 4096, 0x80 + n / 64 % 64, 0x80 + n % 64]
  else [0xF0 + n / 262144, 0x80 + n / 4096 % 64, 0x80 + n / 64 % 64, 0x80 + n % 64]

/-- The conversion `[]byte(s)`: the UTF-8 bytes of the string. -/
def stringBytes (s : GoString) : List Nat := s.flatMap utf8Bytes

/-- Source `remoteName`.  The slice `[:7]` is taken of the 40 hexadecimal digits of the
digest. -/
def remoteName (url : GoString) : GoString :=
  if url = [] then "origin".toList
  else (hex.EncodeToString (sha1.Sum (stringBytes url))).take 7

namespace conf

/-- Manifest of the examples: package `b` twice, with two versions, around package `a`. -/
def exampleConf : Conf :=
  { Package := "example.com/app".toList
    Imports :=
      [⟨"b".toList, "v1".toList, [], ⟨false, false⟩⟩,
        ⟨"a".toList, "v2".toList, [], ⟨true, false⟩⟩,
        ⟨"b".toList, "v3".toList, "https://example.com/b.git".toList, ⟨false, true⟩⟩]
    Excludes := []
    IgnoredTags := []
    IgnoredPkgs := []
    NativeOnly := false
    importMap := []
    confFile := "vendor.conf".toList
    yamlType := true }

end conf

/-! ## Scanning sources: `listImports`, `listPackages`, `collectImports` -/

namespace strings

/-- Go `unicode.IsSpace`. -/
def isSpace (c : Char) : Bool :=
  c = '\t' || c = '\n' || c.toNat = 0x0B || c.toNat = 0x0C || c = '\r' || c = ' '
    || c.toNat = 0x85 || c.toNat = 0xA0 || c.toNat = 0x1680
    || (0x2000 ≤ c.toNat && c.toNat ≤ 0x200A) || c.toNat = 0x2028 || c.toNat = 0x2029
    || c.toNat = 0x202F || c.toNat = 0x205F || c.toNat = 0x3000

/-- Go `strings.TrimSpace`. -/
def TrimSpace (s : GoString) : GoString :=
  ((s.dropWhile isSpace).reverse.dropWhile isSpace).reverse

/-- Go `strings.TrimPrefix`. -/
def TrimPrefix (s pre : GoString) : GoString :=
  if HasPrefix s pre then s.drop pre.length else s

/-- Go `strings.TrimSuffix`. -/
def TrimSuffix (s suf : GoString) : GoString :=
  if HasSuffix s suf then s.take (s.length - suf.length) else s

/-- Go `strings.Join`. -/
def Join (elems : List GoString) (sep : GoString) : GoString :=
  sep.intercalate elems

end strings

namespace filepath

/-- Loop of `Clean` over the path elements, `out` holding the elements kept so far, last
first: empty and `.` elements are dropped, `..` removes the element before it unless there is
none or it is itself `..`, in which case it is kept in an unrooted path and dropped in a
rooted one. -/
def cleanElems (rooted : Bool) : List GoString → List GoString → List GoString
  | [], out => out.reverse
  | e :: es, out =>
    if e = [] ∨ e = ['.'] then cleanElems rooted es out
    else if e = ['.', '.'] then
      match out with
      | top :: below =>
        if top = ['.', '.'] then cleanElems rooted es (e :: out)
        else cleanElems rooted es below
      | [] => if rooted then cleanElems rooted es [] else cleanElems rooted es [e]
    else cleanElems rooted es (e :: out)

/-- Go `filepath.Clean` (also `path.Clean`) for `'/'`-separated paths: the shortest
equivalent path by lexical processing; the empty path becomes `.`. -/
def Clean (p : GoString) : GoString :=
  let rooted := strings.HasPrefix p ['/']
  let body := strings.Join (cleanElems rooted (strings.Split p ['/']) []) ['/']
  if rooted then '/' :: body else if body = [] then ['.'] else body

/-- Go `filepath.Join` (also `path.Join`) of two elements: from the first non-empty element on,
the elements are joined by `'/'` and the result is cleaned. -/
def Join (a b : GoString) : GoString :=
  if a ≠ [] then Clean (a ++ '/' :: b) else if b ≠ [] then Clean b else []

/-- Go `filepath.Dir`: the path up to the last separator, cleaned. -/
def Dir (p : GoString) : GoString :=
  Clean (p.take (strings.LastIndex p ['/'] + 1).toNat)

end filepath

/-- Source `goosList` (the keys set in `init`). -/
def goosList : List GoString :=
  ["android", "darwin", "dragonfly", "freebsd", "linux", "nacl", "netbsd", "openbsd", "plan9",
    "solaris", "windows"].map String.toList

/-- Source `goarchList` (the keys set in `init`). -/
def goarchList : List GoString :=
  ["386", "amd64", "amd64p32", "arm", "armbe", "arm64", "arm64be", "ppc64", "ppc64le", "mips",
    "mipsle", "mips64", "mips64le", "mips64p32", "mips64p32le", "ppc", "s390", "s390x", "sparc",
    "sparc64"].map String.toList

/-- The platform the program runs on: `runtime.GOOS` and `runtime.GOARCH`. -/
structure Runtime where
  GOOS : GoString
  GOARCH : GoString
  deriving Repr, DecidableEq

/-- The import specs of a file (`f.Imports`): those of its general declarations. -/
def AstFile.Imports (f : AstFile) : List ImportSpec :=
  f.decls.flatMap (fun d =>
    match d with
    | .genDecl _ specs => specs.filterMap (fun s =>
        match s with
        | .importSpec i => some i
        | .other => none)
    | .other => [])

/-- Source `noVendoredTests`, the file filter inside `listImports`. -/
def noVendoredTests (rt : Runtime) (libRoot pkgPath : GoString) (nativeOnly : Bool)
    (name : GoString) : Bool :=
  if strings.HasPrefix pkgPath (libRoot ++ ['/']) && strings.HasSuffix name "_test.go".toList
  then false
  else if !nativeOnly then true
  else
    let nameParts := strings.Split name ['_']
    if nameParts.length = 1 then true
    else
      let last := strings.TrimSuffix (nameParts.getLast?.getD []) ".go".toList
      let prev := nameParts.getD (nameParts.length - 2) []
      if goosList.contains last && last ≠ rt.GOOS then false
      else if goarchList.contains last && last ≠ rt.GOARCH then false
      else if goarchList.contains last && goosList.contains prev && prev ≠ rt.GOOS then false
      else true

/-- Path of an entry as `filepath.Walk` names it: `filepath.Join(dir, name)`, which for the
root `.` is the name alone. -/
def walkJoin (dir name : GoString) : GoString :=
  if dir = ['.'] then name else joinPath dir name

mutual
/-- The directories at or below an entry, each with its path and its entries. -/
def Node.dirTable (p : GoString) : Node → List (GoString × List Node)
  | .file _ _ => []
  | .dir _ entries => (p, entries) :: dirTableEntries p entries
/-- The directories below the directory `parent`. -/
def dirTableEntries (parent : GoString) : List Node → List (GoString × List Node)
  | [] => []
  | n :: rest => n.dirTable (walkJoin parent n.name) ++ dirTableEntries parent rest
end

/-- The directories of the project, the working directory `.` first, keyed by the path under
which a walk from `.` reaches them.  A directory is found under this path only; other spellings
of it are taken as missing. -/
def projectDirs (proj : List Node) : List (GoString × List Node) :=
  (['.'], proj) :: dirTableEntries ['.'] proj

/-- Go `parser.ParseDir` on the entries of a directory: the Go files (name ending in `.go`,
accepted by the filter) parsed; `none` when one of them fails to parse.  A file is taken to
parse in every mode or in none. -/
def parseEntries (filter : GoString → Bool) : List Node → Option (List AstFile)
  | [] => some []
  | .dir _ _ :: rest => parseEntries filter rest
  | .file name src :: rest =>
    if strings.HasSuffix name ".go".toList && filter name then
      match src, parseEntries filter rest with
      | some f, some fs => some (f :: fs)
      | _, _ => none
    else parseEntries filter rest

/-- Go `parser.ParseDir` on a path: `none` is an error, from a missing directory or from a
file that fails to parse. -/
def ParseDir (proj : List Node) (p : GoString) (filter : GoString → Bool) :
    Option (List AstFile) :=
  match List.lookup p (projectDirs proj) with
  | none => none
  | some entries => parseEntries filter entries

/-- Whether `os.Stat` finds the path (the error is not `IsNotExist`). -/
def pathExists (proj : List Node) (p : GoString) : Bool :=
  p = ['.'] || (listingEntries ['.'] proj).any (fun x => x.1 = joinPath ['.'] p)

/-- Source `hasFilteredBuildTag`.  `line.Text[2:]` drops the comment marker, which every
comment text starts with. -/
def hasFilteredBuildTag (f : AstFile) (filtered : List GoString) : Bool :=
  match f.comments with
  | [] => false
  | block :: _ =>
    if block.pos > f.package then false
    else if f.doc = some 0 then false
    else
      block.list.any (fun text =>
        let comment := strings.TrimSpace (text.drop 2)
        if strings.HasPrefix comment "+build".toList then
          let tagline := strings.TrimSpace (strings.TrimPrefix comment "+build".toList)
          let groups := strings.Split tagline [' ']
          groups.any (fun grp =>
            (strings.Split grp [',']).any (fun tag => filtered.any (fun filter => tag = filter)))
        else false)

/-- Outcome of a run: a returned value, a run-time panic or fatal exit, or the iteration bound
of the model reached. -/
inductive Outcome (α : Type) where
  | done (a : α) : Outcome α
  | panic : Outcome α
  | outOfFuel : Outcome α
  deriving Repr, DecidableEq

/-- Directory that `listImports` reads for a package (`pkgPath`). -/
def pkgPathOf (rootPackage libRoot pkg : GoString) : GoString :=
  if pkg ≠ rootPackage then
    if strings.HasPrefix pkg (rootPackage ++ ['/']) then pkg.drop (rootPackage.length + 1)
    else libRoot ++ '/' :: pkg
  else ['.']

/-- The path a declared import `imp` of a file of `pkg` stands for: `imp` itself, or, when its
first element is `.` or `..`, `filepath.Clean(filepath.Join(pkg, imp))`. -/
def resolveImport (pkg imp : GoString) : GoString :=
  let pkgComponents := strings.Split imp ['/']
  if pkgComponents.headD [] = ['.'] ∨ pkgComponents.headD [] = ['.', '.'] then
    filepath.Clean (filepath.Join pkg imp)
  else imp

/-- What `listImports` sends for one declared import `v` of a file of `pkg`: nothing when the
first path element has no dot or the resolved path is in the root namespace, else the resolved
path.  `v.Path.Value[1:len-1]` strips the quotes of the literal. -/
def importOf (rootPackage pkg : GoString) (v : ImportSpec) : Option GoString :=
  let imp := (v.pathValue.drop 1).dropLast
  let pkgComponents := strings.Split imp ['/']
  if !strings.Contains (pkgComponents.headD []) ['.'] then none
  else
    let imp := resolveImport pkg imp
    if imp = rootPackage ∨ strings.HasPrefix imp (rootPackage ++ ['/']) then none
    else some imp

/-- First part of `listImports`, "Gather all the Go imports", on the parsed files. -/
def goImports (rootPackage pkgPath pkg : GoString) (buildtagfilters : List GoString)
    (files : List AstFile) : List GoString :=
  files.flatMap (fun f =>
    if f.name = "main".toList && strings.HasPrefix pkgPath "vendor/".toList then []
    else if hasFilteredBuildTag f buildtagfilters then []
    else f.Imports.filterMap (importOf rootPackage pkg))

/-- What `listImports` sends for one line of a C preamble; the outer `none` is the panic of
`line[10:len(line)-1]` on a line that is the bare prefix. -/
def includeOf (proj : List Node) (pkgPath pkg : GoString) (line : GoString) :
    Option (Option GoString) :=
  let line := strings.TrimSpace line
  if strings.HasPrefix line "#include \"".toList then
    match goSlice line 10 ((line.length : Int) - 1) with
    | none => none
    | some arg =>
      let includePath := filepath.Dir arg
      if includePath ≠ ['.'] then
        if pathExists proj (filepath.Join pkgPath includePath) then
          some (some (filepath.Clean (filepath.Join pkg includePath)))
        else some none
      else some none
  else some none

/-- All lines of one preamble text. -/
def includesOfText (proj : List Node) (pkgPath pkg : GoString) (text : GoString) :
    Option (List GoString) :=
  (strings.Split text ['\n']).foldr
    (fun line acc =>
      match includeOf proj pkgPath pkg line, acc with
      | some r, some rest => some (r.toList ++ rest)
      | _, _ => none)
    (some [])

/-- The preamble texts of a declaration: for every import spec of `"C"`, its doc comment, or
the doc comment of the declaration when it has this single spec. -/
def preambles : Decl → List GoString
  | .other => []
  | .genDecl doc specs =>
    specs.flatMap (fun spec =>
      match spec with
      | .other => []
      | .importSpec s =>
        if s.pathValue ≠ "\"C\"".toList then []
        else
          let cg := if s.doc = none ∧ specs.length = 1 then doc else s.doc
          cg.toList)

/-- Second part of `listImports`, "Gather all the CGO imports", on the parsed files; `none` is
a panic. -/
def cgoImports (proj : List Node) (pkgPath pkg : GoString) (files : List AstFile) :
    Option (List GoString) :=
  ((files.flatMap (fun f => f.decls.flatMap preambles)).foldr
    (fun text acc =>
      match includesOfText proj pkgPath pkg text, acc with
      | some r, some rest => some (r ++ rest)
      | _, _ => none)
    (some []))

/-- Source `chanPackagesFromLines`: every string received is set in the result. -/
def chanPackagesFromLines (lnc : List GoString) : Packages :=
  lnc.foldl Packages.set []

/-- Source `listImports`: the set received from the returned channel, `none` when the scan
panics.  A channel is modelled by the list of what it delivers.  When the first `ParseDir`
fails nothing is sent on `sch`; the package itself is always merged in. -/
def listImports (rt : Runtime) (proj : List Node) (rootPackage libRoot pkg : GoString)
    (buildtagfilters : List GoString) (nativeOnly : Bool) : Option Packages :=
  let pkgPath := pkgPathOf rootPackage libRoot pkg
  match ParseDir proj pkgPath (noVendoredTests rt libRoot pkgPath nativeOnly) with
  | none => some (chanPackagesFromLines (util.MergeStrChans [] (util.OneStr pkg)))
  | some files =>
    match cgoImports proj pkgPath pkg files with
    | none => none
    | some cgo =>
      some (chanPackagesFromLines
        (util.MergeStrChans (goImports rootPackage pkgPath pkg buildtagfilters files ++ cgo)
          (util.OneStr pkg)))

mutual
/-- Walk of `listPackages` at an entry with path `p`: the packages found so far, and whether
the walk was ended by a parse error. -/
def listPackagesNode (rootPackage targetDir p : GoString) :
    Node → Packages → Packages × Bool
  | .file _ _, r => (r, false)
  | .dir _ entries, r =>
    if p = targetDir || strings.HasSuffix p (targetDir ++ ['/'])
        || (p ≠ ['.'] && strings.HasPrefix (p.drop (strings.LastIndex p ['/'] + 1).toNat) ['.'])
    then (r, false)
    else
      match parseEntries (fun _ => true) entries with
      | none => (r, true)
      | some pkgs =>
        let r :=
          if pkgs.length > 0 then
            if p = ['.'] then Packages.set r rootPackage
            else Packages.set r (rootPackage ++ '/' :: p)
          else r
        listPackagesEntries rootPackage targetDir p entries r
/-- Walk of `listPackages` over the entries of the directory `parent`. -/
def listPackagesEntries (rootPackage targetDir parent : GoString) :
    List Node → Packages → Packages × Bool
  | [], r => (r, false)
  | n :: rest, r =>
    let x := listPackagesNode rootPackage targetDir (walkJoin parent n.name) n r
    if x.2 then x else listPackagesEntries rootPackage targetDir parent rest x.1
end

/-- Source `listPackages`: the walk starts at `.`, the project directory. -/
def listPackages (proj : List Node) (rootPackage targetDir : GoString) : Packages :=
  (listPackagesNode rootPackage targetDir ['.'] (.dir ['.'] proj) []).1

/-- The scans of one frontier (the channels `cs` of `collectImports`), each by the set it
delivers; `none` when one of them panics. -/
def scanAll (scan : GoString → Option Packages) : List GoString → Option (List Packages)
  | [] => some []
  | p :: ps =>
    match scan p, scanAll scan ps with
    | some a, some rest => some (a :: rest)
    | _, _ => none

/-- Loop of `collectImports` over the frontier `packages`, run at most `fuel` times; `scan` is
`listImports` on a package. -/
def collectLoop (scan : GoString → Option Packages) :
    Nat → Packages → Packages → Packages → Outcome Packages
  | 0, imports, packages, _ => if packages.length > 0 then .outOfFuel else .done imports
  | fuel + 1, imports, packages, seenPackages =>
    if packages.length > 0 then
      match scanAll scan packages with
      | none => .panic
      | some pss =>
        let imports := (util.MergePackagesChans pss).foldl Packages.Merge imports
        let seenPackages := Packages.Merge seenPackages packages
        let packages :=
          imports.foldl (fun acc i => if !seenPackages.has i then Packages.set acc i else acc) []
        collectLoop scan fuel imports packages seenPackages
    else .done imports

/-- Every string a scan of the project can yield beside the scanned package itself: for each
directory, the scans of the packages that `pkgPathOf` maps to it. -/
def scanUniverse (rt : Runtime) (proj : List Node) (rootPackage libRoot : GoString)
    (buildtagfilters : List GoString) (nativeOnly : Bool) : List GoString :=
  (projectDirs proj).flatMap (fun d =>
    [rootPackage, rootPackage ++ '/' :: d.1, d.1.drop (libRoot.length + 1)].flatMap (fun pkg =>
      (listImports rt proj rootPackage libRoot pkg buildtagfilters nativeOnly).getD []))

/-- Source `collectImports`.  The loop of the source has no bound; the model runs it at most
once per string that can enter the frontier, and one more time. -/
def collectImports (rt : Runtime) (proj : List Node) (rootPackage libRoot targetDir : GoString)
    (buildtagfilters : List GoString) (nativeOnly : Bool) : Outcome Packages :=
  let packages := listPackages proj rootPackage targetDir
  collectLoop (fun p => listImports rt proj rootPackage libRoot p buildtagfilters nativeOnly)
    ((packages ++ scanUniverse rt proj rootPackage libRoot buildtagfilters nativeOnly).length + 1)
    [] packages []

/-- One scan step: the scan of `a` returns a set that holds `b`. -/
def ScanStep (scan : GoString → Option Packages) (a b : GoString) : Prop :=
  ∃ l, scan a = some l ∧ b ∈ l

/-- The path `x` is reached from the initial frontier by one or more scan steps. -/
def Reached (scan : GoString → Option Packages) (init : Packages) (x : GoString) : Prop :=
  ∃ p ∈ init, Relation.TransGen (ScanStep scan) p x

/-- Invariant of the loop of `collectImports` at the loop head. -/
structure LoopInv (scan : GoString → Option Packages) (init imports packages seen : Packages) :
    Prop where
  fromSeen : ∀ x ∈ imports, ∃ p ∈ seen, ScanStep scan p x
  scanned : ∀ p ∈ seen, ∃ l, scan p = some l ∧ ∀ x ∈ l, x ∈ imports
  covered : ∀ x ∈ imports, x ∈ seen ∨ x ∈ packages
  reach : ∀ x, x ∈ seen ∨ x ∈ packages → x ∈ init ∨ Reached scan init x
  initIn : ∀ p ∈ init, p ∈ seen ∨ p ∈ packages
  fresh : ∀ x ∈ packages, x ∉ seen

/-- What the loop of `collectImports` returns: exactly the reached paths, with every initial
and every returned path scanned into the result. -/
structure LoopPost (scan : GoString → Option Packages) (init r : Packages) : Prop where
  exact : ∀ x, x ∈ r ↔ Reached scan init x
  closed : ∀ x, x ∈ init ∨ x ∈ r → ∃ l, scan x = some l ∧ ∀ y ∈ l, y ∈ r

/-- A Go source file of the examples: package clause at position 8, no comments, one import
declaration with the given import paths. -/
def exampleFile (name pkg : String) (imports : List String) : Node :=
  .file name.toList
    (some
      { name := pkg.toList
        package := 8
        comments := []
        doc := none
        decls := [.genDecl none
          (imports.map (fun i => .importSpec ⟨'"' :: (i.toList ++ ['"']), none⟩))] })

/-- Project of the examples, root package `example.com/app`: the root package imports `x.com/X`
and its own subpackage; in the vendor tree `x.com/X` imports `x.com/Y`, which no other package
does, and nobody imports `x.com/W`. -/
def exampleProject : List Node :=
  [exampleFile "main.go" "main" ["fmt", "x.com/X", "example.com/app/sub"],
    .dir "sub".toList [exampleFile "s.go" "sub" ["os"]],
    .dir "vendor".toList
      [.dir "x.com".toList
        [.dir "W".toList [exampleFile "w.go" "W" []],
          .dir "X".toList [exampleFile "x.go" "X" ["x.com/Y"]],
          .dir "Y".toList [exampleFile "y.go" "Y" ["strings"]]]]]

/-- Platform of the examples. -/
def exampleRuntime : Runtime := ⟨"linux".toList, "amd64".toList⟩

/-! ## `cleanup` -/

/-- The returned value of a run, or `d` when the run did not return. -/
def Outcome.getD {α : Type} (o : Outcome α) (d : α) : α :=
  match o with
  | .done a => a
  | _ => d

/-- Whether the run returned. -/
def Outcome.isDone {α : Type} (o : Outcome α) : Bool :=
  match o with
  | .done _ => true
  | _ => false

/-- The outcome with a function applied to the returned value. -/
def Outcome.map {α β : Type} (f : α → β) (o : Outcome α) : Outcome β :=
  match o with
  | .done a => .done (f a)
  | .panic => .panic
  | .outOfFuel => .outOfFuel

/-- Source `guessRootPackage`; `gopath` is the global of that name, `srcExists` tells whether
`os.Stat` finds `$GOPATH/src`, and `none` is the fatal exit (`logrus.Fatalf`). -/
def guessRootPackage (gopath : GoString) (srcExists : Bool) (dir : GoString) : Option GoString :=
  if gopath = [] || strings.Contains gopath [':'] then none
  else
    let srcPath := filepath.Clean (filepath.Join gopath "src".toList)
    if !strings.HasPrefix dir (srcPath ++ ['/']) then none
    else if !srcExists then none
    else some (dir.drop (srcPath ++ ['/']).length)

/-- The entries of the vendor directory: the directory named `targetDir` in the project
directory (`targetDir` being a single path element); no entries when it is missing. -/
def vendorOf (targetDir : GoString) : List Node → List Node
  | [] => []
  | .dir name entries :: rest => if name = targetDir then entries else vendorOf targetDir rest
  | .file _ _ :: rest => vendorOf targetDir rest

/-- The project directory with the entries of the vendor directory replaced. -/
def setVendor (targetDir : GoString) (vendor : List Node) : List Node → List Node
  | [] => []
  | .dir name entries :: rest =>
    if name = targetDir then .dir name vendor :: rest
    else .dir name entries :: setVendor targetDir vendor rest
  | .file name src :: rest => .file name src :: setVendor targetDir vendor rest

/-- The steps of `cleanup`: the closure handed to `removeUnusedImports` and the entries of the
vendor directory after each step. -/
structure CleanupTrace where
  imports : Packages
  afterExcludes : List Node
  afterUnusedImports : List Node
  afterEmptyDirs : List Node
  afterUnusedFiles : List Node

/-- Source `cleanup`, step by step, with the project directory `dir` holding the entries
`proj`.  An error of a step is logged only, a panic ends the run; the closing loop over
the manifest entries only logs and is left out. -/
def cleanupTrace (rt : Runtime) (gopath : GoString) (srcExists : Bool) (dir : GoString)
    (proj : List Node) (targetDir : GoString) (trashConf : conf.Conf)
    (buildtagfilters : List GoString) (nativeOnly : Bool) : Outcome CleanupTrace :=
  let rootPackage :=
    if trashConf.Package = [] then guessRootPackage gopath srcExists dir
    else some trashConf.Package
  match rootPackage with
  | none => .panic
  | some rootPackage =>
    match collectImports rt proj rootPackage targetDir targetDir buildtagfilters nativeOnly with
    | .panic => .panic
    | .outOfFuel => .outOfFuel
    | .done imports =>
      let v1 := removeExcludes trashConf.Excludes targetDir (vendorOf targetDir proj)
      if v1.2 = .panic then .panic
      else
        let v2 := removeUnusedImports imports targetDir v1.1
        if v2.2 = .panic then .panic
        else
          let v3 := removeEmptyDirs targetDir v2.1
          if v3.2 = .panic then .panic
          else
            let v4 := removeUnusedFiles targetDir v3.1
            if v4.2 = .panic then .panic
            else .done ⟨imports, v1.1, v2.1, v3.1, v4.1⟩

/-- Source `cleanup`: the project directory afterwards. -/
def cleanup (rt : Runtime) (gopath : GoString) (srcExists : Bool) (dir : GoString)
    (proj : List Node) (targetDir : GoString) (trashConf : conf.Conf)
    (buildtagfilters : List GoString) (nativeOnly : Bool) : Outcome (List Node) :=
  (cleanupTrace rt gopath srcExists dir proj targetDir trashConf buildtagfilters nativeOnly).map
    (fun t => setVendor targetDir t.afterUnusedFiles proj)

/-- Manifest of the example project, with `x.com/X` excluded. -/
def exampleProjectConf : conf.Conf :=
  { Package := "example.com/app".toList
    Imports :=
      [⟨"x.com/W".toList, "v1".toList, [], ⟨false, false⟩⟩,
        ⟨"x.com/X".toList, "v1".toList, [], ⟨false, false⟩⟩,
        ⟨"x.com/Y".toList, "v1".toList, [], ⟨false, false⟩⟩]
    Excludes := ["x.com/X".toList]
    IgnoredTags := ["ignore".toList]
    IgnoredPkgs := []
    NativeOnly := false
    importMap := []
    confFile := "vendor.conf".toList
    yamlType := true }

/-- A Go source file of the examples with a leading `+build` comment before the package
clause. -/
def exampleTaggedFile (name pkg tags : String) (imports : List String) : Node :=
  .file name.toList
    (some
      { name := pkg.toList
        package := 40
        comments := [⟨0, [("// +build " ++ tags).toList]⟩]
        doc := none
        decls := [.genDecl none
          (imports.map (fun i => .importSpec ⟨'"' :: (i.toList ++ ['"']), none⟩))] })

/-- Project of the build-tag example: `x.com/X` imports `x.com/T` from a file tagged
`tools` only. -/
def exampleTaggedProject : List Node :=
  [exampleFile "main.go" "main" ["x.com/X"],
    .dir "vendor".toList
      [.dir "x.com".toList
        [.dir "T".toList [exampleFile "t.go" "T" []],
          .dir "X".toList
            [exampleTaggedFile "tools.go" "X" "tools" ["x.com/T"],
              exampleFile "x.go" "X" ["x.com/Y"]],
          .dir "Y".toList [exampleFile "y.go" "Y" []]]]]

/-! ## The repository cache: external calls, `checkout`, `checkGitRepo` -/

namespace strings

/-- Scan for `strings.Fields`: `cur` is the current field, reversed. -/
def fieldsFrom : GoString → GoString → List GoString
  | [], cur => if cur = [] then [] else [cur.reverse]
  | c :: cs, cur =>
    if isSpace c then
      if cur = [] then fieldsFrom cs [] else cur.reverse :: fieldsFrom cs []
    else fieldsFrom cs (c :: cur)

/-- Go `strings.Fields`: the pieces of `s` between runs of white space. -/
def Fields (s : GoString) : List GoString := fieldsFrom s []

end strings

namespace path

/-- Go `path.Join`: from the first non-empty element on, the elements are joined by `'/'` and
the result is cleaned. -/
def Join : List GoString → GoString
  | [] => []
  | e :: es => if e ≠ [] then filepath.Clean (strings.Join (e :: es) ['/']) else Join es

end path

/-- A call that leaves the program: an external command (`exec.Command(name, args...)`, run)
or a call on the file system. -/
inductive Call where
  | command (name : GoString) (args : List GoString) : Call
  | chdir (dir : GoString) : Call
  | getwd : Call
  | removeAll (dir : GoString) : Call
  | mkdirAll (dir : GoString) : Call
  deriving Repr, DecidableEq

/-- What a call gives back: whether it returned an error, whether that error is
`os.IsNotExist`, and the output of a command. -/
structure CallResult where
  failed : Bool
  notExist : Bool
  output : GoString
  deriving Repr, DecidableEq

/-- The world outside the program: the result of a call, given the calls made before it. -/
abbrev World := List Call → Call → CallResult

/-- One call: it is appended to the calls made so far, and the world answers. -/
def exec (w : World) (h : List Call) (c : Call) : List Call × CallResult :=
  (h ++ [c], w h c)

namespace util

/-- Modelled from the spec: `util.CmdOutLines` (package `util` is not among the sources) runs
the command and delivers its output line by line ("no structured output parsing beyond
line-splitting and whitespace trimming"). -/
def CmdOutLines (output : GoString) : List GoString := strings.Split output ['\n']

end util

/-- The command `git checkout -f --detach version`. -/
def gitCheckout (version : GoString) : Call :=
  .command "git".toList ["checkout".toList, "-f".toList, "--detach".toList, version]

/-- The command `git fetch -f -t remote`. -/
def gitFetch (remote : GoString) : Call :=
  .command "git".toList ["fetch".toList, "-f".toList, "-t".toList, remote]

/-- The command `git branch --list -r b`. -/
def gitBranchList (b : GoString) : Call :=
  .command "git".toList ["branch".toList, "--list".toList, "-r".toList, b]

/-- The command `git log --all --pretty=oneline --abbrev-commit -1`. -/
def gitLogLatest : Call :=
  .command "git".toList
    ["log".toList, "--all".toList, "--pretty=oneline".toList, "--abbrev-commit".toList,
      "-1".toList]

/-- The command `git rev-parse --show-toplevel`. -/
def gitShowToplevel : Call :=
  .command "git".toList ["rev-parse".toList, "--show-toplevel".toList]

/-- The command `git remote`. -/
def gitRemote : Call := .command "git".toList ["remote".toList]

/-- The command `git remote add -f name url`. -/
def gitRemoteAdd (name url : GoString) : Call :=
  .command "git".toList ["remote".toList, "add".toList, "-f".toList, name, url]

/-- The command `git init -q`. -/
def gitInit : Call := .command "git".toList ["init".toList, "-q".toList]

/-- Source `isBranch`: the calls made and the answer. -/
def isBranch (w : World) (h : List Call) (remote version : GoString) : List Call × Bool :=
  let b := remote ++ '/' :: version
  let r := exec w h (gitBranchList b)
  (r.1, (util.CmdOutLines r.2.output).any (fun l => strings.TrimSpace l = b))

/-- Source `fetch`: the calls made and whether an error is returned. -/
def fetch (w : World) (h : List Call) (i : conf.Import) : List Call × Bool :=
  let remote := remoteName i.Repo
  let r := exec w h (gitFetch remote)
  (r.1, r.2.failed)

/-- Source `checkout`: the calls made and the outcome, `panic` standing for the fatal exits
(`logrus.Fatalf`) and for the index panic on an empty `git log` output. -/
def checkout (w : World) (h : List Call) (trashDir : GoString) (i : conf.Import) :
    List Call × Outcome Unit :=
  let repoDir := path.Join [trashDir, "src".toList, i.Package]
  let cd := exec w h (.chdir repoDir)
  if cd.2.failed then (cd.1, .panic)
  else
    let br :=
      if i.Version = "master".toList then (cd.1, true)
      else isBranch w cd.1 (remoteName i.Repo) i.Version
    let pre : List Call × Option GoString :=
      if br.2 then
        let f := fetch w br.1 i
        if f.2 then (f.1, none) else (f.1, some (remoteName i.Repo ++ '/' :: i.Version))
      else (br.1, some i.Version)
    match pre.2 with
    | none => (pre.1, .panic)
    | some version =>
      let co := exec w pre.1 (gitCheckout version)
      if co.2.failed then
        let retry : List Call × Option GoString :=
          if i.Version = "master".toList then
            let lg := exec w co.1 gitLogLatest
            if lg.2.failed then (lg.1, none)
            else (lg.1, (strings.Fields (strings.TrimSpace lg.2.output)).head?)
          else
            let f := fetch w co.1 i
            if f.2 then (f.1, none) else (f.1, some version)
        match retry.2 with
        | none => (retry.1, .panic)
        | some version =>
          let co2 := exec w retry.1 (gitCheckout version)
          if co2.2.failed then (co2.1, .panic) else (co2.1, .done ())
      else (co.1, .done ())

/-- Source `isCurrentDirARepo`: the calls made and the answer, `none` for the fatal exit. -/
def isCurrentDirARepo (w : World) (h : List Call) (trashDir : GoString) :
    List Call × Option Bool :=
  let wd := exec w h .getwd
  if wd.2.failed then (wd.1, none)
  else
    let top := exec w wd.1 gitShowToplevel
    if top.2.failed then (top.1, some false)
    else (top.1, some (strings.HasPrefix top.2.output (trashDir ++ "/src/".toList)))

/-- Source `remoteExists`. -/
def remoteExists (w : World) (h : List Call) (remoteName : GoString) : List Call × Bool :=
  let r := exec w h gitRemote
  (r.1, (util.CmdOutLines r.2.output).any (fun line => strings.TrimSpace line = remoteName))

/-- Source `addRemote`: a failure of the command is logged only. -/
def addRemote (w : World) (h : List Call) (url : GoString) : List Call :=
  (exec w h (gitRemoteAdd (remoteName url) url)).1

/-- Source `cloneGitRepo`: the calls made and whether an error is returned, `panic` for the
fatal exit. -/
def cloneGitRepo (w : World) (h : List Call) (trashDir repoDir : GoString) (i : conf.Import)
    (insecure : Bool) : List Call × Outcome Bool :=
  let cd := exec w h (.chdir trashDir)
  let rm := exec w cd.1 (.removeAll repoDir)
  if rm.2.failed then (rm.1, .done true)
  else
    let args := ["get".toList, "-d".toList, "-f".toList, "-u".toList]
    let args := if insecure then args ++ ["-insecure".toList] else args
    let args := args ++ [i.Package]
    let get := exec w rm.1 (.command "go".toList args)
    let mk := exec w get.1 (.mkdirAll repoDir)
    if mk.2.failed then (mk.1, .done true)
    else
      let cd2 := exec w mk.1 (.chdir repoDir)
      let isRepo := isCurrentDirARepo w cd2.1 trashDir
      match isRepo.2 with
      | none => (isRepo.1, .panic)
      | some repo =>
        let h1 := if !repo then (exec w isRepo.1 gitInit).1 else isRepo.1
        let h2 := if i.Repo ≠ [] then addRemote w h1 i.Repo else h1
        (h2, .done false)

/-- Source `checkGitRepo`: the calls made and whether an error is returned, `panic` for the
fatal exit. -/
def checkGitRepo (w : World) (h : List Call) (trashDir repoDir : GoString) (i : conf.Import)
    (insecure : Bool) : List Call × Outcome Bool :=
  let cd := exec w h (.chdir repoDir)
  if cd.2.failed then
    if cd.2.notExist then cloneGitRepo w cd.1 trashDir repoDir i insecure
    else (cd.1, .done true)
  else
    let isRepo := isCurrentDirARepo w cd.1 trashDir
    match isRepo.2 with
    | none => (isRepo.1, .panic)
    | some false =>
      let cd2 := exec w isRepo.1 (.chdir trashDir)
      cloneGitRepo w cd2.1 trashDir repoDir i insecure
    | some true =>
      let named :=
        if i.Repo ≠ [] then remoteExists w isRepo.1 (remoteName i.Repo) else (isRepo.1, true)
      if i.Repo ≠ [] && !named.2 then (addRemote w named.1 i.Repo, .done false)
      else
        let origin := remoteExists w named.1 "origin".toList
        if !origin.2 then cloneGitRepo w origin.1 trashDir repoDir i insecure
        else (origin.1, .done false)

/-! ## Reference readings of the scanning and pruning rules -/

/-- The leading comment block of a file: the first comment group, when it is positioned before
the package clause and is not the package doc comment. -/
def leadingCommentBlock (f : AstFile) : Option CommentGroup :=
  match f.comments.head? with
  | none => none
  | some block => if block.pos ≤ f.package ∧ f.doc ≠ some 0 then some block else none

/-- The build-tag tokens of one comment of the block: when its text, without the comment marker
and trimmed, begins with `+build`, the rest of the line (trimmed) is split on spaces into
groups and each group on commas into tokens. -/
def buildLineTokens (text : GoString) : List GoString :=
  let line := strings.TrimSpace (text.drop 2)
  if "+build".toList <+: line then
    (strings.Split (strings.TrimSpace (line.drop 6)) [' ']).flatMap
      (fun grp => strings.Split grp [','])
  else []

/-- The build-tag tokens of a file: those of the lines of its leading comment block. -/
def buildTagTokens (f : AstFile) : List GoString :=
  match leadingCommentBlock f with
  | none => []
  | some block => block.list.flatMap buildLineTokens

/-- The declared import string of an import spec: the path literal without its quotes. -/
def declaredImport (v : ImportSpec) : GoString := (v.pathValue.drop 1).dropLast

/-- The first `'/'`-separated segment of an import string. -/
def firstSegment (imp : GoString) : GoString := imp.takeWhile (fun c => c ≠ '/')

/-- The resolved path of an import string of a file of `pkg`: the string itself, or
`Clean(Join(pkg, imp))` when its first segment is `.` or `..`. -/
def resolvedPath (pkg imp : GoString) : GoString :=
  if firstSegment imp = ['.'] ∨ firstSegment imp = ['.', '.'] then
    filepath.Clean (filepath.Join pkg imp)
  else imp

mutual
/-- An entry without the files that are neither source nor license files; a directory stays,
with its entries treated the same way. -/
def Node.keptFiles : Node → Option Node
  | .file name src =>
    if isGoFile name || isLicenseFile name then some (.file name src) else none
  | .dir name entries => some (.dir name (keptFilesEntries entries))
/-- The entries of a directory without the files that are neither source nor license files. -/
def keptFilesEntries : List Node → List Node
  | [] => []
  | n :: rest => n.keptFiles.toList ++ keptFilesEntries rest
end

/-- A file with the single comment line `// +build !windows` before the package clause. -/
def exampleNegatedTagFile : AstFile :=
  { name := "p".toList
    package := 30
    comments := [⟨0, ["// +build !windows".toList]⟩]
    doc := none
    decls := [] }

/-- A world in which `git checkout` of `v1.0` fails until `origin` has been fetched, and every
other call succeeds with empty output. -/
def exampleFetchWorld : World := fun h c =>
  if c = gitCheckout "v1.0".toList then
    ⟨!(h.contains (gitFetch "origin".toList)), false, []⟩
  else ⟨false, false, []⟩

/-- A world with a valid repository in the cache whose only remote is `0b3ac62`, the name
derived from the URL `https://github.com/docker/docker.git`; every call succeeds. -/
def exampleCacheWorld : World := fun _ c =>
  if c = gitShowToplevel then ⟨false, false, "/cache/src/x.com/p\n".toList⟩
  else if c = gitRemote then ⟨false, false, "0b3ac62\n".toList⟩
  else ⟨false, false, []⟩

/-! ## The walk for a root in any form -/

/-- A name as reading a directory gives it: a valid file name other than `.` and `..`. -/
def plainName (name : GoString) : Bool :=
  validName name && decide (name ≠ ['.']) && decide (name ≠ ['.', '.'])

mutual
/-- Every entry at or below this one has a plain name. -/
def Node.plainNamed : Node → Bool
  | .file name _ => plainName name
  | .dir name entries => plainName name && plainNamedEntries entries
/-- Every entry of the list, at any depth, has a plain name. -/
def plainNamedEntries : List Node → Bool
  | [] => true
  | n :: rest => n.plainNamed && plainNamedEntries rest
end

/-- A directory path in clean form: `filepath.Clean` leaves it as it is, and it is neither `.`
nor `/`.  For such a path `filepath.Join(path, name)` is `path + "/" + name`. -/
def cleanTarget (p : GoString) : Bool :=
  decide (filepath.Clean p = p) && decide (p ≠ ['.']) && decide (p ≠ ['/'])

namespace filepath

mutual
/-- Go `filepath.Walk` below the root (`walk`), for a path in any form: as `Trash.walk`, the
entries of a directory being visited under `filepath.Join(path, name)`. -/
def walk (fn : GoString → Node → Visit) (p : GoString) : Node → Option Node × Ret
  | .file name src =>
    let v := fn p (.file name src)
    (if v.removed then none else some (.file name src), v.ret)
  | .dir name entries =>
    let v := fn p (.dir name entries)
    if v.removed then (none, v.ret)
    else match v.ret with
      | .nil =>
        let r := walkEntries fn p entries
        (some (.dir name r.1), r.2)
      | e => (some (.dir name entries), e)
/-- Loop of `walk` over the names of a directory, `filename := Join(path, name)`. -/
def walkEntries (fn : GoString → Node → Visit) (parent : GoString) :
    List Node → List Node × Ret
  | [] => ([], .nil)
  | n :: rest =>
    let r := walk fn (Join parent n.name) n
    match r.2 with
    | .panic => (r.1.toList ++ rest, .panic)
    | .skipDir =>
      if n.IsDir then
        let rs := walkEntries fn parent rest
        (r.1.toList ++ rs.1, rs.2)
      else (r.1.toList ++ rest, .skipDir)
    | .nil =>
      let rs := walkEntries fn parent rest
      (r.1.toList ++ rs.1, rs.2)
end

/-- Go `filepath.Walk(root, fn)` on an existing directory `root` given in any form: the function
is called on `root` as given, and on every entry below it under the cleaned joined path. -/
def Walk (root : GoString) (entries : List Node) (fn : GoString → Node → Visit) :
    List Node × Ret :=
  let v := fn root (.dir root entries)
  if v.removed then ([], if v.ret = .skipDir then .nil else v.ret)
  else match v.ret with
    | .nil =>
      let r := walkEntries fn root entries
      (r.1, if r.2 = .skipDir then .nil else r.2)
    | .skipDir => (entries, .nil)
    | .panic => (entries, .panic)

end filepath

/-- Source `removeUnusedImports` for a `targetDir` in any form, as the `-T` flag hands it over:
the vendor tree is walked by `filepath.Walk`.  For a clean `targetDir` this is
`removeUnusedImports`. -/
def removeUnusedImportsRaw (imports : Packages) (targetDir : GoString) (vendor : List Node) :
    List Node × Ret :=
  let importsParents := imports.foldl (fun acc i => Packages.Merge acc (parentPackages [] i)) []
  filepath.Walk targetDir vendor (removeUnusedImportsFn imports importsParents targetDir)

/-! # Theorems -/

/-! ## Strings, slices and package sets -/

theorem goSliceFrom_append (a b : GoString) : goSliceFrom (a ++ b) a.length = some b := by
  unfold goSliceFrom goSlice
  rw [if_pos ⟨by omega, by simp, le_refl _⟩]
  simp only [Int.toNat_ofNat, List.take_length, List.drop_left]

theorem goSliceFrom_joinPath (t d : GoString) :
    goSliceFrom (joinPath t d) ((t ++ ['/']).length) = some d := by
  have h : joinPath t d = (t ++ ['/']) ++ d := by simp [joinPath]
  rw [h]; exact goSliceFrom_append _ _

theorem joinPath_ne_self (t d : GoString) : joinPath t d ≠ t := by
  intro h
  have := congrArg List.length h
  simp [joinPath] at this

theorem joinPath_assoc (t d n : GoString) : joinPath (joinPath t d) n = joinPath t (joinPath d n) := by
  simp [joinPath]

theorem joinPath_inj {t a b : GoString} (h : joinPath t a = joinPath t b) : a = b := by
  simpa [joinPath] using h

theorem Packages.has_iff (r : Packages) (p : GoString) : r.has p = true ↔ p ∈ r := by
  simp [Packages.has]

theorem Packages.mem_set (r : Packages) (p x : GoString) : x ∈ r.set p ↔ x ∈ r ∨ x = p := by
  unfold Packages.set
  split
  · rename_i h
    constructor
    · exact Or.inl
    · rintro (h1 | h1)
      · exact h1
      · subst h1; simpa using h
  · simp

theorem Packages.mem_Merge (r other : Packages) (x : GoString) :
    x ∈ r.Merge other ↔ x ∈ r ∨ x ∈ other := by
  unfold Packages.Merge
  induction other generalizing r with
  | nil => simp
  | cons a t ih =>
    simp only [List.foldl_cons, ih, Packages.mem_set, List.mem_cons]
    tauto

theorem mem_foldl_Merge (f : GoString → Packages) (l : List GoString) (acc : Packages)
    (x : GoString) :
    x ∈ l.foldl (fun a i => Packages.Merge a (f i)) acc ↔ x ∈ acc ∨ ∃ i ∈ l, x ∈ f i := by
  induction l generalizing acc with
  | nil => simp
  | cons a t ih =>
    simp only [List.foldl_cons, ih, Packages.mem_Merge, List.mem_cons]
    constructor
    · rintro ((h | h) | ⟨i, hi, hx⟩)
      · exact Or.inl h
      · exact Or.inr ⟨a, Or.inl rfl, h⟩
      · exact Or.inr ⟨i, Or.inr hi, hx⟩
    · rintro (h | ⟨i, hi | hi, hx⟩)
      · exact Or.inl (Or.inl h)
      · subst hi; exact Or.inl (Or.inr hx)
      · exact Or.inr ⟨i, hi, hx⟩

/-! ## `strings.LastIndex` for the separator `"/"` and `path.Split` -/

theorem lastIndexFrom_not_mem (b : GoString) (hb : '/' ∉ b) (i : Nat) (acc : Int) :
    strings.lastIndexFrom ['/'] b i acc = acc := by
  induction b generalizing i acc with
  | nil => simp [strings.lastIndexFrom]
  | cons c cs ih =>
    simp only [List.mem_cons, not_or] at hb
    have hc : ('/' == c) = false := by simpa using hb.1
    simp [strings.lastIndexFrom, List.isPrefixOf, hc, ih hb.2]

theorem lastIndexFrom_append (a b : GoString) (hb : '/' ∉ b) (i : Nat) (acc : Int) :
    strings.lastIndexFrom ['/'] (a ++ '/' :: b) i acc = (i + a.length : Nat) := by
  induction a generalizing i acc with
  | nil =>
    simp [strings.lastIndexFrom, List.isPrefixOf, lastIndexFrom_not_mem b hb]
  | cons c cs ih =>
    show strings.lastIndexFrom ['/'] (c :: (cs ++ '/' :: b)) i acc = _
    rw [strings.lastIndexFrom, ih]
    simp only [List.length_cons]
    congr 1; omega

theorem LastIndex_append (a b : GoString) (hb : '/' ∉ b) :
    strings.LastIndex (a ++ '/' :: b) ['/'] = a.length := by
  simp [strings.LastIndex, lastIndexFrom_append a b hb]

theorem LastIndex_not_mem (b : GoString) (hb : '/' ∉ b) : strings.LastIndex b ['/'] = -1 := by
  simp [strings.LastIndex, lastIndexFrom_not_mem b hb]

theorem exists_last_slash (p : GoString) (h : '/' ∈ p) :
    ∃ a b, p = a ++ '/' :: b ∧ '/' ∉ b := by
  have h' : '/' ∈ p.reverse := by simpa using h
  obtain ⟨as, bs, hp, hn⟩ := List.eq_append_cons_of_mem h'
  refine ⟨bs.reverse, as.reverse, ?_, by simpa using hn⟩
  have := congrArg List.reverse hp
  simpa using this

theorem parentStep_append (a b : GoString) (hb : '/' ∉ b) : parentStep (a ++ '/' :: b) = a := by
  have h1 : (path.Split (a ++ '/' :: b)).1 = a ++ ['/'] := by
    simp only [path.Split, LastIndex_append a b hb]
    have : ((a.length : Int) + 1).toNat = (a ++ ['/']).length := by simp
    rw [this]
    have h2 : a ++ '/' :: b = (a ++ ['/']) ++ b := by simp
    rw [h2]
    exact List.take_left' rfl
  simp [parentStep, h1]

theorem parentStep_not_mem (b : GoString) (hb : '/' ∉ b) : parentStep b = [] := by
  simp [parentStep, path.Split, LastIndex_not_mem b hb]

theorem parentPackagesLoop_step (fuel : Nat) (p : GoString) (r : Packages) :
    parentPackagesLoop 0 (fuel + 1) p r
      = if p.length > 0 then parentPackagesLoop 0 fuel (parentStep p) (r.set p) else r := rfl

/-- Members of the loop result: what was there, and every nonempty `x` that is `p` or has
`x ++ "/"` as a prefix of `p`. -/
theorem mem_parentPackagesLoop (fuel : Nat) (p : GoString) (r : Packages) (hf : p.length ≤ fuel)
    (x : GoString) :
    x ∈ parentPackagesLoop 0 fuel p r ↔ x ∈ r ∨ (x ≠ [] ∧ (x = p ∨ (x ++ ['/']) <+: p)) := by
  induction fuel generalizing p r with
  | zero =>
    have hp : p = [] := List.length_eq_zero.mp (Nat.le_zero.mp hf)
    subst hp
    simp only [parentPackagesLoop]
    constructor
    · exact Or.inl
    · rintro (h | ⟨hx, h | h⟩)
      · exact h
      · exact absurd h hx
      · simp at h
  | succ n ih =>
    rw [parentPackagesLoop_step]
    by_cases hp : p = []
    · subst hp
      simp only [List.length_nil, gt_iff_lt, lt_self_iff_false, if_false]
      constructor
      · exact Or.inl
      · rintro (h | ⟨hx, h | h⟩)
        · exact h
        · exact absurd h hx
        · simp at h
    · have hlen : p.length > 0 := List.length_pos.mpr hp
      rw [if_pos hlen]
      by_cases hs : '/' ∈ p
      · obtain ⟨a, b, hab, hb⟩ := exists_last_slash p hs
        subst hab
        rw [parentStep_append a b hb]
        have hfa : a.length ≤ n := by simp at hf; omega
        rw [ih a _ hfa, Packages.mem_set]
        constructor
        · rintro ((h | h) | ⟨hx, h | h⟩)
          · exact Or.inl h
          · subst h; exact Or.inr ⟨hp, Or.inl rfl⟩
          · subst h; exact Or.inr ⟨hx, Or.inr ⟨b, by simp⟩⟩
          · refine Or.inr ⟨hx, Or.inr ?_⟩
            exact h.trans (List.prefix_append _ _)
        · rintro (h | ⟨hx, h | h⟩)
          · exact Or.inl (Or.inl h)
          · exact Or.inl (Or.inr h)
          · refine Or.inr ⟨hx, ?_⟩
            -- `x ++ "/"` is a prefix of `a ++ "/" ++ b` and `b` holds no `'/'`
            obtain ⟨t, ht⟩ := h
            have hcmp := List.append_eq_append_iff.mp (show (x ++ ['/']) ++ t = a ++ ('/' :: b) from by simpa using ht)
            rcases hcmp with ⟨c, hc1, hc2⟩ | ⟨c, hc1, hc2⟩
            · -- a = x ++ "/" ++ c
              right; exact ⟨c, hc1.symm⟩
            · -- x ++ "/" = a ++ c, "/" :: b = c ++ t
              cases c with
              | nil =>
                right; exact ⟨[], by simpa using hc1⟩
              | cons c0 cs =>
                simp only [List.cons_append, List.cons.injEq] at hc2
                obtain ⟨hc0, hb2⟩ := hc2
                subst hc0
                -- x ++ ['/'] = a ++ '/' :: cs
                rcases List.eq_nil_or_concat cs with hcs | ⟨cs', z, hcs⟩
                · subst hcs
                  left
                  have := hc1
                  simpa using List.append_inj_left' this rfl
                · exfalso
                  subst hcs
                  have h3 : x ++ ['/'] = (a ++ '/' :: cs') ++ [z] := by simpa using hc1
                  have h4 := List.append_inj_right' h3 rfl
                  simp only [List.cons.injEq, and_true] at h4
                  subst h4
                  apply hb
                  rw [hb2]; simp
      · rw [parentStep_not_mem p hs]
        rw [ih [] _ (Nat.zero_le _), Packages.mem_set]
        constructor
        · rintro ((h | h) | ⟨hx, h | h⟩)
          · exact Or.inl h
          · subst h; exact Or.inr ⟨hp, Or.inl rfl⟩
          · exact absurd h hx
          · simp at h
        · rintro (h | ⟨hx, h | h⟩)
          · exact Or.inl (Or.inl h)
          · exact Or.inl (Or.inr h)
          · exfalso
            apply hs
            obtain ⟨t, ht⟩ := h
            rw [← ht]; simp

theorem mem_parentPackages (p x : GoString) :
    x ∈ parentPackages [] p ↔ x ≠ [] ∧ (x = p ∨ (x ++ ['/']) <+: p) := by
  unfold parentPackages
  rw [List.length_nil, mem_parentPackagesLoop p.length p [] (le_refl _)]
  simp

/-! ## The walk -/

theorem walk_file (fn : GoString → Node → Visit) (p name : GoString) (src : Option AstFile) :
    walk fn p (.file name src)
      = (if (fn p (.file name src)).removed then none else some (.file name src),
          (fn p (.file name src)).ret) := by
  rw [walk]

theorem walk_dir_kept (fn : GoString → Node → Visit) (p name : GoString) (es : List Node)
    (h : fn p (.dir name es) = ⟨false, .nil⟩) :
    walk fn p (.dir name es)
      = (some (.dir name (walkEntries fn p es).1), (walkEntries fn p es).2) := by
  rw [walk]; simp [h]

theorem walk_dir_removed (fn : GoString → Node → Visit) (p name : GoString) (es : List Node)
    (r : Ret) (h : fn p (.dir name es) = ⟨true, r⟩) :
    walk fn p (.dir name es) = (none, r) := by
  rw [walk]; simp [h]

theorem walkEntries_cons (fn : GoString → Node → Visit) (parent : GoString) (n : Node)
    (rest : List Node) :
    walkEntries fn parent (n :: rest)
      = match (walk fn (joinPath parent n.name) n).2 with
        | .panic => ((walk fn (joinPath parent n.name) n).1.toList ++ rest, .panic)
        | .skipDir =>
          if n.IsDir then
            ((walk fn (joinPath parent n.name) n).1.toList ++ (walkEntries fn parent rest).1,
              (walkEntries fn parent rest).2)
          else ((walk fn (joinPath parent n.name) n).1.toList ++ rest, .skipDir)
        | .nil =>
          ((walk fn (joinPath parent n.name) n).1.toList ++ (walkEntries fn parent rest).1,
            (walkEntries fn parent rest).2) := by
  rw [walkEntries]

theorem walk_name (fn : GoString → Node → Visit) (p : GoString) (n n' : Node)
    (h : (walk fn p n).1 = some n') : n'.name = n.name := by
  cases n with
  | file name src =>
    rw [walk_file] at h
    simp only at h
    split at h
    · cases h
    · cases h; rfl
  | dir name es =>
    rw [walk] at h
    simp only at h
    split at h
    · cases h
    · split at h <;> (cases h; rfl)

theorem listingEntries_append (parent : GoString) (a b : List Node) :
    listingEntries parent (a ++ b) = listingEntries parent a ++ listingEntries parent b := by
  induction a with
  | nil => simp [listingEntries]
  | cons n rest ih => simp [listingEntries, ih]

theorem listingEntries_single (parent : GoString) (n : Node) :
    listingEntries parent [n] = n.listing (joinPath parent n.name) := by
  simp [listingEntries]

/-- Listing of what a walk step leaves of an entry that sat at `joinPath parent n.name`. -/
theorem listingEntries_toList (fn : GoString → Node → Visit) (parent : GoString) (n : Node)
    (x : GoString × Bool) :
    x ∈ listingEntries parent (walk fn (joinPath parent n.name) n).1.toList
      ↔ ∃ n', (walk fn (joinPath parent n.name) n).1 = some n'
          ∧ x ∈ n'.listing (joinPath parent n.name) := by
  cases h : (walk fn (joinPath parent n.name) n).1 with
  | none => simp [listingEntries]
  | some n' =>
    have hn := walk_name fn _ n n' h
    simp [listingEntries, hn]

mutual
/-- Every path listed at or below an entry extends the path of the entry. -/
theorem Node.listing_extends (p : GoString) : ∀ (n : Node) (x : GoString × Bool),
    x ∈ n.listing p → x.1 = p ∨ ∃ s, x.1 = joinPath p s
  | .file _ _, x, h => by
    simp only [Node.listing, List.mem_singleton] at h
    subst h; exact Or.inl rfl
  | .dir _ es, x, h => by
    simp only [Node.listing, List.mem_cons] at h
    rcases h with h | h
    · subst h; exact Or.inl rfl
    · exact Or.inr (listingEntries_extends p es x h)
/-- Every path listed below a directory extends the path of the directory. -/
theorem listingEntries_extends (p : GoString) : ∀ (es : List Node) (x : GoString × Bool),
    x ∈ listingEntries p es → ∃ s, x.1 = joinPath p s
  | [], x, h => by simp [listingEntries] at h
  | n :: rest, x, h => by
    simp only [listingEntries, List.mem_append] at h
    rcases h with h | h
    · rcases Node.listing_extends (joinPath p n.name) n x h with h1 | ⟨s, h1⟩
      · exact ⟨n.name, h1⟩
      · exact ⟨joinPath n.name s, by rw [h1, joinPath_assoc]⟩
    · exact listingEntries_extends p rest x h
end

theorem protectedBy_parent (imports : Packages) (d s : GoString)
    (h : protectedBy imports (joinPath d s)) : protectedBy imports d := by
  have hpre : (d ++ ['/']) <+: joinPath d s := ⟨s, by simp [joinPath]⟩
  rcases h with h | ⟨m, hm, hpm⟩
  · exact Or.inr ⟨_, h, hpre⟩
  · refine Or.inr ⟨m, hm, hpre.trans ?_⟩
    exact (List.prefix_append _ _).trans hpm

mutual
/-- A walk whose function keeps every protected directory leaves every protected directory
in place. -/
theorem walk_keeps (imports : Packages) (t : GoString) (fn : GoString → Node → Visit)
    (hfn : ∀ d name es, d ≠ [] → protectedBy imports d →
      fn (joinPath t d) (.dir name es) = ⟨false, .nil⟩)
    (q dq : GoString) (hq : q = joinPath t dq) (hprot : protectedBy imports dq) :
    ∀ (n : Node) (d : GoString), d ≠ [] → (q, true) ∈ n.listing (joinPath t d) →
      ∃ n', (walk fn (joinPath t d) n).1 = some n' ∧ (q, true) ∈ n'.listing (joinPath t d)
  | .file _ _, d, _, h => by simp [Node.listing] at h
  | .dir name es, d, hne, h => by
    have hd : protectedBy imports d := by
      simp only [Node.listing, List.mem_cons] at h
      rcases h with h | h
      · have h1 : q = joinPath t d := by simpa using h
        rw [hq] at h1
        rw [← joinPath_inj h1]; exact hprot
      · obtain ⟨s, hs⟩ := listingEntries_extends _ es _ h
        simp only at hs
        rw [hq, joinPath_assoc] at hs
        have := joinPath_inj hs
        rw [this] at hprot
        exact protectedBy_parent imports d s hprot
    rw [walk_dir_kept fn _ name es (hfn d name es hne hd)]
    refine ⟨_, rfl, ?_⟩
    simp only [Node.listing, List.mem_cons] at h ⊢
    rcases h with h | h
    · exact Or.inl h
    · refine Or.inr ?_
      exact walkEntries_keeps imports t fn hfn q dq hq hprot es (joinPath t d)
        (fun n _ => ⟨joinPath d n.name, by simp [joinPath], joinPath_assoc t d n.name⟩) h
/-- Entries form of `walk_keeps`. -/
theorem walkEntries_keeps (imports : Packages) (t : GoString) (fn : GoString → Node → Visit)
    (hfn : ∀ d name es, d ≠ [] → protectedBy imports d →
      fn (joinPath t d) (.dir name es) = ⟨false, .nil⟩)
    (q dq : GoString) (hq : q = joinPath t dq) (hprot : protectedBy imports dq) :
    ∀ (es : List Node) (parent : GoString),
      (∀ n ∈ es, ∃ d, d ≠ [] ∧ joinPath parent n.name = joinPath t d) →
      (q, true) ∈ listingEntries parent es →
      (q, true) ∈ listingEntries parent (walkEntries fn parent es).1
  | [], parent, _, h => by simp [listingEntries] at h
  | n :: rest, parent, hP, h => by
    rw [walkEntries_cons]
    simp only [listingEntries, List.mem_append] at h
    obtain ⟨d, hdne, hd⟩ := hP n (List.mem_cons_self _ _)
    have hrest := walkEntries_keeps imports t fn hfn q dq hq hprot rest parent
      (fun m hm => hP m (List.mem_cons_of_mem _ hm))
    have hn := walk_keeps imports t fn hfn q dq hq hprot n d hdne
    rw [← hd] at hn
    have hmem : ∀ tail', ((q, true) ∈ listingEntries parent rest →
          (q, true) ∈ listingEntries parent tail') →
        (q, true) ∈ listingEntries parent
          ((walk fn (joinPath parent n.name) n).1.toList ++ tail') := by
      intro tail' ht
      rw [listingEntries_append, List.mem_append, listingEntries_toList]
      rcases h with h | h
      · exact Or.inl (hn h)
      · exact Or.inr (ht h)
    split
    · exact hmem rest id
    · split
      · exact hmem _ hrest
      · exact hmem rest id
    · exact hmem _ hrest
end

/-! ## `removeUnusedImports` -/

/-- The merged parents in `removeUnusedImports`. -/
theorem mem_importsParents (imports : Packages) (x : GoString) :
    x ∈ imports.foldl (fun acc i => Packages.Merge acc (parentPackages [] i)) []
      ↔ ∃ i ∈ imports, x ≠ [] ∧ (x = i ∨ (x ++ ['/']) <+: i) := by
  rw [mem_foldl_Merge]
  simp [mem_parentPackages]

/-- On a directory at `targetDir/d` the walk function of `removeUnusedImports` looks up `d`. -/
theorem removeUnusedImportsFn_dir (imports parents : Packages) (t d name : GoString)
    (es : List Node) :
    removeUnusedImportsFn imports parents t (joinPath t d) (.dir name es)
      = if !imports.has d && !parents.has d then ⟨true, .skipDir⟩ else ⟨false, .nil⟩ := by
  unfold removeUnusedImportsFn
  rw [if_neg (joinPath_ne_self t d), goSliceFrom_joinPath]
  simp [Node.IsDir]

theorem removeUnusedImportsFn_root (imports parents : Packages) (t : GoString) (info : Node) :
    removeUnusedImportsFn imports parents t t info = ⟨false, .nil⟩ := by
  simp [removeUnusedImportsFn]

theorem Walk_of_root (t : GoString) (es : List Node) (fn : GoString → Node → Visit)
    (h : fn t (.dir t es) = ⟨false, .nil⟩) :
    Walk t es fn
      = ((walkEntries fn t es).1,
          if (walkEntries fn t es).2 = .skipDir then .nil else (walkEntries fn t es).2) := by
  simp [Walk, h]

theorem validName_of_wellNamedEntries (es : List Node) (h : wellNamedEntries es = true) :
    ∀ n ∈ es, n.name ≠ [] := by
  induction es with
  | nil => simp
  | cons a rest ih =>
    rw [wellNamedEntries] at h
    simp only [Bool.and_eq_true] at h
    intro n hn
    rcases List.mem_cons.mp hn with hn | hn
    · subst hn
      cases n with
      | file name src =>
        have := h.1
        simp only [Node.wellNamed, validName, Bool.and_eq_true, decide_eq_true_eq] at this
        exact this.1
      | dir name es' =>
        have := h.1
        simp only [Node.wellNamed, validName, Bool.and_eq_true, decide_eq_true_eq] at this
        exact this.1.1
    · exact ih h.2 n hn

theorem protectedBy_of_kept (imports : Packages) (d : GoString)
    (h : ¬ ((!imports.has d && !(imports.foldl
      (fun acc i => Packages.Merge acc (parentPackages [] i)) []).has d) = true)) :
    protectedBy imports d := by
  simp only [Bool.and_eq_true, Bool.not_eq_true', not_and, Bool.not_eq_false] at h
  by_cases h1 : imports.has d = true
  · exact Or.inl ((Packages.has_iff _ _).mp h1)
  · have h2 := h (by simpa using h1)
    rw [Packages.has_iff, mem_importsParents] at h2
    obtain ⟨i, hi, _, hx | hx⟩ := h2
    · subst hx; exact Or.inl hi
    · exact Or.inr ⟨i, hi, hx⟩

theorem kept_of_protectedBy (imports : Packages) (d : GoString) (hne : d ≠ [])
    (h : protectedBy imports d) :
    ¬ ((!imports.has d && !(imports.foldl
      (fun acc i => Packages.Merge acc (parentPackages [] i)) []).has d) = true) := by
  simp only [Bool.and_eq_true, Bool.not_eq_true', not_and, Bool.not_eq_false]
  intro _
  rw [Packages.has_iff, mem_importsParents]
  rcases h with h | ⟨m, hm, hpre⟩
  · exact ⟨d, h, hne, Or.inl rfl⟩
  · exact ⟨m, hm, hne, Or.inr hpre⟩

theorem removeUnusedImportsFn_file_ret (imports parents : Packages) (t p name : GoString)
    (src : Option AstFile) :
    (removeUnusedImportsFn imports parents t p (.file name src)).ret ≠ .skipDir := by
  unfold removeUnusedImportsFn
  split
  · simp
  · simp only [Node.IsDir, Bool.not_false, if_true]
    split
    · simp
    · split <;> simp

mutual
/-- A walk that ends without panic, by a function that removes every unprotected directory and
never skips from a file, leaves only protected directories. -/
theorem walk_prunes (imports : Packages) (t : GoString) (fn : GoString → Node → Visit)
    (hdir : ∀ d name es, (fn (joinPath t d) (.dir name es) = ⟨false, .nil⟩ ∧ protectedBy imports d)
      ∨ fn (joinPath t d) (.dir name es) = ⟨true, .skipDir⟩)
    (hfile : ∀ p name src, (fn p (.file name src)).ret ≠ .skipDir) :
    ∀ (n : Node) (d : GoString), (walk fn (joinPath t d) n).2 ≠ .panic →
      ((walk fn (joinPath t d) n).1 = none ∨ (walk fn (joinPath t d) n).2 = .nil) ∧
      ∀ n', (walk fn (joinPath t d) n).1 = some n' → ∀ q, (q, true) ∈ n'.listing (joinPath t d) →
        ∃ dq, q = joinPath t dq ∧ protectedBy imports dq
  | .file name src, d, hp => by
    rw [walk_file] at hp ⊢
    simp only at hp ⊢
    constructor
    · right
      have := hfile (joinPath t d) name src
      cases h : (fn (joinPath t d) (.file name src)).ret with
      | nil => rfl
      | skipDir => exact absurd h this
      | panic => exact absurd h hp
    · intro n' hn' q hq
      split at hn'
      · cases hn'
      · cases hn'
        simp [Node.listing] at hq
  | .dir name es, d, hp => by
    rcases hdir d name es with ⟨hk, hprot⟩ | hr
    · rw [walk_dir_kept fn _ name es hk] at hp ⊢
      simp only at hp ⊢
      have ih := walkEntries_prunes imports t fn hdir hfile es (joinPath t d)
        (fun nm => ⟨joinPath d nm, joinPath_assoc t d nm⟩) hp
      refine ⟨Or.inr ih.1, ?_⟩
      intro n' hn' q hq
      cases hn'
      simp only [Node.listing, List.mem_cons] at hq
      rcases hq with hq | hq
      · exact ⟨d, by simpa using hq, hprot⟩
      · exact ih.2 q hq
    · rw [walk_dir_removed fn _ name es _ hr]
      exact ⟨Or.inl rfl, fun n' hn' => by cases hn'⟩
/-- Entries form of `walk_prunes`. -/
theorem walkEntries_prunes (imports : Packages) (t : GoString) (fn : GoString → Node → Visit)
    (hdir : ∀ d name es, (fn (joinPath t d) (.dir name es) = ⟨false, .nil⟩ ∧ protectedBy imports d)
      ∨ fn (joinPath t d) (.dir name es) = ⟨true, .skipDir⟩)
    (hfile : ∀ p name src, (fn p (.file name src)).ret ≠ .skipDir) :
    ∀ (es : List Node) (parent : GoString), (∀ nm, ∃ d, joinPath parent nm = joinPath t d) →
      (walkEntries fn parent es).2 ≠ .panic →
      (walkEntries fn parent es).2 = .nil ∧
      ∀ q, (q, true) ∈ listingEntries parent (walkEntries fn parent es).1 →
        ∃ dq, q = joinPath t dq ∧ protectedBy imports dq
  | [], parent, _, _ => by
    rw [walkEntries]
    exact ⟨rfl, fun q hq => by simp [listingEntries] at hq⟩
  | n :: rest, parent, hP, hp => by
    obtain ⟨d, hd⟩ := hP n.name
    have hn := walk_prunes imports t fn hdir hfile n d
    rw [← hd] at hn
    have hrest := walkEntries_prunes imports t fn hdir hfile rest parent hP
    rw [walkEntries_cons] at hp ⊢
    have hcont : (walk fn (joinPath parent n.name) n).2 ≠ .panic →
        (walkEntries fn parent rest).2 ≠ .panic →
        (walkEntries fn parent rest).2 = .nil ∧
        ∀ q, (q, true) ∈ listingEntries parent
            ((walk fn (joinPath parent n.name) n).1.toList ++ (walkEntries fn parent rest).1) →
          ∃ dq, q = joinPath t dq ∧ protectedBy imports dq := by
      intro h1 h2
      refine ⟨(hrest h2).1, ?_⟩
      intro q hq
      rw [listingEntries_append, List.mem_append, listingEntries_toList] at hq
      rcases hq with ⟨n', hn', hq⟩ | hq
      · exact (hn h1).2 n' hn' q hq
      · exact (hrest h2).2 q hq
    split at hp
    · exact absurd rfl hp
    · rename_i hsk
      have hne : (walk fn (joinPath parent n.name) n).2 ≠ .panic := by rw [hsk]; simp
      split at hp
      · rename_i hdirn
        rw [if_pos hdirn]
        exact hcont hne hp
      · exfalso
        rcases (hn hne).1 with h | h
        · rename_i hfl
          cases n with
          | file name src =>
            rw [walk_file] at hsk
            exact hfile _ name src hsk
          | dir name es => exact hfl rfl
        · rw [hsk] at h; cases h
    · rename_i hnil
      have hne : (walk fn (joinPath parent n.name) n).2 ≠ .panic := by rw [hnil]; simp
      exact hcont hne hp
end

theorem removeUnusedImports_eq (imports : Packages) (t : GoString) (vendor : List Node) :
    removeUnusedImports imports t vendor
      = ((walkEntries (removeUnusedImportsFn imports (imports.foldl
            (fun acc i => Packages.Merge acc (parentPackages [] i)) []) t) t vendor).1,
          if (walkEntries (removeUnusedImportsFn imports (imports.foldl
            (fun acc i => Packages.Merge acc (parentPackages [] i)) []) t) t vendor).2 = .skipDir
          then .nil
          else (walkEntries (removeUnusedImportsFn imports (imports.foldl
            (fun acc i => Packages.Merge acc (parentPackages [] i)) []) t) t vendor).2) := by
  unfold removeUnusedImports
  exact Walk_of_root t vendor _ (removeUnusedImportsFn_root _ _ _ _)

/-- The walk function of `removeUnusedImports` keeps a protected directory. -/
theorem removeUnusedImportsFn_keeps (imports : Packages) (t d name : GoString) (es : List Node)
    (hne : d ≠ []) (hprot : protectedBy imports d) :
    removeUnusedImportsFn imports
        (imports.foldl (fun acc i => Packages.Merge acc (parentPackages [] i)) []) t
        (joinPath t d) (.dir name es)
      = ⟨false, .nil⟩ := by
  rw [removeUnusedImportsFn_dir, if_neg (kept_of_protectedBy imports d hne hprot)]

/-- In the walk under `path + "/" + name`, which is the walk of the code for a `targetDir` in
clean form, `removeUnusedImports` leaves in place every directory of the vendor tree whose path
relative to `targetDir` is a member of `imports` or an ancestor, at a `'/'` boundary, of a
member, whether or not the directory is itself a member (entry names being valid file names). -/
theorem removeUnusedImports_keeps_ancestors (imports : Packages) (targetDir : GoString)
    (vendor : List Node) (d : GoString)
    (hwf : wellNamedEntries vendor = true)
    (hd : (joinPath targetDir d, true) ∈ listingEntries targetDir vendor)
    (hp : d ∈ imports ∨ ∃ m ∈ imports, (d ++ ['/']) <+: m) :
    (joinPath targetDir d, true)
      ∈ listingEntries targetDir (removeUnusedImports imports targetDir vendor).1 := by
  rw [removeUnusedImports_eq]
  refine walkEntries_keeps imports targetDir _ ?_ _ d rfl hp vendor targetDir ?_ hd
  · intro d1 name es hne hprot
    exact removeUnusedImportsFn_keeps imports targetDir d1 name es hne hprot
  · intro n hn
    exact ⟨n.name, validName_of_wellNamedEntries vendor hwf n hn, rfl⟩

/-- Example: `A/sub` is no member of the closure `{A/sub/deep}` and survives. -/
theorem removeUnusedImports_keeps_ancestors_witness :
    wellNamedEntries exampleVendor = true
    ∧ (joinPath "vendor".toList "A/sub".toList, true)
        ∈ listingEntries "vendor".toList exampleVendor
    ∧ ("A/sub".toList ∉ ["A/sub/deep".toList])
    ∧ (joinPath "vendor".toList "A/sub".toList, true)
        ∈ listingEntries "vendor".toList
          (removeUnusedImports ["A/sub/deep".toList] "vendor".toList exampleVendor).1 :=
  ⟨by decide, by decide, by decide,
    removeUnusedImports_keeps_ancestors ["A/sub/deep".toList] "vendor".toList exampleVendor
      "A/sub".toList (by decide) (by decide)
      (Or.inr ⟨"A/sub/deep".toList, by decide, by decide⟩)⟩

/-- C10: when the walk of `removeUnusedImports` completes, every directory left in the vendor
tree has a relative path that is a member of the closure or an ancestor of a member; a
directory that is neither was removed as a whole node, with everything beneath it, also when
its parent is a member. -/
theorem removeUnusedImports_removes_unused (imports : Packages) (targetDir : GoString)
    (vendor : List Node)
    (hret : (removeUnusedImports imports targetDir vendor).2 ≠ .panic) :
    ∀ q, (q, true) ∈ listingEntries targetDir (removeUnusedImports imports targetDir vendor).1 →
      ∃ d, q = joinPath targetDir d ∧ (d ∈ imports ∨ ∃ m ∈ imports, (d ++ ['/']) <+: m) := by
  rw [removeUnusedImports_eq] at hret ⊢
  simp only at hret ⊢
  have hne : (walkEntries (removeUnusedImportsFn imports (imports.foldl
      (fun acc i => Packages.Merge acc (parentPackages [] i)) []) targetDir)
      targetDir vendor).2 ≠ .panic := by
    intro h
    rw [h] at hret
    exact hret (by simp)
  refine (walkEntries_prunes imports targetDir _ ?_ ?_ vendor targetDir
    (fun nm => ⟨nm, rfl⟩) hne).2
  · intro d name es
    rw [removeUnusedImportsFn_dir]
    split
    · exact Or.inr rfl
    · rename_i h
      exact Or.inl ⟨rfl, protectedBy_of_kept imports d h⟩
  · intro p name src
    exact removeUnusedImportsFn_file_ret _ _ _ _ _ _

/-- Witness of C10: with closure `{A}` the unused subpackage `A/unused` of the used package `A`
is gone after the walk, with the file in it. -/
theorem removeUnusedImports_removes_unused_witness :
    (removeUnusedImports ["A".toList] "vendor".toList exampleVendor).2 ≠ .panic
    ∧ (("vendor/A/unused".toList, true) ∈ listingEntries "vendor".toList exampleVendor)
    ∧ (("vendor/A/unused".toList, true) ∉ listingEntries "vendor".toList
        (removeUnusedImports ["A".toList] "vendor".toList exampleVendor).1)
    ∧ (("vendor/A/unused/u.go".toList, false) ∉ listingEntries "vendor".toList
        (removeUnusedImports ["A".toList] "vendor".toList exampleVendor).1)
    ∧ ∀ q, (q, true) ∈ listingEntries "vendor".toList
        (removeUnusedImports ["A".toList] "vendor".toList exampleVendor).1 →
      ∃ d, q = joinPath "vendor".toList d
        ∧ (d ∈ ["A".toList] ∨ ∃ m ∈ ["A".toList], (d ++ ['/']) <+: m) :=
  ⟨by decide, by decide, by decide, by decide,
    removeUnusedImports_removes_unused ["A".toList] "vendor".toList exampleVendor (by decide)⟩

theorem suffix_joinPath_iff (suf x name : GoString) (h : '/' ∉ suf) :
    suf <:+ joinPath x name ↔ suf <:+ name := by
  constructor
  · intro hs
    induction x with
    | nil =>
      rcases List.suffix_cons_iff.mp hs with h1 | h1
      · exfalso; apply h; rw [h1]; simp
      · exact h1
    | cons c cs ih =>
      rcases List.suffix_cons_iff.mp hs with h1 | h1
      · exfalso; apply h; rw [h1]; simp [joinPath]
      · exact ih h1
  · intro hs
    exact hs.trans ⟨x ++ ['/'], by simp [joinPath]⟩

theorem HasSuffix_joinPath (suf x name : GoString) (h : '/' ∉ suf) :
    strings.HasSuffix (joinPath x name) suf = strings.HasSuffix name suf := by
  have := suffix_joinPath_iff suf x name h
  simp only [strings.HasSuffix]
  rw [Bool.eq_iff_iff, List.isSuffixOf_iff_suffix, List.isSuffixOf_iff_suffix]
  exact this

/-- On a file `name` in the directory `targetDir/d` the walk function of `removeUnusedImports`
computes `d` as the package and removes the file by its suffix. -/
theorem removeUnusedImportsFn_file (imports parents : Packages) (t d name : GoString)
    (src : Option AstFile) (hname : '/' ∉ name) :
    removeUnusedImportsFn imports parents t (joinPath t (joinPath d name)) (.file name src)
      = ⟨strings.HasSuffix name "_test.go".toList
          || strings.HasSuffix name ".go".toList && !imports.has d, .nil⟩ := by
  have hp : joinPath t (joinPath d name) = joinPath (joinPath t d) name :=
    (joinPath_assoc t d name).symm
  have hli : strings.LastIndex (joinPath t (joinPath d name)) ['/'] = (joinPath t d).length := by
    rw [hp]; exact LastIndex_append (joinPath t d) name hname
  have hsl : goSlice (joinPath t (joinPath d name)) ((t ++ ['/']).length) (joinPath t d).length
      = some d := by
    unfold goSlice
    rw [if_pos ⟨by omega, by simp [joinPath], by simp [joinPath]; omega⟩]
    simp only [Int.toNat_ofNat]
    rw [hp]
    have h1 : joinPath (joinPath t d) name = joinPath t d ++ ('/' :: name) := rfl
    rw [h1, List.take_left]
    have h2 : joinPath t d = (t ++ ['/']) ++ d := by simp [joinPath]
    rw [h2, List.drop_left]
  unfold removeUnusedImportsFn
  rw [if_neg (joinPath_ne_self t _)]
  simp only [Node.IsDir, Bool.not_false, if_true]
  rw [hli, hsl]
  simp only
  rw [hp, HasSuffix_joinPath _ _ _ (by decide), HasSuffix_joinPath _ _ _ (by decide)]
  have hb : ∀ b : Bool, (if b = true then Visit.mk true .nil else Visit.mk false .nil)
      = ⟨b, .nil⟩ := by
    intro b; cases b <;> rfl
  exact hb _

/-- C9 (amended): a file `name` that `removeUnusedImports` visits in the directory
`targetDir/d` is deleted if and only if its name ends in `_test.go`, or its name ends in `.go`
and `d`, its directory relative to `targetDir`, is not in the closure; the call returns `nil`. -/
theorem removeUnusedImports_file_deleted_iff (imports parents : Packages)
    (targetDir d name : GoString) (src : Option AstFile) (hname : '/' ∉ name) :
    ((removeUnusedImportsFn imports parents targetDir (joinPath targetDir (joinPath d name))
        (.file name src)).removed = true
      ↔ (strings.HasSuffix name "_test.go".toList = true
          ∨ (strings.HasSuffix name ".go".toList = true ∧ d ∉ imports)))
    ∧ (removeUnusedImportsFn imports parents targetDir (joinPath targetDir (joinPath d name))
        (.file name src)).ret = .nil := by
  rw [removeUnusedImportsFn_file imports parents targetDir d name src hname]
  simp [Packages.has]

/-- Witness of C9 (amended): `u.go` in the directory `A/unused`, outside the closure `{A}`. -/
theorem removeUnusedImports_file_deleted_iff_witness :
    '/' ∉ "u.go".toList
    ∧ ((removeUnusedImportsFn ["A".toList] [] "vendor".toList
          (joinPath "vendor".toList (joinPath "A/unused".toList "u.go".toList))
          (.file "u.go".toList none)).removed = true
        ↔ (strings.HasSuffix "u.go".toList "_test.go".toList = true
            ∨ (strings.HasSuffix "u.go".toList ".go".toList = true
                ∧ "A/unused".toList ∉ ["A".toList])))
    ∧ (removeUnusedImportsFn ["A".toList] [] "vendor".toList
          (joinPath "vendor".toList (joinPath "A/unused".toList "u.go".toList))
          (.file "u.go".toList none)).ret = .nil :=
  ⟨by decide,
    removeUnusedImports_file_deleted_iff ["A".toList] [] "vendor".toList "A/unused".toList
      "u.go".toList none (by decide)⟩

/-- C9 as stated fails: with closure `{A/sub/deep}` the directory `A` is kept as an ancestor,
the file `A/x.c` is a recognized source file (`isGoFile`) whose package `A` is not in the
closure, and the walk completes with the file still in place. -/
theorem removeUnusedImports_keeps_c_file :
    isGoFile "x.c".toList = true
    ∧ "A".toList ∉ ["A/sub/deep".toList]
    ∧ (removeUnusedImports ["A/sub/deep".toList] "vendor".toList exampleVendor).2 = .nil
    ∧ ("vendor/A/x.c".toList, false) ∈ listingEntries "vendor".toList
        (removeUnusedImports ["A/sub/deep".toList] "vendor".toList exampleVendor).1 := by
  decide

/-- C8: with excludes `A/a.go` and `A/unused`, `removeExcludes` returns `nil` and the excluded
directory `A/unused` is still there: removing the file `A/a.go` returns `SkipDir`, which makes
the walk skip the remaining entries of `A`. -/
theorem removeExcludes_skips_siblings :
    (removeExcludes ["A/a.go".toList, "A/unused".toList] "vendor".toList exampleVendor).2 = .nil
    ∧ ("vendor/A/a.go".toList, false) ∉ listingEntries "vendor".toList
        (removeExcludes ["A/a.go".toList, "A/unused".toList] "vendor".toList exampleVendor).1
    ∧ ("vendor/A/unused".toList, true) ∈ listingEntries "vendor".toList
        (removeExcludes ["A/a.go".toList, "A/unused".toList] "vendor".toList exampleVendor).1
    ∧ ("vendor/A/unused".toList, true) ∉ listingEntries "vendor".toList
        (removeExcludes ["A/unused".toList] "vendor".toList exampleVendor).1 := by
  decide

/-! ## `remoteName` -/

theorem sha1_Sum_length (data : List Nat) : (sha1.Sum data).length = 20 := by
  simp [sha1.Sum, sha1.wordBytes]

theorem hex_EncodeToString_length (src : List Nat) :
    (hex.EncodeToString src).length = 2 * src.length := by
  induction src with
  | nil => rfl
  | cons v vs ih =>
    have h : hex.EncodeToString (v :: vs)
        = [hex.hextable.getD (v >>> 4) '0', hex.hextable.getD (v &&& 0x0f) '0']
          ++ hex.EncodeToString vs := by
      simp [hex.EncodeToString]
    rw [h, List.length_append, ih]
    simp only [List.length_cons, List.length_nil]
    omega

theorem hextable_getD_mem (k : Nat) : hex.hextable.getD k '0' ∈ hex.hextable := by
  by_cases h : k < 16
  · have : ∀ j, j < 16 → hex.hextable.getD j '0' ∈ hex.hextable := by decide
    exact this k h
  · have hl : hex.hextable.length ≤ k := by
      have : hex.hextable.length = 16 := by decide
      omega
    rw [List.getD_eq_default _ _ hl]
    decide

theorem hex_EncodeToString_digits (src : List Nat) :
    ∀ c ∈ hex.EncodeToString src, c ∈ hex.hextable := by
  intro c hc
  simp only [hex.EncodeToString, List.mem_flatMap, List.mem_cons, List.mem_singleton,
    List.not_mem_nil, or_false] at hc
  obtain ⟨v, _, h | h⟩ := hc
  · rw [h]; exact hextable_getD_mem _
  · rw [h]; exact hextable_getD_mem _

/-- C6: `remoteName` of the empty URL is `origin`; for a non-empty URL it is the first 7
characters of the lowercase hexadecimal SHA-1 digest of the bytes of the URL, so it has length
exactly 7, consists of the characters `0-9` and `a-f`, and is never `origin`; equal URLs have
equal names. -/
theorem remoteName_spec :
    remoteName [] = "origin".toList
    ∧ (∀ u v : GoString, u = v → remoteName u = remoteName v)
    ∧ ∀ u : GoString, u ≠ [] →
        remoteName u = (hex.EncodeToString (sha1.Sum (stringBytes u))).take 7
        ∧ (remoteName u).length = 7
        ∧ (∀ c ∈ remoteName u, c ∈ "0123456789abcdef".toList)
        ∧ remoteName u ≠ "origin".toList := by
  refine ⟨rfl, fun u v h => by rw [h], ?_⟩
  intro u hu
  have hr : remoteName u = (hex.EncodeToString (sha1.Sum (stringBytes u))).take 7 := by
    simp [remoteName, hu]
  have hlen : (remoteName u).length = 7 := by
    rw [hr, List.length_take, hex_EncodeToString_length, sha1_Sum_length]
    rfl
  refine ⟨hr, hlen, ?_, ?_⟩
  · intro c hc
    rw [hr] at hc
    exact hex_EncodeToString_digits _ c (List.mem_of_mem_take hc)
  · intro h
    rw [h] at hlen
    revert hlen
    decide

/-- Witness of C6: the name of the URL `abc`, whose SHA-1 digest starts `a9993e36`. -/
theorem remoteName_spec_witness :
    "abc".toList ≠ [] ∧ remoteName "abc".toList = "a9993e3".toList
    ∧ (remoteName "abc".toList).length = 7 :=
  ⟨by decide, by set_option maxRecDepth 1000000 in decide,
    (remoteName_spec.2.2 "abc".toList (by decide)).2.1⟩

/-! ## `Conf.Dedupe` -/

namespace conf

theorem lookup_append_single (m : List (GoString × Import)) (k p : GoString) (v : Import) :
    List.lookup p (m ++ [(k, v)])
      = match List.lookup p m with
        | some x => some x
        | none => if p = k then some v else none := by
  induction m with
  | nil =>
    by_cases h : p = k
    · subst h; simp [List.lookup]
    · have : (p == k) = false := by simpa using h
      simp [List.lookup, this, h]
  | cons a rest ih =>
    obtain ⟨ak, av⟩ := a
    by_cases h : p = ak
    · subst h; simp [List.lookup]
    · have : (p == ak) = false := by simpa using h
      simp only [List.cons_append, List.lookup, this]
      exact ih

theorem lookup_isSome_iff (m : List (GoString × Import)) (p : GoString) :
    (List.lookup p m).isSome = true ↔ p ∈ m.map (·.1) := by
  induction m with
  | nil => simp [List.lookup]
  | cons a rest ih =>
    obtain ⟨ak, av⟩ := a
    by_cases h : p = ak
    · subst h; simp [List.lookup]
    · have : (p == ak) = false := by simpa using h
      simp only [List.lookup, this, List.map_cons, List.mem_cons, h, false_or]
      exact ih

/-- State of the first loop of `Dedupe`. -/
theorem dedupe_foldl (l : List Import) (m : List (GoString × Import))
    (hm : (m.map (·.1)).Nodup) :
    let r := l.foldl
      (fun m i => if (List.lookup i.Package m).isSome then m else m ++ [(i.Package, i)]) m
    (r.map (·.1)).Nodup
    ∧ ∀ p, List.lookup p r = match List.lookup p m with
        | some x => some x
        | none => l.find? (fun i => i.Package == p) := by
  induction l generalizing m with
  | nil =>
    refine ⟨hm, fun p => ?_⟩
    simp only [List.foldl_nil]
    cases List.lookup p m <;> simp
  | cons i rest ih =>
    simp only [List.foldl_cons]
    by_cases hi : (List.lookup i.Package m).isSome = true
    · rw [if_pos hi]
      obtain ⟨h1, h2⟩ := ih m hm
      refine ⟨h1, fun p => ?_⟩
      rw [h2 p]
      cases hp : List.lookup p m with
      | some x => rfl
      | none =>
        have hne : i.Package ≠ p := by
          intro h
          rw [h, hp] at hi
          simp at hi
        have : (i.Package == p) = false := by simpa using hne
        simp [List.find?, this]
    · rw [if_neg hi]
      have hnot : i.Package ∉ m.map (·.1) := fun h => hi ((lookup_isSome_iff m _).mpr h)
      have hm' : ((m ++ [(i.Package, i)]).map (·.1)).Nodup := by
        rw [List.map_append, List.nodup_append]
        refine ⟨hm, by simp, ?_⟩
        intro a ha hb
        simp only [List.map_cons, List.map_nil, List.mem_singleton] at hb
        subst hb
        exact hnot ha
      obtain ⟨h1, h2⟩ := ih _ hm'
      refine ⟨h1, fun p => ?_⟩
      rw [h2 p, lookup_append_single]
      cases hp : List.lookup p m with
      | some x => rfl
      | none =>
        by_cases hpk : p = i.Package
        · subst hpk
          simp [List.find?]
        · have : (i.Package == p) = false := by simpa using (fun h => hpk h.symm)
          simp [List.find?, this, hpk]

theorem dedupeMap_nodup (imports : List Import) : ((dedupeMap imports).map (·.1)).Nodup :=
  (dedupe_foldl imports [] (by simp)).1

theorem dedupeMap_lookup (imports : List Import) (p : GoString) :
    List.lookup p (dedupeMap imports) = imports.find? (fun i => i.Package == p) := by
  have := (dedupe_foldl imports [] (by simp)).2 p
  simpa [dedupeMap, List.lookup] using this

theorem find_package (imports : List Import) (p : GoString) (i : Import)
    (h : imports.find? (fun i => i.Package == p) = some i) : i.Package = p ∧ i ∈ imports := by
  have h1 := List.find?_some h
  exact ⟨by simpa using h1, List.mem_of_find?_eq_some h⟩

theorem mem_keys_iff (imports : List Import) (p : GoString) :
    p ∈ (dedupeMap imports).map (·.1) ↔ p ∈ imports.map (·.Package) := by
  rw [← lookup_isSome_iff, dedupeMap_lookup]
  simp only [List.find?_isSome, List.mem_map, beq_iff_eq]

end conf

namespace conf

theorem Dedupe_Imports (range : List GoString → List GoString) (t : Conf) :
    (t.Dedupe range).Imports
      = (sort.Strings (range ((dedupeMap t.Imports).map (·.1)))).map
          (fun p => (List.lookup p (dedupeMap t.Imports)).getD Import.zero) := rfl

theorem Dedupe_importMap (range : List GoString → List GoString) (t : Conf) :
    (t.Dedupe range).importMap = dedupeMap t.Imports := rfl

theorem sorted_keys_perm (range : List GoString → List GoString)
    (hrange : ∀ l, (range l).Perm l) (imports : List Import) :
    (sort.Strings (range ((dedupeMap imports).map (·.1)))).Perm ((dedupeMap imports).map (·.1)) :=
  (List.perm_insertionSort _ _).trans (hrange _)

theorem mem_sorted_keys (range : List GoString → List GoString)
    (hrange : ∀ l, (range l).Perm l) (imports : List Import) (p : GoString) :
    p ∈ sort.Strings (range ((dedupeMap imports).map (·.1))) ↔ p ∈ imports.map (·.Package) := by
  rw [(sorted_keys_perm range hrange imports).mem_iff, mem_keys_iff]

theorem lookup_of_mem (imports : List Import) (p : GoString)
    (hp : p ∈ imports.map (·.Package)) :
    ∃ i, List.lookup p (dedupeMap imports) = some i
      ∧ imports.find? (fun j => j.Package == p) = some i ∧ i.Package = p := by
  have h := (lookup_isSome_iff (dedupeMap imports) p).mpr ((mem_keys_iff imports p).mpr hp)
  obtain ⟨i, hi⟩ := Option.isSome_iff_exists.mp h
  have hf : imports.find? (fun j => j.Package == p) = some i := by
    rw [← dedupeMap_lookup]; exact hi
  exact ⟨i, hi, hf, (find_package imports p i hf).1⟩

theorem Dedupe_names (range : List GoString → List GoString)
    (hrange : ∀ l, (range l).Perm l) (t : Conf) :
    (t.Dedupe range).Imports.map (·.Package)
      = sort.Strings (range ((dedupeMap t.Imports).map (·.1))) := by
  rw [Dedupe_Imports, List.map_map]
  conv_rhs => rw [← List.map_id (sort.Strings (range ((dedupeMap t.Imports).map (·.1))))]
  apply List.map_congr_left
  intro p hp
  obtain ⟨i, hi, _, hpk⟩ := lookup_of_mem t.Imports p ((mem_sorted_keys range hrange _ p).mp hp)
  simp [hi, hpk]

/-- C5: after `Conf.Dedupe` the packages of `Imports` are strictly ascending (so no package
occurs twice) and are exactly the packages of the input; every entry is the first entry of the
input list with its package; and `Conf.Get` returns, for a package of the input, that first
entry, and reports any other package as missing.  This holds in whatever order the map is
ranged over. -/
theorem Dedupe_sorted_first_wins (range : List GoString → List GoString)
    (hrange : ∀ l, (range l).Perm l) (t : Conf) :
    ((t.Dedupe range).Imports.map (·.Package)).Sorted (· < ·)
    ∧ (∀ p, p ∈ (t.Dedupe range).Imports.map (·.Package) ↔ p ∈ t.Imports.map (·.Package))
    ∧ (∀ i ∈ (t.Dedupe range).Imports,
        t.Imports.find? (fun j => j.Package == i.Package) = some i)
    ∧ (∀ p i, t.Imports.find? (fun j => j.Package == p) = some i →
        i ∈ (t.Dedupe range).Imports ∧ (t.Dedupe range).Get p = (i, true))
    ∧ (∀ p, p ∉ t.Imports.map (·.Package) → (t.Dedupe range).Get p = (Import.zero, false)) := by
  have hnames := Dedupe_names range hrange t
  refine ⟨?_, ?_, ?_, ?_, ?_⟩
  · rw [hnames]
    apply List.Sorted.lt_of_le
    · exact List.sorted_insertionSort _ _
    · exact (sorted_keys_perm range hrange t.Imports).nodup_iff.mpr (dedupeMap_nodup t.Imports)
  · intro p
    rw [hnames]
    exact mem_sorted_keys range hrange t.Imports p
  · intro i hi
    rw [Dedupe_Imports, List.mem_map] at hi
    obtain ⟨p, hp, hpi⟩ := hi
    obtain ⟨j, hj, hf, hpk⟩ :=
      lookup_of_mem t.Imports p ((mem_sorted_keys range hrange _ p).mp hp)
    rw [hj] at hpi
    simp only [Option.getD_some] at hpi
    subst hpi
    rw [hpk]; exact hf
  · intro p i hf
    have hpk := find_package t.Imports p i hf
    have hl : List.lookup p (dedupeMap t.Imports) = some i := by
      rw [dedupeMap_lookup]; exact hf
    constructor
    · rw [Dedupe_Imports, List.mem_map]
      refine ⟨p, ?_, by simp [hl]⟩
      rw [mem_sorted_keys range hrange]
      exact List.mem_map.mpr ⟨i, hpk.2, hpk.1⟩
    · simp [Conf.Get, Dedupe_importMap, hl]
  · intro p hp
    have hl : List.lookup p (dedupeMap t.Imports) = none := by
      have h := (lookup_isSome_iff (dedupeMap t.Imports) p).not.mpr
        (fun h => hp ((mem_keys_iff t.Imports p).mp h))
      exact Option.not_isSome_iff_eq_none.mp h
    simp [Conf.Get, Dedupe_importMap, hl]

end conf

namespace conf

/-- Witness of C5: with the keys ranged over in reverse order, the manifest `exampleConf`
becomes `a@v2, b@v1`, and `Get b` is the first entry for `b`. -/
theorem Dedupe_sorted_first_wins_witness :
    (∀ l : List GoString, (List.reverse l).Perm l)
    ∧ (exampleConf.Dedupe List.reverse).Imports
        = [⟨"a".toList, "v2".toList, [], ⟨true, false⟩⟩,
            ⟨"b".toList, "v1".toList, [], ⟨false, false⟩⟩]
    ∧ ((exampleConf.Dedupe List.reverse).Imports.map (·.Package)).Sorted (· < ·)
    ∧ (exampleConf.Dedupe List.reverse).Get "b".toList
        = (⟨"b".toList, "v1".toList, [], ⟨false, false⟩⟩, true) :=
  ⟨fun l => List.reverse_perm l, by decide,
    (Dedupe_sorted_first_wins List.reverse (fun l => List.reverse_perm l) exampleConf).1,
    ((Dedupe_sorted_first_wins List.reverse (fun l => List.reverse_perm l) exampleConf).2.2.2.1
      "b".toList ⟨"b".toList, "v1".toList, [], ⟨false, false⟩⟩ (by decide)).2⟩

end conf

/-! ## The loop of `collectImports` -/

theorem mem_foldl_Merge_list (pss : List Packages) (acc : Packages) (x : GoString) :
    x ∈ pss.foldl Packages.Merge acc ↔ x ∈ acc ∨ ∃ ps ∈ pss, x ∈ ps := by
  induction pss generalizing acc with
  | nil => simp
  | cons a t ih =>
    simp only [List.foldl_cons, ih, Packages.mem_Merge, List.mem_cons]
    constructor
    · rintro ((h | h) | ⟨ps, hps, hx⟩)
      · exact Or.inl h
      · exact Or.inr ⟨a, Or.inl rfl, h⟩
      · exact Or.inr ⟨ps, Or.inr hps, hx⟩
    · rintro (h | ⟨ps, hps | hps, hx⟩)
      · exact Or.inl (Or.inl h)
      · subst hps; exact Or.inl (Or.inr hx)
      · exact Or.inr ⟨ps, hps, hx⟩

theorem mem_nextFrontier (imports seen acc : Packages) (x : GoString) :
    x ∈ imports.foldl (fun acc i => if !seen.has i then Packages.set acc i else acc) acc
      ↔ x ∈ acc ∨ (x ∈ imports ∧ x ∉ seen) := by
  induction imports generalizing acc with
  | nil => simp
  | cons a t ih =>
    simp only [List.foldl_cons, ih, List.mem_cons]
    by_cases ha : a ∈ seen
    · have : seen.has a = true := (Packages.has_iff _ _).mpr ha
      simp only [this, Bool.not_true, Bool.false_eq_true, if_false]
      constructor
      · rintro (h | ⟨h1, h2⟩)
        · exact Or.inl h
        · exact Or.inr ⟨Or.inr h1, h2⟩
      · rintro (h | ⟨h1 | h1, h2⟩)
        · exact Or.inl h
        · subst h1; exact absurd ha h2
        · exact Or.inr ⟨h1, h2⟩
    · have : seen.has a = false := by
        cases h : seen.has a
        · rfl
        · exact absurd ((Packages.has_iff _ _).mp h) ha
      simp only [this, Bool.not_false, if_true, Packages.mem_set]
      constructor
      · rintro ((h | h) | ⟨h1, h2⟩)
        · exact Or.inl h
        · subst h; exact Or.inr ⟨Or.inl rfl, ha⟩
        · exact Or.inr ⟨Or.inr h1, h2⟩
      · rintro (h | ⟨h1 | h1, h2⟩)
        · exact Or.inl (Or.inl h)
        · exact Or.inl (Or.inr h1)
        · exact Or.inr ⟨h1, h2⟩

theorem scanAll_some (scan : GoString → Option Packages) (ps : List GoString)
    (pss : List Packages) (h : scanAll scan ps = some pss) :
    (∀ p ∈ ps, ∃ l, scan p = some l ∧ l ∈ pss) ∧ (∀ l ∈ pss, ∃ p ∈ ps, scan p = some l) := by
  induction ps generalizing pss with
  | nil =>
    simp only [scanAll, Option.some.injEq] at h
    subst h
    simp
  | cons a t ih =>
    rw [scanAll] at h
    cases ha : scan a with
    | none => simp [ha] at h
    | some la =>
      cases ht : scanAll scan t with
      | none => simp [ha, ht] at h
      | some rest =>
        simp only [ha, ht, Option.some.injEq] at h
        subst h
        obtain ⟨h1, h2⟩ := ih rest ht
        constructor
        · intro p hp
          rcases List.mem_cons.mp hp with hp | hp
          · subst hp; exact ⟨la, ha, List.mem_cons_self _ _⟩
          · obtain ⟨l, hl, hm⟩ := h1 p hp
            exact ⟨l, hl, List.mem_cons_of_mem _ hm⟩
        · intro l hl
          rcases List.mem_cons.mp hl with hl | hl
          · subst hl; exact ⟨a, List.mem_cons_self _ _, ha⟩
          · obtain ⟨p, hp, hs⟩ := h2 l hl
            exact ⟨p, List.mem_cons_of_mem _ hp, hs⟩

theorem scanAll_none (scan : GoString → Option Packages) (ps : List GoString)
    (h : scanAll scan ps = none) : ∃ p ∈ ps, scan p = none := by
  induction ps with
  | nil => simp [scanAll] at h
  | cons a t ih =>
    rw [scanAll] at h
    cases ha : scan a with
    | none => exact ⟨a, List.mem_cons_self _ _, ha⟩
    | some la =>
      cases ht : scanAll scan t with
      | none =>
        obtain ⟨p, hp, hs⟩ := ih ht
        exact ⟨p, List.mem_cons_of_mem _ hp, hs⟩
      | some rest => simp [ha, ht] at h

theorem collectLoop_succ (scan : GoString → Option Packages) (fuel : Nat)
    (imports packages seen : Packages) (hp : packages ≠ []) :
    collectLoop scan (fuel + 1) imports packages seen
      = match scanAll scan packages with
        | none => .panic
        | some pss =>
          collectLoop scan fuel (pss.foldl Packages.Merge imports)
            ((pss.foldl Packages.Merge imports).foldl
              (fun acc i => if !(Packages.Merge seen packages).has i then Packages.set acc i
                else acc) [])
            (Packages.Merge seen packages) := by
  rw [collectLoop, if_pos (List.length_pos.mpr hp)]

theorem collectLoop_nil (scan : GoString → Option Packages) (fuel : Nat)
    (imports seen : Packages) : collectLoop scan fuel imports [] seen = .done imports := by
  cases fuel <;> simp [collectLoop]

theorem LoopInv.init (scan : GoString → Option Packages) (init : Packages) :
    LoopInv scan init [] init [] where
  fromSeen := by simp
  scanned := by simp
  covered := by simp
  reach := fun x h => by
    rcases h with h | h
    · simp at h
    · exact Or.inl h
  initIn := fun p h => Or.inr h
  fresh := by simp

/-- One iteration of the loop keeps the invariant. -/
theorem LoopInv.step (scan : GoString → Option Packages)
    (init imports packages seen : Packages) (pss : List Packages)
    (inv : LoopInv scan init imports packages seen) (hs : scanAll scan packages = some pss) :
    LoopInv scan init (pss.foldl Packages.Merge imports)
      ((pss.foldl Packages.Merge imports).foldl
        (fun acc i => if !(Packages.Merge seen packages).has i then Packages.set acc i
          else acc) [])
      (Packages.Merge seen packages) := by
  obtain ⟨h1, h2⟩ := scanAll_some scan packages pss hs
  have hfrom : ∀ x ∈ pss.foldl Packages.Merge imports,
      ∃ p ∈ Packages.Merge seen packages, ScanStep scan p x := by
    intro x hx
    rw [mem_foldl_Merge_list] at hx
    rcases hx with hx | ⟨l, hl, hx⟩
    · obtain ⟨p, hp, hst⟩ := inv.fromSeen x hx
      exact ⟨p, (Packages.mem_Merge _ _ _).mpr (Or.inl hp), hst⟩
    · obtain ⟨p, hp, hsp⟩ := h2 l hl
      exact ⟨p, (Packages.mem_Merge _ _ _).mpr (Or.inr hp), l, hsp, hx⟩
  refine ⟨hfrom, ?_, ?_, ?_, ?_, ?_⟩
  · intro p hp
    rcases (Packages.mem_Merge _ _ _).mp hp with hp | hp
    · obtain ⟨l, hl, hsub⟩ := inv.scanned p hp
      exact ⟨l, hl, fun x hx => (mem_foldl_Merge_list _ _ _).mpr (Or.inl (hsub x hx))⟩
    · obtain ⟨l, hl, hm⟩ := h1 p hp
      exact ⟨l, hl, fun x hx => (mem_foldl_Merge_list _ _ _).mpr (Or.inr ⟨l, hm, hx⟩)⟩
  · intro x hx
    by_cases hxs : x ∈ Packages.Merge seen packages
    · exact Or.inl hxs
    · exact Or.inr ((mem_nextFrontier _ _ _ _).mpr (Or.inr ⟨hx, hxs⟩))
  · intro x hx
    have hold : ∀ y, y ∈ Packages.Merge seen packages → y ∈ init ∨ Reached scan init y :=
      fun y hy => inv.reach y ((Packages.mem_Merge _ _ _).mp hy)
    rcases hx with hx | hx
    · exact hold x hx
    · rw [mem_nextFrontier] at hx
      rcases hx with hx | ⟨hx, _⟩
      · simp at hx
      · obtain ⟨p, hp, hst⟩ := hfrom x hx
        right
        rcases hold p hp with hpi | ⟨p0, hp0, hreach⟩
        · exact ⟨p, hpi, Relation.TransGen.single hst⟩
        · exact ⟨p0, hp0, Relation.TransGen.tail hreach hst⟩
  · intro p hp
    left
    exact (Packages.mem_Merge _ _ _).mpr (inv.initIn p hp)
  · intro x hx
    rw [mem_nextFrontier] at hx
    rcases hx with hx | ⟨_, hx⟩
    · simp at hx
    · exact hx

/-- With an empty frontier the invariant gives the result property. -/
theorem LoopInv.post (scan : GoString → Option Packages) (init imports seen : Packages)
    (inv : LoopInv scan init imports [] seen) : LoopPost scan init imports := by
  have hseen : ∀ x ∈ imports, x ∈ seen := fun x hx => by
    rcases inv.covered x hx with h | h
    · exact h
    · simp at h
  have hinit : ∀ p ∈ init, p ∈ seen := fun p hp => by
    rcases inv.initIn p hp with h | h
    · exact h
    · simp at h
  have hclosed : ∀ x ∈ seen, ∀ y, ScanStep scan x y → y ∈ imports := by
    intro x hx y ⟨l, hl, hy⟩
    obtain ⟨l', hl', hsub⟩ := inv.scanned x hx
    rw [hl] at hl'
    cases hl'
    exact hsub y hy
  constructor
  · intro x
    constructor
    · intro hx
      obtain ⟨p, hp, hst⟩ := inv.fromSeen x hx
      rcases inv.reach p (Or.inl hp) with hpi | ⟨p0, hp0, hreach⟩
      · exact ⟨p, hpi, Relation.TransGen.single hst⟩
      · exact ⟨p0, hp0, Relation.TransGen.tail hreach hst⟩
    · rintro ⟨p0, hp0, hreach⟩
      induction hreach with
      | single hst => exact hclosed p0 (hinit p0 hp0) _ hst
      | tail _ hst ih => exact hclosed _ (hseen _ ih) _ hst
  · intro x hx
    have : x ∈ seen := by
      rcases hx with hx | hx
      · exact hinit x hx
      · exact hseen x hx
    exact inv.scanned x this

theorem reached_mem_universe (scan : GoString → Option Packages) (init U : Packages)
    (hU0 : ∀ p ∈ init, p ∈ U) (hUc : ∀ a ∈ U, ∀ b, ScanStep scan a b → b ∈ U)
    (x : GoString) (hx : x ∈ init ∨ Reached scan init x) : x ∈ U := by
  rcases hx with hx | ⟨p0, hp0, hreach⟩
  · exact hU0 x hx
  · induction hreach with
    | single hst => exact hUc p0 (hU0 p0 hp0) _ hst
    | tail _ hst ih => exact hUc _ ih _ hst

/-- The loop of `collectImports`, started in a state that satisfies the invariant with more
fuel than there are unseen strings in a universe closed under scanning, does not run out of
fuel: it returns the reached set, or it panics because the scan of a reached package panics. -/
theorem collectLoop_spec (scan : GoString → Option Packages) (init U : Packages)
    (hU0 : ∀ p ∈ init, p ∈ U) (hUc : ∀ a ∈ U, ∀ b, ScanStep scan a b → b ∈ U) :
    ∀ (fuel : Nat) (imports packages seen : Packages),
      LoopInv scan init imports packages seen →
      (U.toFinset \ seen.toFinset).card < fuel →
      (∃ r, collectLoop scan fuel imports packages seen = .done r ∧ LoopPost scan init r)
      ∨ (collectLoop scan fuel imports packages seen = .panic
          ∧ ∃ x, (x ∈ init ∨ Reached scan init x) ∧ scan x = none) := by
  intro fuel
  induction fuel with
  | zero => intro imports packages seen _ h; exact absurd h (Nat.not_lt_zero _)
  | succ n ih =>
    intro imports packages seen inv hfuel
    by_cases hp : packages = []
    · subst hp
      rw [collectLoop_nil]
      exact Or.inl ⟨imports, rfl, LoopInv.post scan init imports seen inv⟩
    · rw [collectLoop_succ scan n imports packages seen hp]
      cases hs : scanAll scan packages with
      | none =>
        obtain ⟨p, hpm, hnone⟩ := scanAll_none scan packages hs
        exact Or.inr ⟨rfl, p, inv.reach p (Or.inr hpm), hnone⟩
      | some pss =>
        simp only
        apply ih _ _ _ (LoopInv.step scan init imports packages seen pss inv hs)
        obtain ⟨x, hx⟩ := List.exists_mem_of_ne_nil packages hp
        have hxU : x ∈ U := reached_mem_universe scan init U hU0 hUc x (inv.reach x (Or.inr hx))
        have hxS : x ∉ seen := inv.fresh x hx
        have hlt : (U.toFinset \ (Packages.Merge seen packages).toFinset).card
            < (U.toFinset \ seen.toFinset).card := by
          apply Finset.card_lt_card
          refine ⟨?_, ?_⟩
          · intro y hy
            simp only [Finset.mem_sdiff, List.mem_toFinset, Packages.mem_Merge, not_or] at hy ⊢
            exact ⟨hy.1, hy.2.1⟩
          · intro hsub
            have hmem : x ∈ U.toFinset \ seen.toFinset := by
              simp only [Finset.mem_sdiff, List.mem_toFinset]
              exact ⟨hxU, hxS⟩
            have := hsub hmem
            simp only [Finset.mem_sdiff, List.mem_toFinset, Packages.mem_Merge, not_or] at this
            exact this.2.2 hx
        omega

/-- The loop from the initial state, with the iteration bound of the model. -/
theorem collectLoop_init (scan : GoString → Option Packages) (init U : Packages)
    (hU0 : ∀ p ∈ init, p ∈ U) (hUc : ∀ a ∈ U, ∀ b, ScanStep scan a b → b ∈ U) :
    (∃ r, collectLoop scan (U.length + 1) [] init [] = .done r ∧ LoopPost scan init r)
    ∨ (collectLoop scan (U.length + 1) [] init [] = .panic
        ∧ ∃ x, (x ∈ init ∨ Reached scan init x) ∧ scan x = none) := by
  apply collectLoop_spec scan init U hU0 hUc _ _ _ _ (LoopInv.init scan init)
  have h1 : (U.toFinset \ ([] : Packages).toFinset).card ≤ U.toFinset.card :=
    Finset.card_le_card Finset.sdiff_subset
  have h2 := List.toFinset_card_le U
  omega

/-! ## `listImports` and the scan universe -/

theorem mem_of_lookup {α : Type} (k : GoString) (v : α) (l : List (GoString × α))
    (h : List.lookup k l = some v) : (k, v) ∈ l := by
  induction l with
  | nil => simp [List.lookup] at h
  | cons a rest ih =>
    obtain ⟨ak, av⟩ := a
    by_cases hk : k = ak
    · subst hk
      simp only [List.lookup, beq_self_eq_true, Option.some.injEq] at h
      subst h
      exact List.mem_cons_self _ _
    · have : (k == ak) = false := by simpa using hk
      simp only [List.lookup, this] at h
      exact List.mem_cons_of_mem _ (ih h)

theorem mem_candidates (rootPackage libRoot pkg : GoString) :
    pkg ∈ [rootPackage, rootPackage ++ '/' :: pkgPathOf rootPackage libRoot pkg,
      (pkgPathOf rootPackage libRoot pkg).drop (libRoot.length + 1)] := by
  unfold pkgPathOf
  by_cases h1 : pkg = rootPackage
  · simp [h1]
  · rw [if_pos h1]
    by_cases h2 : strings.HasPrefix pkg (rootPackage ++ ['/']) = true
    · rw [if_pos h2]
      simp only [strings.HasPrefix, List.isPrefixOf_iff_prefix] at h2
      obtain ⟨rest, hrest⟩ := h2
      have hd : pkg.drop (rootPackage.length + 1) = rest := by
        rw [← hrest]
        have : rootPackage.length + 1 = (rootPackage ++ ['/']).length := by simp
        rw [this, List.drop_left]
      rw [hd, ← hrest]
      simp
    · rw [if_neg h2]
      have hd : (libRoot ++ '/' :: pkg).drop (libRoot.length + 1) = pkg := by
        have h3 : libRoot ++ '/' :: pkg = (libRoot ++ ['/']) ++ pkg := by simp
        have : libRoot.length + 1 = (libRoot ++ ['/']).length := by simp
        rw [h3, this, List.drop_left]
      rw [hd]
      simp

theorem mem_chanPackagesFromLines (lnc : List GoString) (x : GoString) :
    x ∈ chanPackagesFromLines lnc ↔ x ∈ lnc := by
  have h : ∀ (acc : Packages), x ∈ lnc.foldl Packages.set acc ↔ x ∈ acc ∨ x ∈ lnc := by
    induction lnc with
    | nil => simp
    | cons a t ih =>
      intro acc
      simp only [List.foldl_cons, ih, Packages.mem_set, List.mem_cons]
      constructor
      · rintro ((h | h) | h)
        · exact Or.inl h
        · exact Or.inr (Or.inl h)
        · exact Or.inr (Or.inr h)
      · rintro (h | h | h)
        · exact Or.inl (Or.inl h)
        · exact Or.inl (Or.inr h)
        · exact Or.inr h
  simpa [chanPackagesFromLines] using h []

/-- The members of a scan: the package, declared imports, paths of the CGO scan. -/
theorem listImports_cases (rt : Runtime) (proj : List Node) (rootPackage libRoot pkg : GoString)
    (filters : List GoString) (nativeOnly : Bool) (l : Packages) (x : GoString)
    (hl : listImports rt proj rootPackage libRoot pkg filters nativeOnly = some l) (hx : x ∈ l) :
    x = pkg
    ∨ ∃ files cgo, ParseDir proj (pkgPathOf rootPackage libRoot pkg)
          (noVendoredTests rt libRoot (pkgPathOf rootPackage libRoot pkg) nativeOnly) = some files
        ∧ cgoImports proj (pkgPathOf rootPackage libRoot pkg) pkg files = some cgo
        ∧ (x ∈ goImports rootPackage (pkgPathOf rootPackage libRoot pkg) pkg filters files
            ∨ x ∈ cgo) := by
  unfold listImports at hl
  simp only at hl
  split at hl
  · cases hl
    left
    simpa [mem_chanPackagesFromLines, util.MergeStrChans, util.OneStr] using hx
  · rename_i files hfiles
    split at hl
    · cases hl
    · rename_i cgo hcgo
      cases hl
      simp only [mem_chanPackagesFromLines, util.MergeStrChans, util.OneStr, List.mem_append,
        List.mem_singleton] at hx
      rcases hx with (hx | hx) | hx
      · exact Or.inr ⟨files, cgo, hfiles, hcgo, Or.inl hx⟩
      · exact Or.inr ⟨files, cgo, hfiles, hcgo, Or.inr hx⟩
      · exact Or.inl hx

/-- A scan yields the package itself and strings of the scan universe. -/
theorem listImports_mem (rt : Runtime) (proj : List Node) (rootPackage libRoot pkg : GoString)
    (filters : List GoString) (nativeOnly : Bool) (l : Packages) (x : GoString)
    (hl : listImports rt proj rootPackage libRoot pkg filters nativeOnly = some l) (hx : x ∈ l) :
    x = pkg ∨ x ∈ scanUniverse rt proj rootPackage libRoot filters nativeOnly := by
  rcases listImports_cases rt proj rootPackage libRoot pkg filters nativeOnly l x hl hx with
    h | ⟨files, cgo, hpd, _, _⟩
  · exact Or.inl h
  · right
    have hlk : ∃ entries, List.lookup (pkgPathOf rootPackage libRoot pkg) (projectDirs proj)
        = some entries := by
      unfold ParseDir at hpd
      cases hlk : List.lookup (pkgPathOf rootPackage libRoot pkg) (projectDirs proj) with
      | none => simp [hlk] at hpd
      | some entries => exact ⟨entries, rfl⟩
    obtain ⟨entries, hlk⟩ := hlk
    have hmem := mem_of_lookup _ _ _ hlk
    unfold scanUniverse
    rw [List.mem_flatMap]
    refine ⟨_, hmem, ?_⟩
    rw [List.mem_flatMap]
    refine ⟨pkg, mem_candidates rootPackage libRoot pkg, ?_⟩
    rw [hl]
    exact hx

theorem listImports_self (rt : Runtime) (proj : List Node) (rootPackage libRoot pkg : GoString)
    (filters : List GoString) (nativeOnly : Bool) (l : Packages)
    (hl : listImports rt proj rootPackage libRoot pkg filters nativeOnly = some l) :
    pkg ∈ l := by
  unfold listImports at hl
  simp only at hl
  split at hl
  · cases hl
    simp [mem_chanPackagesFromLines, util.MergeStrChans, util.OneStr]
  · split at hl
    · cases hl
    · cases hl
      simp [mem_chanPackagesFromLines, util.MergeStrChans, util.OneStr]

/-- The run of `collectImports`: it returns the reached set or panics in a reached scan. -/
theorem collectImports_run (rt : Runtime) (proj : List Node)
    (rootPackage libRoot targetDir : GoString) (filters : List GoString) (nativeOnly : Bool) :
    (∃ r, collectImports rt proj rootPackage libRoot targetDir filters nativeOnly = .done r
      ∧ LoopPost (fun p => listImports rt proj rootPackage libRoot p filters nativeOnly)
          (listPackages proj rootPackage targetDir) r)
    ∨ (collectImports rt proj rootPackage libRoot targetDir filters nativeOnly = .panic
        ∧ ∃ x, (x ∈ listPackages proj rootPackage targetDir
            ∨ Reached (fun p => listImports rt proj rootPackage libRoot p filters nativeOnly)
                (listPackages proj rootPackage targetDir) x)
          ∧ listImports rt proj rootPackage libRoot x filters nativeOnly = none) := by
  unfold collectImports
  apply collectLoop_init
  · intro p hp
    exact List.mem_append_left _ hp
  · intro a ha b ⟨l, hl, hb⟩
    rcases listImports_mem rt proj rootPackage libRoot a filters nativeOnly l b hl hb with h | h
    · rw [h]; exact ha
    · exact List.mem_append_right _ h

/-- C2: `collectImports` terminates (the iteration bound of the model is never reached); what
it returns is exactly the set of paths reached from the packages of `listPackages` by following
`listImports` one or more times, and that set is closed under `listImports`; and it returns
whenever `listImports` yields a set for every package path. -/
theorem collectImports_reachable (rt : Runtime) (proj : List Node)
    (rootPackage libRoot targetDir : GoString) (filters : List GoString) (nativeOnly : Bool) :
    collectImports rt proj rootPackage libRoot targetDir filters nativeOnly ≠ .outOfFuel
    ∧ (∀ r, collectImports rt proj rootPackage libRoot targetDir filters nativeOnly = .done r →
        (∀ x, x ∈ r ↔
          Reached (fun p => listImports rt proj rootPackage libRoot p filters nativeOnly)
            (listPackages proj rootPackage targetDir) x)
        ∧ (∀ x ∈ r, ∀ l, listImports rt proj rootPackage libRoot x filters nativeOnly = some l →
            ∀ y ∈ l, y ∈ r))
    ∧ ((∀ p, listImports rt proj rootPackage libRoot p filters nativeOnly ≠ none) →
        ∃ r, collectImports rt proj rootPackage libRoot targetDir filters nativeOnly = .done r) := by
  have hrun := collectImports_run rt proj rootPackage libRoot targetDir filters nativeOnly
  refine ⟨?_, ?_, ?_⟩
  · rcases hrun with ⟨r, hr, _⟩ | ⟨hp, _⟩
    · rw [hr]; simp
    · rw [hp]; simp
  · intro r hr
    rcases hrun with ⟨r', hr', post⟩ | ⟨hp, _⟩
    · rw [hr] at hr'
      cases hr'
      refine ⟨post.exact, ?_⟩
      intro x hx l hl y hy
      obtain ⟨l', hl', hsub⟩ := post.closed x (Or.inr hx)
      rw [hl] at hl'
      cases hl'
      exact hsub y hy
    · rw [hr] at hp; cases hp
  · intro hall
    rcases hrun with ⟨r, hr, _⟩ | ⟨_, x, _, hx⟩
    · exact ⟨r, hr⟩
    · exact absurd hx (hall x)

/-- Witness of C2: the closure of the example project. -/
theorem collectImports_reachable_witness :
    collectImports exampleRuntime exampleProject "example.com/app".toList "vendor".toList
        "vendor".toList ["ignore".toList] false
      = .done ["x.com/X".toList, "example.com/app".toList, "example.com/app/sub".toList,
          "x.com/Y".toList]
    ∧ ∀ x, x ∈ ["x.com/X".toList, "example.com/app".toList, "example.com/app/sub".toList,
          "x.com/Y".toList] ↔
        Reached (fun p => listImports exampleRuntime exampleProject "example.com/app".toList
            "vendor".toList p ["ignore".toList] false)
          (listPackages exampleProject "example.com/app".toList "vendor".toList) x :=
  ⟨by set_option maxRecDepth 100000 in decide,
    ((collectImports_reachable exampleRuntime exampleProject "example.com/app".toList
      "vendor".toList "vendor".toList ["ignore".toList] false).2.1 _
        (by set_option maxRecDepth 100000 in decide)).1⟩

/-! ## The root namespace in the closure -/

theorem importOf_not_root (rootPackage pkg : GoString) (v : ImportSpec) (imp : GoString)
    (h : importOf rootPackage pkg v = some imp) :
    ¬ (imp = rootPackage ∨ strings.HasPrefix imp (rootPackage ++ ['/']) = true) := by
  unfold importOf at h
  simp only at h
  split at h
  · cases h
  · split at h
    · cases h
    · rename_i hn
      cases h
      exact hn

theorem goImports_not_root (rootPackage pkgPath pkg : GoString) (filters : List GoString)
    (files : List AstFile) (x : GoString)
    (hx : x ∈ goImports rootPackage pkgPath pkg filters files) :
    ¬ (x = rootPackage ∨ strings.HasPrefix x (rootPackage ++ ['/']) = true) := by
  unfold goImports at hx
  rw [List.mem_flatMap] at hx
  obtain ⟨f, _, hf⟩ := hx
  split at hf
  · simp at hf
  · split at hf
    · simp at hf
    · rw [List.mem_filterMap] at hf
      obtain ⟨v, _, hv⟩ := hf
      exact importOf_not_root rootPackage pkg v x hv

/-- C3 (amended): the set that `collectImports` returns contains every locally-owned package
found by `listPackages` (each scanned package is merged into the result); a member that equals
`rootPackage` or begins with `rootPackage + "/"` is one of these packages or a directory sent
by the CGO include scan, never a declared import. -/
theorem collectImports_root_members (rt : Runtime) (proj : List Node)
    (rootPackage libRoot targetDir : GoString) (filters : List GoString) (nativeOnly : Bool)
    (r : Packages)
    (hr : collectImports rt proj rootPackage libRoot targetDir filters nativeOnly = .done r) :
    (∀ p ∈ listPackages proj rootPackage targetDir, p ∈ r)
    ∧ ∀ x ∈ r, (x = rootPackage ∨ strings.HasPrefix x (rootPackage ++ ['/']) = true) →
        x ∈ listPackages proj rootPackage targetDir
        ∨ ∃ pkg files cgo, ParseDir proj (pkgPathOf rootPackage libRoot pkg)
            (noVendoredTests rt libRoot (pkgPathOf rootPackage libRoot pkg) nativeOnly)
              = some files
          ∧ cgoImports proj (pkgPathOf rootPackage libRoot pkg) pkg files = some cgo
          ∧ x ∈ cgo := by
  rcases collectImports_run rt proj rootPackage libRoot targetDir filters nativeOnly with
    ⟨r', hr', post⟩ | ⟨hp, _⟩
  · rw [hr] at hr'
    cases hr'
    constructor
    · intro p hp
      obtain ⟨l, hl, hsub⟩ := post.closed p (Or.inl hp)
      exact hsub p (listImports_self rt proj rootPackage libRoot p filters nativeOnly l hl)
    · intro x hx hroot
      obtain ⟨p0, hp0, hreach⟩ := (post.exact x).mp hx
      have key : ∀ a b, ScanStep
          (fun p => listImports rt proj rootPackage libRoot p filters nativeOnly) a b →
          (b = rootPackage ∨ strings.HasPrefix b (rootPackage ++ ['/']) = true) →
          b = a ∨ ∃ pkg files cgo, ParseDir proj (pkgPathOf rootPackage libRoot pkg)
            (noVendoredTests rt libRoot (pkgPathOf rootPackage libRoot pkg) nativeOnly)
              = some files
          ∧ cgoImports proj (pkgPathOf rootPackage libRoot pkg) pkg files = some cgo
          ∧ b ∈ cgo := by
        intro a b ⟨l, hl, hb⟩ hbroot
        rcases listImports_cases rt proj rootPackage libRoot a filters nativeOnly l b hl hb with
          h | ⟨files, cgo, h1, h2, h3 | h3⟩
        · exact Or.inl h
        · exact absurd hbroot (goImports_not_root _ _ _ _ _ _ h3)
        · exact Or.inr ⟨a, files, cgo, h1, h2, h3⟩
      induction hreach with
      | single hst =>
        rcases key _ _ hst hroot with h | h
        · rw [h]; exact Or.inl hp0
        · exact Or.inr h
      | tail hprev hst ih =>
        rcases key _ _ hst hroot with h | h
        · subst h
          exact ih ((post.exact _).mpr ⟨p0, hp0, hprev⟩) hroot
        · exact Or.inr h
  · rw [hr] at hp; cases hp

/-- Witness of C3 (amended): the closure of the example project holds the root package. -/
theorem collectImports_root_members_witness :
    collectImports exampleRuntime exampleProject "example.com/app".toList "vendor".toList
        "vendor".toList ["ignore".toList] false
      = .done ["x.com/X".toList, "example.com/app".toList, "example.com/app/sub".toList,
          "x.com/Y".toList]
    ∧ ∀ p ∈ listPackages exampleProject "example.com/app".toList "vendor".toList,
        p ∈ ["x.com/X".toList, "example.com/app".toList, "example.com/app/sub".toList,
          "x.com/Y".toList] :=
  ⟨by set_option maxRecDepth 100000 in decide,
    (collectImports_root_members exampleRuntime exampleProject "example.com/app".toList
      "vendor".toList "vendor".toList ["ignore".toList] false _
        (by set_option maxRecDepth 100000 in decide)).1⟩

/-- C3 as stated fails: the closure of the example project, root package `example.com/app`,
holds `example.com/app` itself and `example.com/app/sub`. -/
theorem collectImports_holds_root_package :
    ∃ r, collectImports exampleRuntime exampleProject "example.com/app".toList "vendor".toList
        "vendor".toList ["ignore".toList] false = .done r
      ∧ "example.com/app".toList ∈ r
      ∧ "example.com/app/sub".toList ∈ r
      ∧ strings.HasPrefix "example.com/app/sub".toList ("example.com/app".toList ++ ['/']) = true :=
  ⟨["x.com/X".toList, "example.com/app".toList, "example.com/app/sub".toList,
          "x.com/Y".toList],
    by set_option maxRecDepth 100000 in decide, by decide, by decide, by decide⟩

/-! ## Build-tag filters -/

theorem hasFilteredBuildTag_mono (f : AstFile) (F1 F2 : List GoString)
    (hsub : ∀ t ∈ F1, t ∈ F2) (h : hasFilteredBuildTag f F1 = true) :
    hasFilteredBuildTag f F2 = true := by
  unfold hasFilteredBuildTag at h ⊢
  split
  · rename_i hc
    rw [hc] at h
    simp at h
  · rename_i block rest hc
    rw [hc] at h
    simp only at h
    split at h
    · cases h
    · rename_i hpos
      rw [if_neg hpos]
      split at h
      · cases h
      · rename_i hdoc
        rw [if_neg hdoc]
        rw [List.any_eq_true] at h ⊢
        obtain ⟨text, htext, h⟩ := h
        refine ⟨text, htext, ?_⟩
        simp only at h ⊢
        split at h
        · rename_i hpre
          rw [if_pos hpre]
          rw [List.any_eq_true] at h ⊢
          obtain ⟨grp, hgrp, h⟩ := h
          refine ⟨grp, hgrp, ?_⟩
          rw [List.any_eq_true] at h ⊢
          obtain ⟨tag, htag, h⟩ := h
          refine ⟨tag, htag, ?_⟩
          rw [List.any_eq_true] at h ⊢
          obtain ⟨filter, hfilter, h⟩ := h
          exact ⟨filter, hsub filter hfilter, h⟩
        · cases h

theorem goImports_mono (rootPackage pkgPath pkg : GoString) (F1 F2 : List GoString)
    (hsub : ∀ t ∈ F1, t ∈ F2) (files : List AstFile) (x : GoString)
    (hx : x ∈ goImports rootPackage pkgPath pkg F2 files) :
    x ∈ goImports rootPackage pkgPath pkg F1 files := by
  unfold goImports at hx ⊢
  rw [List.mem_flatMap] at hx ⊢
  obtain ⟨f, hf, hx⟩ := hx
  refine ⟨f, hf, ?_⟩
  split at hx
  · simp at hx
  · rename_i hmain
    rw [if_neg hmain]
    split at hx
    · simp at hx
    · rename_i h2
      have h1 : ¬ hasFilteredBuildTag f F1 = true :=
        fun h => h2 (hasFilteredBuildTag_mono f F1 F2 hsub h)
      rw [if_neg h1]
      exact hx

/-- A scan under the larger filter list panics exactly when the scan under the smaller one
does, and yields a subset. -/
theorem listImports_mono (rt : Runtime) (proj : List Node) (rootPackage libRoot pkg : GoString)
    (F1 F2 : List GoString) (nativeOnly : Bool) (hsub : ∀ t ∈ F1, t ∈ F2) :
    (listImports rt proj rootPackage libRoot pkg F2 nativeOnly = none
      ↔ listImports rt proj rootPackage libRoot pkg F1 nativeOnly = none)
    ∧ ∀ l2, listImports rt proj rootPackage libRoot pkg F2 nativeOnly = some l2 →
        ∃ l1, listImports rt proj rootPackage libRoot pkg F1 nativeOnly = some l1
          ∧ ∀ x ∈ l2, x ∈ l1 := by
  unfold listImports
  simp only
  cases ParseDir proj (pkgPathOf rootPackage libRoot pkg)
      (noVendoredTests rt libRoot (pkgPathOf rootPackage libRoot pkg) nativeOnly) with
  | none =>
    refine ⟨Iff.rfl, ?_⟩
    intro l2 h
    exact ⟨l2, h, fun x hx => hx⟩
  | some files =>
    simp only
    cases cgoImports proj (pkgPathOf rootPackage libRoot pkg) pkg files with
    | none =>
      refine ⟨Iff.rfl, ?_⟩
      intro l2 h
      cases h
    | some cgo =>
      simp only
      refine ⟨by simp, ?_⟩
      intro l2 h
      cases h
      refine ⟨_, rfl, ?_⟩
      intro x hx
      simp only [mem_chanPackagesFromLines, util.MergeStrChans, util.OneStr, List.mem_append,
        List.mem_singleton] at hx ⊢
      rcases hx with (hx | hx) | hx
      · exact Or.inl (Or.inl (goImports_mono _ _ _ F1 F2 hsub files x hx))
      · exact Or.inl (Or.inr hx)
      · exact Or.inr hx

theorem ScanStep_mono (rt : Runtime) (proj : List Node) (rootPackage libRoot : GoString)
    (F1 F2 : List GoString) (nativeOnly : Bool) (hsub : ∀ t ∈ F1, t ∈ F2) (a b : GoString)
    (h : ScanStep (fun p => listImports rt proj rootPackage libRoot p F2 nativeOnly) a b) :
    ScanStep (fun p => listImports rt proj rootPackage libRoot p F1 nativeOnly) a b := by
  obtain ⟨l2, hl2, hb⟩ := h
  obtain ⟨l1, hl1, hs⟩ :=
    (listImports_mono rt proj rootPackage libRoot a F1 F2 nativeOnly hsub).2 l2 hl2
  exact ⟨l1, hl1, hs b hb⟩

/-- C4: when every tag of the filter list `F1` is in `F2`, every file that
`hasFilteredBuildTag` skips under `F1` is skipped under `F2`, and when `collectImports` returns
a closure with `F1`, it returns one with `F2` that is a subset of it. -/
theorem collectImports_filter_monotone (rt : Runtime) (proj : List Node)
    (rootPackage libRoot targetDir : GoString) (F1 F2 : List GoString) (nativeOnly : Bool)
    (hsub : ∀ t ∈ F1, t ∈ F2) :
    (∀ f, hasFilteredBuildTag f F1 = true → hasFilteredBuildTag f F2 = true)
    ∧ ∀ r1, collectImports rt proj rootPackage libRoot targetDir F1 nativeOnly = .done r1 →
        ∃ r2, collectImports rt proj rootPackage libRoot targetDir F2 nativeOnly = .done r2
          ∧ ∀ x ∈ r2, x ∈ r1 := by
  refine ⟨fun f h => hasFilteredBuildTag_mono f F1 F2 hsub h, ?_⟩
  intro r1 hr1
  rcases collectImports_run rt proj rootPackage libRoot targetDir F1 nativeOnly with
    ⟨r1', hr1', post1⟩ | ⟨hp, _⟩
  · rw [hr1] at hr1'
    cases hr1'
    have hreach : ∀ x,
        Reached (fun p => listImports rt proj rootPackage libRoot p F2 nativeOnly)
          (listPackages proj rootPackage targetDir) x →
        Reached (fun p => listImports rt proj rootPackage libRoot p F1 nativeOnly)
          (listPackages proj rootPackage targetDir) x := by
      rintro x ⟨p0, hp0, h⟩
      exact ⟨p0, hp0, Relation.TransGen.mono
        (ScanStep_mono rt proj rootPackage libRoot F1 F2 nativeOnly hsub) h⟩
    rcases collectImports_run rt proj rootPackage libRoot targetDir F2 nativeOnly with
      ⟨r2, hr2, post2⟩ | ⟨_, x, hx, hnone⟩
    · refine ⟨r2, hr2, ?_⟩
      intro x hx
      exact (post1.exact x).mpr (hreach x ((post2.exact x).mp hx))
    · exfalso
      have hx1 : x ∈ listPackages proj rootPackage targetDir ∨ x ∈ r1 := by
        rcases hx with hx | hx
        · exact Or.inl hx
        · exact Or.inr ((post1.exact x).mpr (hreach x hx))
      obtain ⟨l, hl, _⟩ := post1.closed x hx1
      have := (listImports_mono rt proj rootPackage libRoot x F1 F2 nativeOnly hsub).1.mp hnone
      rw [hl] at this
      cases this
  · rw [hr1] at hp; cases hp

/-- Witness of C4: in the build-tag example the filter list `ignore, tools` gives a closure
inside the closure of the filter list `ignore`. -/
theorem collectImports_filter_monotone_witness :
    (∀ t ∈ ["ignore".toList], t ∈ ["ignore".toList, "tools".toList])
    ∧ collectImports exampleRuntime exampleTaggedProject "example.com/app".toList
        "vendor".toList "vendor".toList ["ignore".toList] false
      = .done ["x.com/X".toList, "example.com/app".toList, "x.com/T".toList, "x.com/Y".toList]
    ∧ collectImports exampleRuntime exampleTaggedProject "example.com/app".toList
        "vendor".toList "vendor".toList ["ignore".toList, "tools".toList] false
      = .done ["x.com/X".toList, "example.com/app".toList, "x.com/Y".toList]
    ∧ ∃ r2, collectImports exampleRuntime exampleTaggedProject "example.com/app".toList
        "vendor".toList "vendor".toList ["ignore".toList, "tools".toList] false = .done r2
      ∧ ∀ x ∈ r2, x ∈ ["x.com/X".toList, "example.com/app".toList, "x.com/T".toList, "x.com/Y".toList] :=
  ⟨by decide, by set_option maxRecDepth 100000 in decide,
    by set_option maxRecDepth 100000 in decide,
    (collectImports_filter_monotone exampleRuntime exampleTaggedProject
      "example.com/app".toList "vendor".toList "vendor".toList ["ignore".toList]
      ["ignore".toList, "tools".toList] false (by decide)).2 _
      (by set_option maxRecDepth 100000 in decide)⟩

/-! ## `cleanup` -/

theorem Outcome.eq_done_of_isDone {α : Type} (o : Outcome α) (d : α) (h : o.isDone = true) :
    o = .done (o.getD d) := by
  cases o with
  | done a => rfl
  | panic => cases h
  | outOfFuel => cases h

/-- C7 (amended): the closure that `cleanup` hands to `removeUnusedImports` is the one
`collectImports` computes over the project and the vendor tree as they stand before
`removeExcludes` runs; `removeUnusedImports` then works on the tree left by `removeExcludes`,
where it keeps every directory that this closure protects, so a package imported only from an
excluded directory is retained. -/
theorem cleanup_closure_before_excludes (rt : Runtime) (gopath : GoString) (srcExists : Bool)
    (dir : GoString) (proj : List Node) (targetDir : GoString) (trashConf : conf.Conf)
    (filters : List GoString) (nativeOnly : Bool) (t : CleanupTrace)
    (ht : cleanupTrace rt gopath srcExists dir proj targetDir trashConf filters nativeOnly
      = .done t) :
    (∃ rootPackage,
        (if trashConf.Package = [] then guessRootPackage gopath srcExists dir
          else some trashConf.Package) = some rootPackage
        ∧ collectImports rt proj rootPackage targetDir targetDir filters nativeOnly
          = .done t.imports)
    ∧ t.afterExcludes
        = (removeExcludes trashConf.Excludes targetDir (vendorOf targetDir proj)).1
    ∧ t.afterUnusedImports = (removeUnusedImports t.imports targetDir t.afterExcludes).1
    ∧ (wellNamedEntries t.afterExcludes = true →
        ∀ d, (joinPath targetDir d, true) ∈ listingEntries targetDir t.afterExcludes →
          (d ∈ t.imports ∨ ∃ m ∈ t.imports, (d ++ ['/']) <+: m) →
          (joinPath targetDir d, true) ∈ listingEntries targetDir t.afterUnusedImports) := by
  unfold cleanupTrace at ht
  simp only at ht
  split at ht
  · cases ht
  · rename_i rootPackage hroot
    split at ht
    · cases ht
    · cases ht
    · rename_i imports himports
      split at ht
      · cases ht
      · split at ht
        · cases ht
        · split at ht
          · cases ht
          · split at ht
            · cases ht
            · cases ht
              refine ⟨⟨rootPackage, hroot, himports⟩, rfl, rfl, ?_⟩
              intro hwf d hd hp
              show (joinPath targetDir d, true) ∈ listingEntries targetDir
                (removeUnusedImports imports targetDir
                  (removeExcludes trashConf.Excludes targetDir (vendorOf targetDir proj)).1).1
              rw [removeUnusedImports_eq]
              refine walkEntries_keeps imports targetDir _ ?_ _ d rfl hp _ targetDir ?_ hd
              · intro d1 name es hne hprot
                exact removeUnusedImportsFn_keeps imports targetDir d1 name es hne hprot
              · intro n hn
                exact ⟨n.name, validName_of_wellNamedEntries _ hwf n hn, rfl⟩

/-- Witness of C7 (amended): in the example project with `x.com/X` excluded, `x.com/Y`, which
only `x.com/X` imports, is in the closure and its directory is kept by
`removeUnusedImports`. -/
theorem cleanup_closure_before_excludes_witness :
    (cleanupTrace exampleRuntime [] false "/work/app".toList exampleProject "vendor".toList
        exampleProjectConf ["ignore".toList] false).isDone = true
    ∧ ("vendor/x.com/Y".toList, true) ∈ listingEntries "vendor".toList
        ((cleanupTrace exampleRuntime [] false "/work/app".toList exampleProject
          "vendor".toList exampleProjectConf ["ignore".toList] false).getD
            ⟨[], [], [], [], []⟩).afterUnusedImports :=
  ⟨by set_option maxRecDepth 100000 in decide,
    (cleanup_closure_before_excludes exampleRuntime [] false "/work/app".toList exampleProject
      "vendor".toList exampleProjectConf ["ignore".toList] false _
      (Outcome.eq_done_of_isDone _ ⟨[], [], [], [], []⟩
        (by set_option maxRecDepth 100000 in decide))).2.2.2
      (by set_option maxRecDepth 100000 in decide) "x.com/Y".toList
      (by set_option maxRecDepth 100000 in decide)
      (Or.inl (by set_option maxRecDepth 100000 in decide))⟩

/-- C7 as stated fails: in the example project with `x.com/X` excluded, the closure handed to
`removeUnusedImports` holds `x.com/Y`, the closure over the tree left by `removeExcludes` does
not, and `cleanup` ends with the directory `vendor/x.com/Y` in place. -/
theorem cleanup_keeps_import_of_excluded :
    (cleanupTrace exampleRuntime [] false "/work/app".toList exampleProject "vendor".toList
        exampleProjectConf ["ignore".toList] false).map (fun t => t.imports)
      = .done ["x.com/X".toList, "example.com/app".toList, "example.com/app/sub".toList,
          "x.com/Y".toList]
    ∧ collectImports exampleRuntime
        (setVendor "vendor".toList
          (removeExcludes exampleProjectConf.Excludes "vendor".toList
            (vendorOf "vendor".toList exampleProject)).1 exampleProject)
        "example.com/app".toList "vendor".toList "vendor".toList ["ignore".toList] false
      = .done ["x.com/X".toList, "example.com/app".toList, "example.com/app/sub".toList]
    ∧ (cleanup exampleRuntime [] false "/work/app".toList exampleProject "vendor".toList
        exampleProjectConf ["ignore".toList] false).map
          (fun p => listingEntries "vendor".toList (vendorOf "vendor".toList p))
      = .done [("vendor/x.com".toList, true), ("vendor/x.com/Y".toList, true),
          ("vendor/x.com/Y/y.go".toList, false)] := by
  refine ⟨?_, ?_, ?_⟩
  · set_option maxRecDepth 100000 in decide
  · set_option maxRecDepth 100000 in decide
  · set_option maxRecDepth 100000 in decide

/-! ## `strings.Split` with a separator of one character -/

theorem isPrefixOf_single (c x : Char) (xs : GoString) :
    List.isPrefixOf [c] (x :: xs) = decide (c = x) := by
  by_cases h : c = x
  · subst h; simp [List.isPrefixOf]
  · have : (c == x) = false := by simpa using h
    simp [List.isPrefixOf, this, h]

theorem splitFrom_not_mem (c : Char) (s cur : GoString) (h : c ∉ s) :
    strings.splitFrom [c] s cur 0 = [cur.reverse ++ s] := by
  induction s generalizing cur with
  | nil => simp [strings.splitFrom]
  | cons x xs ih =>
    simp only [List.mem_cons, not_or] at h
    rw [strings.splitFrom, isPrefixOf_single]
    simp only [h.1, decide_False, Bool.false_eq_true, if_false]
    rw [ih _ h.2]
    simp

theorem splitFrom_head (c : Char) (s cur : GoString) :
    (strings.splitFrom [c] s cur 0).headD [] = cur.reverse ++ s.takeWhile (fun x => x ≠ c) := by
  induction s generalizing cur with
  | nil => simp [strings.splitFrom]
  | cons x xs ih =>
    rw [strings.splitFrom, isPrefixOf_single]
    by_cases h : c = x
    · subst h
      simp [List.takeWhile]
    · have hx : x ≠ c := fun e => h e.symm
      simp only [h, decide_False, Bool.false_eq_true, if_false]
      rw [ih]
      simp [List.takeWhile, hx]

theorem splitFrom_getLast (c : Char) (a b cur : GoString) (hb : c ∉ b) :
    (strings.splitFrom [c] (a ++ c :: b) cur 0).getLast? = some b := by
  induction a generalizing cur with
  | nil =>
    rw [List.nil_append, strings.splitFrom, isPrefixOf_single]
    simp only [decide_True, if_true, List.length_singleton, Nat.sub_self]
    rw [splitFrom_not_mem c b [] hb]
    simp
  | cons x xs ih =>
    rw [List.cons_append, strings.splitFrom, isPrefixOf_single]
    by_cases h : c = x
    · simp only [h, decide_True, if_true, List.length_singleton, Nat.sub_self]
      have := ih []
      rw [h] at this
      cases hs : strings.splitFrom [x] (xs ++ x :: b) [] 0 with
      | nil => rw [hs] at this; simp at this
      | cons y ys =>
        rw [hs] at this
        rw [List.getLast?_cons_cons]
        exact this
    · simp only [h, decide_False, Bool.false_eq_true, if_false]
      exact ih _

theorem splitFrom_length_pos (sep : GoString) (s cur : GoString) (skip : Nat) :
    1 ≤ (strings.splitFrom sep s cur skip).length := by
  induction s generalizing cur skip with
  | nil => simp [strings.splitFrom]
  | cons x xs ih =>
    cases skip with
    | succ k => rw [strings.splitFrom]; exact ih _ _
    | zero =>
      rw [strings.splitFrom]
      split
      · simp
      · exact ih _ _

theorem splitFrom_length (c : Char) (s cur : GoString) (h : c ∈ s) :
    2 ≤ (strings.splitFrom [c] s cur 0).length := by
  induction s generalizing cur with
  | nil => simp at h
  | cons x xs ih =>
    rw [strings.splitFrom, isPrefixOf_single]
    by_cases hx : c = x
    · subst hx
      simp only [decide_True, if_true, List.length_cons]
      exact Nat.succ_le_succ (splitFrom_length_pos _ _ _ _)
    · simp only [hx, decide_False, Bool.false_eq_true, if_false]
      apply ih
      rcases List.mem_cons.mp h with h | h
      · exact absurd h hx
      · exact h

theorem Split_single (c : Char) (s : GoString) :
    strings.Split s [c] = strings.splitFrom [c] s [] 0 := by
  simp [strings.Split]

theorem Split_head (c : Char) (s : GoString) :
    (strings.Split s [c]).headD [] = s.takeWhile (fun x => x ≠ c) := by
  rw [Split_single, splitFrom_head]
  simp

theorem exists_last_occurrence (c : Char) (p : GoString) (h : c ∈ p) :
    ∃ a b, p = a ++ c :: b ∧ c ∉ b := by
  have h1 : c ∈ p.reverse := by simpa using h
  obtain ⟨as, bs, hp, hn⟩ := List.eq_append_cons_of_mem h1
  refine ⟨bs.reverse, as.reverse, ?_, by simpa using hn⟩
  have := congrArg List.reverse hp
  simpa using this

theorem Contains_single (c : Char) (s : GoString) :
    strings.Contains s [c] = true ↔ c ∈ s := by
  induction s with
  | nil => simp [strings.Contains, List.isPrefixOf]
  | cons x xs ih =>
    rw [strings.Contains, isPrefixOf_single]
    simp only [Bool.or_eq_true, decide_eq_true_eq, ih, List.mem_cons]

theorem Contains_iff_infix (s sub : GoString) :
    strings.Contains s sub = true ↔ sub <:+: s := by
  induction s with
  | nil =>
    rw [strings.Contains, List.isPrefixOf_iff_prefix]
    constructor
    · intro h; exact h.isInfix
    · intro h
      have := List.eq_nil_of_infix_nil h
      rw [this]
  | cons x xs ih =>
    rw [strings.Contains, Bool.or_eq_true, List.isPrefixOf_iff_prefix, ih, List.infix_cons_iff]

/-! ## Build tags of a file -/

theorem any_eq_filter (tag : GoString) (filters : List GoString) :
    filters.any (fun filter => decide (tag = filter)) = true ↔ tag ∈ filters := by
  rw [List.any_eq_true]
  constructor
  · rintro ⟨x, hx, h⟩
    have : tag = x := by simpa using h
    rw [this]; exact hx
  · intro h
    exact ⟨tag, h, by simp⟩

/-- One comment of the leading block matches when one of its build-tag tokens is a filter. -/
theorem buildLine_matches (text : GoString) (filters : List GoString) :
    (if strings.HasPrefix (strings.TrimSpace (text.drop 2)) "+build".toList = true then
        (strings.Split (strings.TrimSpace
            (strings.TrimPrefix (strings.TrimSpace (text.drop 2)) "+build".toList)) [' ']).any
          (fun grp => (strings.Split grp [',']).any
            (fun tag => filters.any (fun filter => decide (tag = filter))))
      else false) = true
    ↔ ∃ tag ∈ buildLineTokens text, tag ∈ filters := by
  unfold buildLineTokens
  simp only
  by_cases hp : strings.HasPrefix (strings.TrimSpace (text.drop 2)) "+build".toList = true
  · have hpre : "+build".toList <+: strings.TrimSpace (text.drop 2) := by
      simpa [strings.HasPrefix, List.isPrefixOf_iff_prefix] using hp
    have htrim : strings.TrimPrefix (strings.TrimSpace (text.drop 2)) "+build".toList
        = (strings.TrimSpace (text.drop 2)).drop 6 := by
      unfold strings.TrimPrefix
      rw [if_pos hp]
      rfl
    rw [if_pos hp, if_pos hpre, htrim, List.any_eq_true]
    constructor
    · rintro ⟨grp, hgrp, h⟩
      rw [List.any_eq_true] at h
      obtain ⟨tag, htag, h⟩ := h
      exact ⟨tag, List.mem_flatMap.mpr ⟨grp, hgrp, htag⟩, (any_eq_filter tag filters).mp h⟩
    · rintro ⟨tag, htag, hf⟩
      obtain ⟨grp, hgrp, htag⟩ := List.mem_flatMap.mp htag
      refine ⟨grp, hgrp, ?_⟩
      rw [List.any_eq_true]
      exact ⟨tag, htag, (any_eq_filter tag filters).mpr hf⟩
  · have hpre : ¬ "+build".toList <+: strings.TrimSpace (text.drop 2) := by
      intro h
      apply hp
      simpa [strings.HasPrefix, List.isPrefixOf_iff_prefix] using h
    rw [if_neg hp, if_neg hpre]
    simp

theorem hasFilteredBuildTag_iff_tokens (f : AstFile) (filters : List GoString) :
    hasFilteredBuildTag f filters = true ↔ ∃ tag ∈ buildTagTokens f, tag ∈ filters := by
  unfold hasFilteredBuildTag buildTagTokens leadingCommentBlock
  cases hc : f.comments with
  | nil => simp
  | cons block rest =>
    simp only [List.head?_cons]
    by_cases hpos : block.pos > f.package
    · have hn : ¬ (block.pos ≤ f.package ∧ f.doc ≠ some 0) := fun h => by omega
      rw [if_pos hpos, if_neg hn]
      simp
    · rw [if_neg hpos]
      by_cases hdoc : f.doc = some 0
      · have hn : ¬ (block.pos ≤ f.package ∧ f.doc ≠ some 0) := fun h => h.2 hdoc
        rw [if_pos hdoc, if_neg hn]
        simp
      · have hy : block.pos ≤ f.package ∧ f.doc ≠ some 0 := ⟨by omega, hdoc⟩
        rw [if_neg hdoc, if_pos hy]
        simp only
        rw [List.any_eq_true]
        constructor
        · rintro ⟨text, htext, h⟩
          obtain ⟨tag, htag, hf⟩ := (buildLine_matches text filters).mp h
          exact ⟨tag, List.mem_flatMap.mpr ⟨text, htext, htag⟩, hf⟩
        · rintro ⟨tag, htag, hf⟩
          obtain ⟨text, htext, htag⟩ := List.mem_flatMap.mp htag
          exact ⟨text, htext, (buildLine_matches text filters).mpr ⟨tag, htag, hf⟩⟩

/-- C11: `hasFilteredBuildTag` is true exactly when a build-tag token of the file is an entry
of the filter list, the tokens being those of the lines of the leading comment block (first
comment group, before the package clause, not the package doc comment) whose trimmed text
begins with `+build`, the rest of the line (trimmed) split on spaces and then on commas; a file whose
tokens are all the negated token `!t` is not matched by the filter `t`; and with an empty filter
list the result is false. -/
theorem hasFilteredBuildTag_spec (f : AstFile) (filters : List GoString) :
    (hasFilteredBuildTag f filters = true ↔ ∃ tag ∈ buildTagTokens f, tag ∈ filters)
    ∧ (∀ t, (∀ tag ∈ buildTagTokens f, tag = '!' :: t) → hasFilteredBuildTag f [t] = false)
    ∧ hasFilteredBuildTag f [] = false := by
  refine ⟨hasFilteredBuildTag_iff_tokens f filters, ?_, ?_⟩
  · intro t hall
    rw [← Bool.not_eq_true, hasFilteredBuildTag_iff_tokens]
    rintro ⟨tag, htag, hf⟩
    have h1 := hall tag htag
    have h2 : tag = t := by simpa using hf
    rw [h2] at h1
    have := congrArg List.length h1
    simp at this
  · rw [← Bool.not_eq_true, hasFilteredBuildTag_iff_tokens]
    rintro ⟨tag, _, hf⟩
    simp at hf

/-- Witness of C11: the file with the line `// +build !windows` has the single token `!windows`
and is not matched by the filter `windows`, while the filter `!windows` matches it. -/
theorem hasFilteredBuildTag_spec_witness :
    (∀ tag ∈ buildTagTokens exampleNegatedTagFile, tag = '!' :: "windows".toList)
    ∧ hasFilteredBuildTag exampleNegatedTagFile ["windows".toList] = false
    ∧ hasFilteredBuildTag exampleNegatedTagFile ["!windows".toList] = true :=
  ⟨by decide,
    (hasFilteredBuildTag_spec exampleNegatedTagFile []).2.1 "windows".toList (by decide),
    by decide⟩

/-! ## Which declared imports `listImports` sends -/

theorem resolveImport_eq (pkg imp : GoString) : resolveImport pkg imp = resolvedPath pkg imp := by
  unfold resolveImport resolvedPath firstSegment
  simp only [Split_head]

theorem importOf_iff (rootPackage pkg : GoString) (v : ImportSpec) (x : GoString) :
    importOf rootPackage pkg v = some x ↔
      '.' ∈ firstSegment (declaredImport v)
      ∧ ¬ (resolvedPath pkg (declaredImport v) = rootPackage
          ∨ (rootPackage ++ ['/']) <+: resolvedPath pkg (declaredImport v))
      ∧ x = resolvedPath pkg (declaredImport v) := by
  have hpre : ∀ s : GoString, strings.HasPrefix s (rootPackage ++ ['/']) = true
      ↔ (rootPackage ++ ['/']) <+: s := by
    intro s
    simp [strings.HasPrefix, List.isPrefixOf_iff_prefix]
  unfold importOf
  simp only [Split_head, resolveImport_eq]
  change (if (!strings.Contains (firstSegment (declaredImport v)) ['.']) = true then none
    else if resolvedPath pkg (declaredImport v) = rootPackage
        ∨ strings.HasPrefix (resolvedPath pkg (declaredImport v)) (rootPackage ++ ['/']) = true
      then none else some (resolvedPath pkg (declaredImport v))) = some x ↔ _
  by_cases hdot : '.' ∈ firstSegment (declaredImport v)
  · have hc : ¬ (!strings.Contains (firstSegment (declaredImport v)) ['.']) = true := by
      rw [(Contains_single _ _).mpr hdot]; simp
    have hiff : (resolvedPath pkg (declaredImport v) = rootPackage
          ∨ strings.HasPrefix (resolvedPath pkg (declaredImport v)) (rootPackage ++ ['/']) = true)
        ↔ (resolvedPath pkg (declaredImport v) = rootPackage
          ∨ (rootPackage ++ ['/']) <+: resolvedPath pkg (declaredImport v)) := by
      rw [hpre]
    rw [if_neg hc]
    by_cases hroot : resolvedPath pkg (declaredImport v) = rootPackage
        ∨ strings.HasPrefix (resolvedPath pkg (declaredImport v)) (rootPackage ++ ['/']) = true
    · rw [if_pos hroot]
      constructor
      · intro h; cases h
      · intro h; exact absurd (hiff.mp hroot) h.2.1
    · rw [if_neg hroot]
      constructor
      · intro h
        injection h with h
        exact ⟨hdot, fun hr => hroot (hiff.mpr hr), h.symm⟩
      · intro h
        rw [h.2.2]
  · have hc : (!strings.Contains (firstSegment (declaredImport v)) ['.']) = true := by
      have : strings.Contains (firstSegment (declaredImport v)) ['.'] = false := by
        rw [← Bool.not_eq_true, Contains_single]; exact hdot
      rw [this]; rfl
    rw [if_pos hc]
    constructor
    · intro h; cases h
    · intro h; exact absurd h.1 hdot

theorem mem_goImports (rootPackage pkgPath pkg : GoString) (filters : List GoString)
    (files : List AstFile) (f : AstFile) (v : ImportSpec) (x : GoString)
    (hf : f ∈ files)
    (hmain : ¬ (f.name = "main".toList ∧ strings.HasPrefix pkgPath "vendor/".toList = true))
    (htag : hasFilteredBuildTag f filters = false)
    (hv : v ∈ f.Imports) (hx : importOf rootPackage pkg v = some x) :
    x ∈ goImports rootPackage pkgPath pkg filters files := by
  unfold goImports
  rw [List.mem_flatMap]
  refine ⟨f, hf, ?_⟩
  have h1 : ¬ ((decide (f.name = "main".toList)
      && strings.HasPrefix pkgPath "vendor/".toList) = true) := by
    simpa using hmain
  rw [if_neg h1, htag]
  simp only [Bool.false_eq_true, if_false]
  rw [List.mem_filterMap]
  exact ⟨v, hv, hx⟩

theorem listImports_of_parsed (rt : Runtime) (proj : List Node)
    (rootPackage libRoot pkg : GoString) (filters : List GoString) (nativeOnly : Bool)
    (files : List AstFile) (cgo : List GoString)
    (hfiles : ParseDir proj (pkgPathOf rootPackage libRoot pkg)
      (noVendoredTests rt libRoot (pkgPathOf rootPackage libRoot pkg) nativeOnly) = some files)
    (hcgo : cgoImports proj (pkgPathOf rootPackage libRoot pkg) pkg files = some cgo) :
    listImports rt proj rootPackage libRoot pkg filters nativeOnly
      = some (chanPackagesFromLines (util.MergeStrChans
          (goImports rootPackage (pkgPathOf rootPackage libRoot pkg) pkg filters files ++ cgo)
          (util.OneStr pkg))) := by
  unfold listImports
  simp only [hfiles, hcgo]

/-- C12: for a declared import `v` of a file `f` of package `pkg` that `listImports` parses and
does not skip, a path is sent for `v` if and only if the first `/`-separated segment of the
declared string contains a `.` and the resolved path (the string itself, or
`Clean(Join(pkg, imp))` when that segment is `.` or `..`) is neither `rootPackage` nor begins
with `rootPackage + "/"`; the path sent is the resolved path, and it is a member of the set that
`listImports` returns. -/
theorem listImports_sends_import (rt : Runtime) (proj : List Node)
    (rootPackage libRoot pkg : GoString) (filters : List GoString) (nativeOnly : Bool)
    (files : List AstFile) (cgo : List GoString) (f : AstFile) (v : ImportSpec)
    (hfiles : ParseDir proj (pkgPathOf rootPackage libRoot pkg)
      (noVendoredTests rt libRoot (pkgPathOf rootPackage libRoot pkg) nativeOnly) = some files)
    (hcgo : cgoImports proj (pkgPathOf rootPackage libRoot pkg) pkg files = some cgo)
    (hf : f ∈ files)
    (hmain : ¬ (f.name = "main".toList
      ∧ strings.HasPrefix (pkgPathOf rootPackage libRoot pkg) "vendor/".toList = true))
    (htag : hasFilteredBuildTag f filters = false)
    (hv : v ∈ f.Imports) :
    (∀ x, importOf rootPackage pkg v = some x ↔
      '.' ∈ firstSegment (declaredImport v)
      ∧ ¬ (resolvedPath pkg (declaredImport v) = rootPackage
          ∨ (rootPackage ++ ['/']) <+: resolvedPath pkg (declaredImport v))
      ∧ x = resolvedPath pkg (declaredImport v))
    ∧ (∀ x, importOf rootPackage pkg v = some x →
        x ∈ goImports rootPackage (pkgPathOf rootPackage libRoot pkg) pkg filters files
        ∧ ∃ l, listImports rt proj rootPackage libRoot pkg filters nativeOnly = some l
            ∧ x ∈ l) := by
  refine ⟨fun x => importOf_iff rootPackage pkg v x, ?_⟩
  intro x hx
  have hmem := mem_goImports rootPackage (pkgPathOf rootPackage libRoot pkg) pkg filters files
    f v x hf hmain htag hv hx
  refine ⟨hmem, _, listImports_of_parsed rt proj rootPackage libRoot pkg filters nativeOnly
    files cgo hfiles hcgo, ?_⟩
  rw [mem_chanPackagesFromLines]
  simp only [util.MergeStrChans, List.mem_append]
  exact Or.inl (Or.inl hmem)

/-- Witness of C12: in the example project the file of `x.com/X` declares the import `x.com/Y`,
which is sent, and the file of the root package declares `fmt` and `example.com/app/sub`, for
which nothing is sent. -/
theorem listImports_sends_import_witness :
    importOf "example.com/app".toList "x.com/X".toList ⟨"\"x.com/Y\"".toList, none⟩
      = some "x.com/Y".toList
    ∧ importOf "example.com/app".toList "example.com/app".toList ⟨"\"fmt\"".toList, none⟩ = none
    ∧ importOf "example.com/app".toList "example.com/app".toList
        ⟨"\"example.com/app/sub\"".toList, none⟩ = none
    ∧ ∃ l, listImports exampleRuntime exampleProject "example.com/app".toList "vendor".toList
          "x.com/X".toList ["ignore".toList] false = some l ∧ "x.com/Y".toList ∈ l :=
  ⟨by decide, by decide, by decide,
    ((listImports_sends_import exampleRuntime exampleProject "example.com/app".toList
      "vendor".toList "x.com/X".toList ["ignore".toList] false
      [{ name := "X".toList, package := 8, comments := [], doc := none,
          decls := [.genDecl none [.importSpec ⟨"\"x.com/Y\"".toList, none⟩]] }]
      [] _ ⟨"\"x.com/Y\"".toList, none⟩
      (by set_option maxRecDepth 100000 in decide)
      (by set_option maxRecDepth 100000 in decide)
      (List.mem_singleton.mpr rfl) (by decide) (by decide) (by decide)).2
        "x.com/Y".toList (by decide)).2⟩

/-! ## `removeUnusedFiles` -/

theorem isGoFile_iff (name : GoString) :
    isGoFile name = true ↔
      ∃ a b, name = a ++ '.' :: b ∧ '.' ∉ b
        ∧ b ∈ ["go".toList, "h".toList, "c".toList, "s".toList, "cpp".toList, "hpp".toList] := by
  unfold isGoFile
  simp only [Split_single]
  by_cases hdot : '.' ∈ name
  · obtain ⟨a, b, hab, hb⟩ := exists_last_occurrence '.' name hdot
    have hlen := splitFrom_length '.' name [] hdot
    have hne : ¬ (strings.splitFrom ['.'] name [] 0).length = 1 := by omega
    rw [if_neg hne]
    have hlast : (strings.splitFrom ['.'] name [] 0).getLast? = some b := by
      rw [hab]; exact splitFrom_getLast '.' a b [] hb
    rw [hlast]
    have hcont : goSuffixes.contains b = true ↔
        b ∈ ["go".toList, "h".toList, "c".toList, "s".toList, "cpp".toList, "hpp".toList] := by
      rw [List.contains_iff_exists_mem_beq]
      constructor
      · rintro ⟨x, hx, hbx⟩
        have : b = x := by simpa using hbx
        rw [this]; exact hx
      · intro h
        exact ⟨b, h, by simp⟩
    simp only [Option.getD_some]
    rw [hcont]
    constructor
    · intro h
      exact ⟨a, b, hab, hb, h⟩
    · rintro ⟨a', b', hab', hb', hmem⟩
      have hlast' : (strings.splitFrom ['.'] name [] 0).getLast? = some b' := by
        rw [hab']; exact splitFrom_getLast '.' a' b' [] hb'
      rw [hlast] at hlast'
      injection hlast' with hbb
      rw [hbb]
      exact hmem
  · rw [splitFrom_not_mem '.' name [] hdot]
    simp only [List.length_singleton, if_true]
    constructor
    · intro h; cases h
    · rintro ⟨a, b, hab, _, _⟩
      exact absurd (by rw [hab]; simp) hdot

theorem isLicenseFile_iff (name : GoString) :
    isLicenseFile name = true ↔
      "license".toList <:+: strings.ToLower name ∨ "notice".toList <:+: strings.ToLower name := by
  unfold isLicenseFile
  simp only
  rw [← Contains_iff_infix, ← Contains_iff_infix]
  by_cases h : (strings.Contains (strings.ToLower name) "license".toList
      || strings.Contains (strings.ToLower name) "notice".toList) = true
  · rw [if_pos h]
    simpa using h
  · rw [if_neg h]
    simpa using h

theorem removeUnusedFilesFn_file (t p name : GoString) (src : Option AstFile) (hp : p ≠ t) :
    removeUnusedFilesFn t p (.file name src)
      = ⟨!(isGoFile name || isLicenseFile name), .nil⟩ := by
  unfold removeUnusedFilesFn
  rw [if_neg hp]
  simp only [Node.IsDir, Node.name, Bool.false_eq_true, if_false]
  by_cases h : (!isGoFile name && !isLicenseFile name) = true
  · rw [if_pos h]
    have h2 : (!(isGoFile name || isLicenseFile name)) = true := by simpa using h
    rw [h2]
  · rw [if_neg h]
    have h2 : (!(isGoFile name || isLicenseFile name)) = false := by
      rw [Bool.not_eq_true] at h
      rw [← h]
      cases isGoFile name <;> cases isLicenseFile name <;> rfl
    rw [h2]

theorem removeUnusedFilesFn_dir (t p name : GoString) (es : List Node) :
    removeUnusedFilesFn t p (.dir name es) = ⟨false, .nil⟩ := by
  unfold removeUnusedFilesFn
  by_cases hp : p = t
  · rw [if_pos hp]
  · rw [if_neg hp]
    simp [Node.IsDir]

mutual
/-- The walk of `removeUnusedFiles` at an entry below the target directory. -/
theorem walk_removeUnusedFiles (t : GoString) :
    ∀ (n : Node) (p : GoString), t.length < p.length →
      walk (removeUnusedFilesFn t) p n = (n.keptFiles, .nil)
  | .file name src, p, hp => by
    have hne : p ≠ t := fun h => by rw [h] at hp; omega
    rw [walk_file, removeUnusedFilesFn_file t p name src hne, Node.keptFiles]
    cases isGoFile name <;> cases isLicenseFile name <;> rfl
  | .dir name es, p, hp => by
    rw [walk_dir_kept _ p name es (removeUnusedFilesFn_dir t p name es),
      walkEntries_removeUnusedFiles t es p (Nat.le_of_lt hp), Node.keptFiles]
/-- The walk of `removeUnusedFiles` over the entries of a directory. -/
theorem walkEntries_removeUnusedFiles (t : GoString) :
    ∀ (es : List Node) (parent : GoString), t.length ≤ parent.length →
      walkEntries (removeUnusedFilesFn t) parent es = (keptFilesEntries es, .nil)
  | [], parent, _ => by rw [walkEntries, keptFilesEntries]
  | n :: rest, parent, hp => by
    have hlen : t.length < (joinPath parent n.name).length := by
      simp only [joinPath, List.length_append, List.length_cons]
      omega
    rw [walkEntries_cons, walk_removeUnusedFiles t n _ hlen,
      walkEntries_removeUnusedFiles t rest parent hp, keptFilesEntries]
end

/-- C15: `removeUnusedFiles` leaves under `targetDir` exactly the directories, all of them,
and the files whose name satisfies `isGoFile` or `isLicenseFile`, and the walk returns without
error; `isGoFile` holds exactly for a name that contains a `.` and whose text after the last `.`
is one of go, h, c, s, cpp, hpp; `isLicenseFile` holds exactly when the lower-cased name contains
`license` or `notice`. -/
theorem removeUnusedFiles_keeps_iff (targetDir : GoString) (vendor : List Node) :
    removeUnusedFiles targetDir vendor = (keptFilesEntries vendor, .nil)
    ∧ (∀ name, isGoFile name = true ↔
        ∃ a b, name = a ++ '.' :: b ∧ '.' ∉ b
          ∧ b ∈ ["go".toList, "h".toList, "c".toList, "s".toList, "cpp".toList, "hpp".toList])
    ∧ (∀ name, isLicenseFile name = true ↔
        "license".toList <:+: strings.ToLower name
          ∨ "notice".toList <:+: strings.ToLower name) := by
  refine ⟨?_, isGoFile_iff, isLicenseFile_iff⟩
  unfold removeUnusedFiles
  rw [Walk_of_root targetDir vendor _ (removeUnusedFilesFn_dir targetDir targetDir targetDir vendor),
    walkEntries_removeUnusedFiles targetDir vendor targetDir (Nat.le_refl _)]
  rfl

/-! ## The slice of `removeUnusedImports` on a file lying in the target directory -/

theorem goSlice_none_of_lt (s : GoString) (lo hi : Int) (h : hi < lo) : goSlice s lo hi = none := by
  unfold goSlice
  rw [if_neg]
  intro hc
  omega

/-- C16 (violated by the code): for a non-directory entry `name` lying directly in `targetDir`
the path is `targetDir/name`, the lower bound `len(targetDir + "/")` of the slice is one more
than the upper bound `LastIndex(path, "/") = len(targetDir)`, the slice expression panics, and
the walk of `removeUnusedImports` ends in that panic with nothing removed. -/
theorem removeUnusedImports_panics_on_top_level_file (imports : Packages)
    (targetDir name : GoString) (src : Option AstFile) (rest : List Node)
    (hname : '/' ∉ name) :
    strings.LastIndex (joinPath targetDir name) ['/'] < ((targetDir ++ ['/']).length : Int)
    ∧ goSlice (joinPath targetDir name) ((targetDir ++ ['/']).length)
        (strings.LastIndex (joinPath targetDir name) ['/']) = none
    ∧ removeUnusedImports imports targetDir (.file name src :: rest)
        = (.file name src :: rest, .panic) := by
  have hli : strings.LastIndex (joinPath targetDir name) ['/'] = (targetDir.length : Int) :=
    LastIndex_append targetDir name hname
  have hlt : strings.LastIndex (joinPath targetDir name) ['/']
      < ((targetDir ++ ['/']).length : Int) := by
    rw [hli]; simp
  have hsl := goSlice_none_of_lt (joinPath targetDir name) ((targetDir ++ ['/']).length)
    (strings.LastIndex (joinPath targetDir name) ['/']) hlt
  refine ⟨hlt, hsl, ?_⟩
  have hfn : ∀ parents, removeUnusedImportsFn imports parents targetDir (joinPath targetDir name)
      (.file name src) = ⟨false, .panic⟩ := by
    intro parents
    unfold removeUnusedImportsFn
    rw [if_neg (joinPath_ne_self targetDir name)]
    simp only [Node.IsDir, Bool.not_false, if_true]
    rw [hsl]
  rw [removeUnusedImports_eq, walkEntries_cons]
  simp only [Node.name, walk_file, hfn]
  simp

/-- Witness of C16: a vendor directory that holds the file `README.md` next to its packages. -/
theorem removeUnusedImports_panics_on_top_level_file_witness :
    strings.LastIndex "vendor/README.md".toList ['/'] = 6
    ∧ (("vendor".toList ++ ['/']).length : Int) = 7
    ∧ removeUnusedImports ["A".toList] "vendor".toList
        (.file "README.md".toList none :: exampleVendor)
      = (.file "README.md".toList none :: exampleVendor, .panic) :=
  ⟨by decide, by decide,
    (removeUnusedImports_panics_on_top_level_file ["A".toList] "vendor".toList
      "README.md".toList none exampleVendor (by decide)).2.2⟩

/-! ## `checkout` of a pinned tag or commit -/

theorem exec_fst (w : World) (h : List Call) (c : Call) : (exec w h c).1 = h ++ [c] := rfl

theorem exec_snd (w : World) (h : List Call) (c : Call) : (exec w h c).2 = w h c := rfl

theorem isBranch_fst (w : World) (h : List Call) (remote version : GoString) :
    (isBranch w h remote version).1 = h ++ [gitBranchList (remote ++ '/' :: version)] := rfl

theorem fetch_eq (w : World) (h : List Call) (i : conf.Import) :
    fetch w h i = (h ++ [gitFetch (remoteName i.Repo)], (w h (gitFetch (remoteName i.Repo))).failed) :=
  rfl

/-- C13: for an import whose version is not `master` and is not a remote branch, `checkout`
makes these calls after the change of directory and the branch query: `git checkout` of the
version, with no fetch before it; when that succeeds nothing more; when it fails one
`git fetch`, whose failure is fatal, and then one more `git checkout` of the same version, whose
failure is fatal.  A failed change of directory is fatal before any command. -/
theorem checkout_pinned_calls (w : World) (h : List Call) (trashDir : GoString)
    (i : conf.Import)
    (hver : i.Version ≠ "master".toList)
    (hbr : (isBranch w (h ++ [.chdir (path.Join [trashDir, "src".toList, i.Package])])
      (remoteName i.Repo) i.Version).2 = false) :
    checkout w h trashDir i =
      if (w h (.chdir (path.Join [trashDir, "src".toList, i.Package]))).failed = true then
        (h ++ [.chdir (path.Join [trashDir, "src".toList, i.Package])], .panic)
      else if (w (h ++ [.chdir (path.Join [trashDir, "src".toList, i.Package]),
          gitBranchList (remoteName i.Repo ++ '/' :: i.Version)])
          (gitCheckout i.Version)).failed = false then
        (h ++ [.chdir (path.Join [trashDir, "src".toList, i.Package]),
          gitBranchList (remoteName i.Repo ++ '/' :: i.Version), gitCheckout i.Version],
          .done ())
      else if (w (h ++ [.chdir (path.Join [trashDir, "src".toList, i.Package]),
          gitBranchList (remoteName i.Repo ++ '/' :: i.Version), gitCheckout i.Version])
          (gitFetch (remoteName i.Repo))).failed = true then
        (h ++ [.chdir (path.Join [trashDir, "src".toList, i.Package]),
          gitBranchList (remoteName i.Repo ++ '/' :: i.Version), gitCheckout i.Version,
          gitFetch (remoteName i.Repo)], .panic)
      else
        (h ++ [.chdir (path.Join [trashDir, "src".toList, i.Package]),
          gitBranchList (remoteName i.Repo ++ '/' :: i.Version), gitCheckout i.Version,
          gitFetch (remoteName i.Repo), gitCheckout i.Version],
          if (w (h ++ [.chdir (path.Join [trashDir, "src".toList, i.Package]),
            gitBranchList (remoteName i.Repo ++ '/' :: i.Version), gitCheckout i.Version,
            gitFetch (remoteName i.Repo)]) (gitCheckout i.Version)).failed = true
          then .panic else .done ()) := by
  unfold checkout
  simp only [exec_fst, exec_snd, if_neg hver, hbr, isBranch_fst, fetch_eq,
    Bool.false_eq_true, if_false, List.append_assoc, List.singleton_append, List.cons_append,
    List.nil_append]
  by_cases hcd : (w h (.chdir (path.Join [trashDir, "src".toList, i.Package]))).failed = true
  · simp only [hcd, if_true]
  · simp only [hcd, Bool.false_eq_true, if_false]
    by_cases hco : (w (h ++ [.chdir (path.Join [trashDir, "src".toList, i.Package]),
        gitBranchList (remoteName i.Repo ++ '/' :: i.Version)])
        (gitCheckout i.Version)).failed = true
    · simp only [hco, if_true, Bool.true_eq_false, if_false]
      by_cases hf : (w (h ++ [.chdir (path.Join [trashDir, "src".toList, i.Package]),
          gitBranchList (remoteName i.Repo ++ '/' :: i.Version), gitCheckout i.Version])
          (gitFetch (remoteName i.Repo))).failed = true
      · simp only [hf, if_true]
      · simp only [hf, Bool.false_eq_true, if_false]
        by_cases hco2 : (w (h ++ [.chdir (path.Join [trashDir, "src".toList, i.Package]),
            gitBranchList (remoteName i.Repo ++ '/' :: i.Version), gitCheckout i.Version,
            gitFetch (remoteName i.Repo)]) (gitCheckout i.Version)).failed = true
        · simp only [hco2, if_true, List.append_assoc, List.cons_append, List.nil_append]
        · simp only [hco2, Bool.false_eq_true, if_false, List.append_assoc, List.cons_append,
            List.nil_append]
    · have hco' : (w (h ++ [.chdir (path.Join [trashDir, "src".toList, i.Package]),
          gitBranchList (remoteName i.Repo ++ '/' :: i.Version)])
          (gitCheckout i.Version)).failed = false := by
        simpa using hco
      simp only [hco', Bool.false_eq_true, if_false, if_true]

/-- Witness of C13: the tag `v1.0` is unknown until `origin` has been fetched; the first
checkout fails, one fetch follows, and the second checkout succeeds. -/
theorem checkout_pinned_calls_witness :
    checkout exampleFetchWorld [] "/cache".toList
        ⟨"x.com/p".toList, "v1.0".toList, [], ⟨false, false⟩⟩
      = ([.chdir "/cache/src/x.com/p".toList, gitBranchList "origin/v1.0".toList,
          gitCheckout "v1.0".toList, gitFetch "origin".toList, gitCheckout "v1.0".toList],
        .done ()) :=
  (checkout_pinned_calls exampleFetchWorld [] "/cache".toList
    ⟨"x.com/p".toList, "v1.0".toList, [], ⟨false, false⟩⟩
    (by decide) (by set_option maxRecDepth 100000 in decide)).trans
    (by set_option maxRecDepth 100000 in decide)

/-! ## `checkGitRepo` on a cache tree that is a valid repository -/

theorem isCurrentDirARepo_extends (w : World) (h : List Call) (trashDir : GoString) :
    h <+: (isCurrentDirARepo w h trashDir).1 := by
  unfold isCurrentDirARepo
  simp only [exec_fst, exec_snd]
  split
  · exact List.prefix_append _ _
  · split
    · rw [List.append_assoc]; exact List.prefix_append _ _
    · rw [List.append_assoc]; exact List.prefix_append _ _

theorem isCurrentDirARepo_fst (w : World) (h : List Call) (trashDir : GoString) (b : Bool)
    (hb : (isCurrentDirARepo w h trashDir).2 = some b) :
    (isCurrentDirARepo w h trashDir).1 = h ++ [.getwd, gitShowToplevel] := by
  unfold isCurrentDirARepo at hb ⊢
  simp only [exec_fst, exec_snd] at hb ⊢
  split
  · rename_i hwd
    rw [if_pos hwd] at hb
    cases hb
  · split <;> simp

theorem remoteExists_fst (w : World) (h : List Call) (name : GoString) :
    (remoteExists w h name).1 = h ++ [gitRemote] := rfl

theorem addRemote_eq (w : World) (h : List Call) (url : GoString) :
    addRemote w h url = h ++ [gitRemoteAdd (remoteName url) url] := rfl

/-- Every run of `cloneGitRepo` deletes the tree. -/
theorem cloneGitRepo_removes (w : World) (h : List Call) (trashDir repoDir : GoString)
    (i : conf.Import) (insecure : Bool) :
    Call.removeAll repoDir ∈ (cloneGitRepo w h trashDir repoDir i insecure).1 := by
  have key : ∀ args, Call.removeAll repoDir ∈ (isCurrentDirARepo w
      (h ++ [.chdir trashDir] ++ [.removeAll repoDir] ++ [.command "go".toList args]
        ++ [.mkdirAll repoDir] ++ [.chdir repoDir]) trashDir).1 :=
    fun args => (isCurrentDirARepo_extends w _ trashDir).subset (by simp)
  unfold cloneGitRepo
  cases insecure <;>
  · simp only [exec_fst, exec_snd, addRemote_eq, Bool.false_eq_true, if_false, if_true]
    split
    · simp
    · split
      · simp
      · split
        · exact key _
        · split <;> split <;> simp only [List.mem_append, key, true_or, or_true]

/-- C14 (violated by the code): the cache tree exists and is a valid repository, an explicit
remote URL is declared and a remote with the name derived from it exists, but no remote is
named `origin`; then `checkGitRepo` queries the remotes twice and goes on as `cloneGitRepo`,
which deletes the tree and clones it again, although a URL is declared. -/
theorem checkGitRepo_reclones_with_declared_url (w : World) (h : List Call)
    (trashDir repoDir : GoString) (i : conf.Import) (insecure : Bool)
    (hcd : (w h (.chdir repoDir)).failed = false)
    (hrepo : (isCurrentDirARepo w (h ++ [.chdir repoDir]) trashDir).2 = some true)
    (hurl : i.Repo ≠ [])
    (hnamed : (remoteExists w (h ++ [.chdir repoDir, .getwd, gitShowToplevel])
      (remoteName i.Repo)).2 = true)
    (horigin : (remoteExists w (h ++ [.chdir repoDir, .getwd, gitShowToplevel, gitRemote])
      "origin".toList).2 = false) :
    checkGitRepo w h trashDir repoDir i insecure
      = cloneGitRepo w (h ++ [.chdir repoDir, .getwd, gitShowToplevel, gitRemote, gitRemote])
          trashDir repoDir i insecure
    ∧ Call.removeAll repoDir ∈ (checkGitRepo w h trashDir repoDir i insecure).1 := by
  have hfst := isCurrentDirARepo_fst w (h ++ [.chdir repoDir]) trashDir true hrepo
  have h3 : h ++ [Call.chdir repoDir] ++ [Call.getwd, gitShowToplevel]
      = h ++ [.chdir repoDir, .getwd, gitShowToplevel] := by simp
  have h4 : h ++ [Call.chdir repoDir, Call.getwd, gitShowToplevel] ++ [gitRemote]
      = h ++ [.chdir repoDir, .getwd, gitShowToplevel, gitRemote] := by simp
  have h5 : h ++ [Call.chdir repoDir, Call.getwd, gitShowToplevel, gitRemote] ++ [gitRemote]
      = h ++ [.chdir repoDir, .getwd, gitShowToplevel, gitRemote, gitRemote] := by simp
  have heq : checkGitRepo w h trashDir repoDir i insecure
      = cloneGitRepo w (h ++ [.chdir repoDir, .getwd, gitShowToplevel, gitRemote, gitRemote])
          trashDir repoDir i insecure := by
    unfold checkGitRepo
    simp only [exec_fst, exec_snd, hcd, Bool.false_eq_true, if_false, hrepo, hfst, h3,
      if_pos hurl, hnamed, remoteExists_fst, h4, horigin, h5, Bool.not_true, Bool.and_false,
      Bool.not_false, if_true]
  refine ⟨heq, ?_⟩
  rw [heq]
  exact cloneGitRepo_removes w _ trashDir repoDir i insecure

/-- Witness of C14: the cache holds a valid repository of `x.com/p` whose only remote is
`0b3ac62`, the name derived from the declared URL; the tree is deleted and cloned again. -/
theorem checkGitRepo_reclones_with_declared_url_witness :
    remoteName "https://github.com/docker/docker.git".toList = "0b3ac62".toList
    ∧ Call.removeAll "/cache/src/x.com/p".toList
        ∈ (checkGitRepo exampleCacheWorld [] "/cache".toList "/cache/src/x.com/p".toList
            ⟨"x.com/p".toList, "v1.0".toList, "https://github.com/docker/docker.git".toList,
              ⟨false, false⟩⟩ false).1 :=
  ⟨by set_option maxRecDepth 1000000 in decide,
    (checkGitRepo_reclones_with_declared_url exampleCacheWorld [] "/cache".toList
      "/cache/src/x.com/p".toList
      ⟨"x.com/p".toList, "v1.0".toList, "https://github.com/docker/docker.git".toList,
        ⟨false, false⟩⟩ false
      (by decide) (by set_option maxRecDepth 100000 in decide) (by decide)
      (by set_option maxRecDepth 1000000 in decide)
      (by set_option maxRecDepth 100000 in decide)).2⟩

/-! ## `filepath.Join` below a clean path -/

theorem splitFrom_append_sep (c : Char) (s t cur : GoString) :
    strings.splitFrom [c] (s ++ c :: t) cur 0
      = strings.splitFrom [c] s cur 0 ++ strings.splitFrom [c] t [] 0 := by
  induction s generalizing cur with
  | nil =>
    simp [strings.splitFrom, isPrefixOf_single]
  | cons x xs ih =>
    rw [List.cons_append, strings.splitFrom, strings.splitFrom, isPrefixOf_single,
      isPrefixOf_single]
    by_cases hx : c = x
    · simp only [hx, decide_True, if_true, List.length_singleton, Nat.sub_self]
      rw [← hx, ih]
      rfl
    · simp only [hx, decide_False, Bool.false_eq_true, if_false]
      exact ih _

theorem Split_joinPath (p name : GoString) (hname : '/' ∉ name) :
    strings.Split (p ++ '/' :: name) ['/'] = strings.Split p ['/'] ++ [name] := by
  rw [Split_single, Split_single, splitFrom_append_sep, splitFrom_not_mem '/' name [] hname]
  rfl

theorem plainName_iff (name : GoString) :
    plainName name = true ↔ name ≠ [] ∧ '/' ∉ name ∧ name ≠ ['.'] ∧ name ≠ ['.', '.'] := by
  simp [plainName, validName, and_assoc]

theorem cleanElems_cons (rooted : Bool) (e : GoString) (es out : List GoString) :
    filepath.cleanElems rooted (e :: es) out
      = if e = [] ∨ e = ['.'] then filepath.cleanElems rooted es out
        else if e = ['.', '.'] then
          match out with
          | top :: below =>
            if top = ['.', '.'] then filepath.cleanElems rooted es (e :: out)
            else filepath.cleanElems rooted es below
          | [] =>
            if rooted then filepath.cleanElems rooted es []
            else filepath.cleanElems rooted es [e]
        else filepath.cleanElems rooted es (e :: out) := by
  conv_lhs => unfold filepath.cleanElems

theorem cleanElems_nil (rooted : Bool) (out : List GoString) :
    filepath.cleanElems rooted [] out = out.reverse := by
  unfold filepath.cleanElems
  rfl

theorem cleanElems_append_plain (rooted : Bool) (name : GoString)
    (hname : plainName name = true) (xs out : List GoString) :
    filepath.cleanElems rooted (xs ++ [name]) out
      = filepath.cleanElems rooted xs out ++ [name] := by
  obtain ⟨h1, _, h3, h4⟩ := (plainName_iff name).mp hname
  induction xs generalizing out with
  | nil =>
    rw [List.nil_append, cleanElems_cons, if_neg (by simp [h1, h3]), if_neg h4, cleanElems_nil,
      cleanElems_nil]
    simp
  | cons e es ih =>
    rw [List.cons_append, cleanElems_cons rooted e (es ++ [name]) out,
      cleanElems_cons rooted e es out]
    by_cases he : e = [] ∨ e = ['.']
    · rw [if_pos he, if_pos he]; exact ih _
    · rw [if_neg he, if_neg he]
      by_cases hdd : e = ['.', '.']
      · rw [if_pos hdd, if_pos hdd]
        cases out with
        | nil =>
          simp only
          cases rooted
          · simp only [Bool.false_eq_true, if_false]; exact ih _
          · simp only [if_true]; exact ih _
        | cons top below =>
          simp only
          by_cases ht : top = ['.', '.']
          · rw [if_pos ht, if_pos ht]; exact ih _
          · rw [if_neg ht, if_neg ht]; exact ih _
      · rw [if_neg hdd, if_neg hdd]; exact ih _

theorem Join_cons_cons (a b : GoString) (rest : List GoString) :
    strings.Join (a :: b :: rest) ['/'] = a ++ '/' :: strings.Join (b :: rest) ['/'] := by
  simp [strings.Join, List.intercalate, List.intersperse]

theorem Join_single (a : GoString) : strings.Join [a] ['/'] = a := by
  simp [strings.Join, List.intercalate, List.intersperse]

theorem Join_nil : strings.Join [] ['/'] = [] := by
  simp [strings.Join, List.intercalate]

theorem Join_append_single (xs : List GoString) (name : GoString) (hxs : xs ≠ []) :
    strings.Join (xs ++ [name]) ['/'] = strings.Join xs ['/'] ++ '/' :: name := by
  induction xs with
  | nil => exact absurd rfl hxs
  | cons a as ih =>
    cases as with
    | nil => rw [List.singleton_append, Join_cons_cons, Join_single, Join_single]
    | cons b bs =>
      rw [List.cons_append, List.cons_append, Join_cons_cons, Join_cons_cons,
        ← List.cons_append, ih (by simp)]
      simp

theorem HasPrefix_append_left (p rest : GoString) (hp : p ≠ []) :
    strings.HasPrefix (p ++ rest) ['/'] = strings.HasPrefix p ['/'] := by
  cases p with
  | nil => exact absurd rfl hp
  | cons x xs =>
    unfold strings.HasPrefix
    rw [List.cons_append, isPrefixOf_single, isPrefixOf_single]

theorem cleanTarget_iff (p : GoString) :
    cleanTarget p = true ↔ filepath.Clean p = p ∧ p ≠ ['.'] ∧ p ≠ ['/'] := by
  simp [cleanTarget, and_assoc]

theorem cleanTarget_ne_nil (p : GoString) (hp : cleanTarget p = true) : p ≠ [] := by
  intro h
  subst h
  exact absurd hp (by decide)

/-- Below a path in clean form, the cleaned join of the path and a plain name is the path, a
separator and the name. -/
theorem Clean_joinPath (p name : GoString) (hp : cleanTarget p = true)
    (hname : plainName name = true) :
    filepath.Clean (joinPath p name) = joinPath p name := by
  obtain ⟨hc, hdot, hroot⟩ := (cleanTarget_iff p).mp hp
  have hpne := cleanTarget_ne_nil p hp
  have hslash : '/' ∉ name := ((plainName_iff name).mp hname).2.1
  unfold filepath.Clean at hc ⊢
  simp only at hc ⊢
  unfold joinPath
  rw [HasPrefix_append_left p _ hpne, Split_joinPath p name hslash, cleanElems_append_plain _ name hname]
  by_cases hr : strings.HasPrefix p ['/'] = true
  · rw [if_pos hr] at hc ⊢
    have hne : filepath.cleanElems (strings.HasPrefix p ['/']) (strings.Split p ['/']) [] ≠ [] := by
      intro h
      rw [h, Join_nil] at hc
      exact hroot hc.symm
    rw [Join_append_single _ name hne, ← List.cons_append, hc]
  · rw [if_neg hr] at hc ⊢
    by_cases hb : strings.Join
        (filepath.cleanElems (strings.HasPrefix p ['/']) (strings.Split p ['/']) []) ['/'] = []
    · rw [if_pos hb] at hc
      exact absurd hc.symm hdot
    · rw [if_neg hb] at hc
      have hne : filepath.cleanElems (strings.HasPrefix p ['/']) (strings.Split p ['/']) []
          ≠ [] := by
        intro h
        rw [h, Join_nil] at hb
        exact hb rfl
      rw [Join_append_single _ name hne, hc, if_neg (by simp)]

theorem Join_of_clean (p name : GoString) (hp : cleanTarget p = true)
    (hname : plainName name = true) :
    filepath.Join p name = joinPath p name := by
  unfold filepath.Join
  rw [if_pos (cleanTarget_ne_nil p hp)]
  exact Clean_joinPath p name hp hname

theorem cleanTarget_joinPath (p name : GoString) (hp : cleanTarget p = true)
    (hname : plainName name = true) :
    cleanTarget (joinPath p name) = true := by
  rw [cleanTarget_iff]
  have hpne := cleanTarget_ne_nil p hp
  refine ⟨Clean_joinPath p name hp hname, ?_, ?_⟩
  · intro h
    have := congrArg List.length h
    simp [joinPath] at this
    exact hpne (List.length_eq_zero.mp (by omega))
  · intro h
    have := congrArg List.length h
    simp [joinPath] at this
    exact hpne (List.length_eq_zero.mp (by omega))

theorem Node.plainNamed_name (n : Node) (h : n.plainNamed = true) : plainName n.name = true := by
  cases n with
  | file name src => simpa [Node.plainNamed, Node.name] using h
  | dir name es =>
    rw [Node.plainNamed, Bool.and_eq_true] at h
    simpa [Node.name] using h.1

mutual
/-- Below a clean path and on plain names, the walk under joined paths is the walk under
`path + "/" + name`. -/
theorem walk_filepath_eq (fn : GoString → Node → Visit) :
    ∀ (n : Node) (p : GoString), cleanTarget p = true → n.plainNamed = true →
      filepath.walk fn p n = walk fn p n
  | .file name src, p, _, _ => by rw [filepath.walk, walk]
  | .dir name es, p, hp, hn => by
    rw [Node.plainNamed, Bool.and_eq_true] at hn
    rw [filepath.walk, walk, walkEntries_filepath_eq fn es p hp hn.2]
/-- Entries form of `walk_filepath_eq`. -/
theorem walkEntries_filepath_eq (fn : GoString → Node → Visit) :
    ∀ (es : List Node) (parent : GoString), cleanTarget parent = true →
      plainNamedEntries es = true →
      filepath.walkEntries fn parent es = walkEntries fn parent es
  | [], parent, _, _ => by rw [filepath.walkEntries, walkEntries]
  | n :: rest, parent, hp, hes => by
    rw [plainNamedEntries, Bool.and_eq_true] at hes
    have hname := Node.plainNamed_name n hes.1
    rw [filepath.walkEntries, walkEntries, Join_of_clean parent n.name hp hname,
      walk_filepath_eq fn n _ (cleanTarget_joinPath parent n.name hp hname) hes.1,
      walkEntries_filepath_eq fn rest parent hp hes.2]
end

/-- For a root in clean form and a tree of plain names, `filepath.Walk` is the walk `Walk`
under `path + "/" + name`. -/
theorem Walk_filepath_eq (root : GoString) (entries : List Node)
    (fn : GoString → Node → Visit) (hroot : cleanTarget root = true)
    (hnames : plainNamedEntries entries = true) :
    filepath.Walk root entries fn = Walk root entries fn := by
  unfold filepath.Walk Walk
  rw [walkEntries_filepath_eq fn entries root hroot hnames]

theorem removeUnusedImportsRaw_eq (imports : Packages) (targetDir : GoString)
    (vendor : List Node) (hclean : cleanTarget targetDir = true)
    (hnames : plainNamedEntries vendor = true) :
    removeUnusedImportsRaw imports targetDir vendor
      = removeUnusedImports imports targetDir vendor := by
  unfold removeUnusedImportsRaw removeUnusedImports
  exact Walk_filepath_eq targetDir vendor _ hclean hnames

mutual
theorem Node.wellNamed_of_plainNamed : ∀ (n : Node), n.plainNamed = true → n.wellNamed = true
  | .file name src, h => by
    rw [Node.plainNamed] at h
    rw [Node.wellNamed]
    simp only [plainName, Bool.and_eq_true] at h
    exact h.1.1
  | .dir name es, h => by
    rw [Node.plainNamed, Bool.and_eq_true] at h
    rw [Node.wellNamed, Bool.and_eq_true]
    refine ⟨?_, wellNamedEntries_of_plainNamedEntries es h.2⟩
    have h1 := h.1
    simp only [plainName, Bool.and_eq_true] at h1
    exact h1.1.1
theorem wellNamedEntries_of_plainNamedEntries :
    ∀ (es : List Node), plainNamedEntries es = true → wellNamedEntries es = true
  | [], _ => by rw [wellNamedEntries]
  | n :: rest, h => by
    rw [plainNamedEntries, Bool.and_eq_true] at h
    rw [wellNamedEntries, Bool.and_eq_true]
    exact ⟨Node.wellNamed_of_plainNamed n h.1, wellNamedEntries_of_plainNamedEntries rest h.2⟩
end

/-- For a target directory in clean form, `removeUnusedImports` as `filepath.Walk` runs it
leaves in place every directory of the vendor tree whose path relative to `targetDir` is a
member of `imports` or an ancestor, at a `'/'` boundary, of a member. -/
theorem removeUnusedImportsRaw_keeps_ancestors (imports : Packages) (targetDir : GoString)
    (vendor : List Node) (d : GoString)
    (hclean : cleanTarget targetDir = true)
    (hnames : plainNamedEntries vendor = true)
    (hd : (joinPath targetDir d, true) ∈ listingEntries targetDir vendor)
    (hp : d ∈ imports ∨ ∃ m ∈ imports, (d ++ ['/']) <+: m) :
    (joinPath targetDir d, true)
      ∈ listingEntries targetDir (removeUnusedImportsRaw imports targetDir vendor).1 := by
  rw [removeUnusedImportsRaw_eq imports targetDir vendor hclean hnames]
  exact removeUnusedImports_keeps_ancestors imports targetDir vendor d
    (wellNamedEntries_of_plainNamedEntries vendor hnames) hd hp

/-- C1 (violated by the code): the target directory is given as `vendor/`, which is not in
clean form.  `filepath.Walk` visits the directory `A` under the cleaned path `vendor/A`; the
slice `path[len(targetDir+"/"):]` cuts eight characters and leaves the empty string, which is
no member of `imports` and no parent of one, so `A` is removed with its subtree although `A`
is a member of `imports`, and so is `B`: nothing is left of the vendor tree. -/
theorem removeUnusedImports_removes_member_at_trailing_slash :
    cleanTarget "vendor/".toList = false
    ∧ filepath.Join "vendor/".toList "A".toList = "vendor/A".toList
    ∧ goSliceFrom "vendor/A".toList (("vendor/".toList ++ ['/']).length) = some []
    ∧ "A".toList ∈ ["A".toList, "B".toList]
    ∧ ("vendor/A".toList, true) ∈ listingEntries "vendor".toList exampleVendor
    ∧ (removeUnusedImportsRaw ["A".toList, "B".toList] "vendor/".toList exampleVendor).2 = .nil
    ∧ ("vendor/A".toList, true) ∉ listingEntries "vendor".toList
        (removeUnusedImportsRaw ["A".toList, "B".toList] "vendor/".toList exampleVendor).1
    ∧ listingEntries "vendor".toList
        (removeUnusedImportsRaw ["A".toList, "B".toList] "vendor/".toList exampleVendor).1
        = [] := by
  refine ⟨by decide, by decide, by decide, by decide, by decide, ?_, ?_, ?_⟩ <;>
    (set_option maxRecDepth 100000 in decide)

end Trash
